import Mathlib

/-! FlashX: edge-list ingestion (matrix/data_io.cpp).

A shallow embedding of the line parsers, the line splitter, the plain-text
line source and the ingestion driver, followed by the properties that were
checked against them.

Conventions of the embedding.

* A C `char` is its code, a natural number; `std::string` is a list of codes.
* A `const char *` walking through a NUL-terminated string is the list of
  characters from the pointer up to (not including) the terminating NUL;
  dereferencing it at the end yields the NUL (code 0).
* Code that can stop a call abnormally (a failed `assert`, an exception that
  is not caught, a null dereference) returns `Except fault _`.
-/

namespace fm

/-! ## C library -/

/-- C `isspace` in the "C" locale: space, `\t`, `\n`, `\v`, `\f`, `\r`. -/
def isspace (c : Nat) : Bool := c == 32 || (9 ≤ c && c ≤ 13)

/-- C `isdigit`. -/
def isdigit (c : Nat) : Bool := 48 ≤ c && c ≤ 57

/-- The characters of `s.c_str()`: everything before the first NUL. -/
def c_str (s : List Nat) : List Nat := s.takeWhile (fun c => c != 0)

/-- Dereference of a `const char *` into a NUL-terminated string. -/
def deref (p : List Nat) : Nat := p.headD 0

/-- Value of a run of decimal digits. -/
def digits_value (ds : List Nat) : Nat := ds.foldl (fun acc d => 10 * acc + (d - 48)) 0

def LONG_MAX : Int := 2 ^ 63 - 1

def LONG_MIN : Int := -(2 ^ 63)

/-- C `atol` as implemented by glibc (`strtol (p, NULL, 10)`): skip white
space, read an optional sign and the longest run of digits, and clamp the
value to the range of `long`. -/
def atol (p : List Nat) : Int :=
  let p1 := p.dropWhile isspace
  let v : Int := digits_value ((match p1 with
    | 45 :: r => r
    | 43 :: r => r
    | _ => p1).takeWhile isdigit)
  if deref p1 = 45 then max LONG_MIN (-v) else min LONG_MAX v

/-! ## Vertex ids (vertex.h is not part of the sources: taken as a parameter) -/

/-- The declarations of `vertex.h` that the parsers use: the width in bits of
the unsigned type `fg::vertex_id_t` and the constant `fg::MAX_VERTEX_ID`. -/
structure vertex_decl where
  id_bits : Nat
  MAX_VERTEX_ID : Nat

/-- Conversion of a `long` to the unsigned `fg::vertex_id_t`. -/
def to_vertex_id (cfg : vertex_decl) (v : Int) : Nat := (v % 2 ^ cfg.id_bits).toNat

/-- The usual declarations: `typedef unsigned int vertex_id_t` and
`MAX_VERTEX_ID = UINT_MAX`. -/
def vertex_decl32 : vertex_decl := ⟨32, 2 ^ 32 - 1⟩

/-! ## Data frames -/

/-- How a call can stop abnormally. -/
inductive fault where
  | assert_fail
  | bad_lexical_cast
  | null_deref
  | out_of_bounds
  | div_by_zero
  | fatal_exit
  deriving DecidableEq, Repr

/-- The scalar type of a column, as returned by `get_scalar_type<T>()`:
either the one of `fg::vertex_id_t` or the one of the attribute type. -/
inductive col_type where
  | vertex_id_t
  | attr_t
  deriving DecidableEq, Repr

/-- An element of a column: a vertex id or an attribute value. -/
inductive scalar (α : Type) where
  | vid (v : Nat)
  | attr (a : α)
  deriving DecidableEq, Repr

/-- A named column vector (`vec_store` with the name the frame gives it). -/
structure named_vec (α : Type) where
  name : String
  type : col_type
  data : List (scalar α)
  deriving DecidableEq, Repr

/-- A data frame: the ordered list of its named columns. -/
abbrev data_frame (α : Type) := List (named_vec α)

/-- The lengths of the columns of a frame. -/
def col_lengths {α : Type} (df : data_frame α) : List Nat := df.map (fun v => v.data.length)

/-- The data of column `i`, if the frame has one. -/
def col_data {α : Type} (df : data_frame α) (i : Nat) : Option (List (scalar α)) :=
  df[i]?.map (fun v => v.data)

/-- The call `df.get_vec(i)->append(xs)`: a frame without column `i` yields the
null pointer, whose dereference is a fault. -/
def get_vec_append {α : Type} (df : data_frame α) (i : Nat) (xs : List (scalar α)) :
    Except fault (data_frame α) :=
  match df[i]? with
  | none => .error .null_deref
  | some v => .ok (df.set i { v with data := v.data ++ xs })

/-! ## Staging vectors (`smp_vec_store`) -/

/-- The vector `smp_vec_store::create(n, type)`: `n` elements whose contents
are unspecified; they are modelled as zeroed memory. Every element that
survives the later `resize` has been `set` before. -/
def smp_vec_create {α : Type} (n : Nat) : List (scalar α) := List.replicate n (scalar.vid 0)

/-- The call `vec->resize(n)` for `n` not above the current length. -/
def smp_vec_resize {α : Type} (v : List (scalar α)) (n : Nat) : List (scalar α) := v.take n

/-! ## edge_parser -/

/-- The body of the loop of `edge_parser::parse` for one line: `.ok none` is a
`continue` (the line is skipped), `.ok (some (from, to))` reaches the two
`set` calls, and `.error .assert_fail` is a failed
`assert(id >= 0 && id < fg::MAX_VERTEX_ID)`. The pointer difference
`second - line` is the length of the line minus what is left behind `second`. -/
def edge_parser_line (cfg : vertex_decl) (s : List Nat) : Except fault (Option (Nat × Nat)) :=
  let line := c_str s
  let len := line.length
  -- Skip space
  let first := line.dropWhile isspace
  if deref first = 35 then .ok none
  -- Make sure we get a number.
  else if !isdigit (deref first) then .ok none
  else
    let src := to_vertex_id cfg (atol first)
    if !(decide (src < cfg.MAX_VERTEX_ID)) then .error .assert_fail
    else
      -- Go to the end of the first number.
      let second := first.dropWhile isdigit
      if len - second.length = len then .ok none
      else
        -- Skip space between two numbers.
        let second := second.dropWhile isspace
        -- Make sure we get a number.
        if !isdigit (deref second) then .ok none
        else
          let dst := to_vertex_id cfg (atol second)
          if !(decide (dst < cfg.MAX_VERTEX_ID)) then .error .assert_fail
          else .ok (some (src, dst))

/-- The loop of `edge_parser::parse` over the lines that are left, with the
staging vectors `froms`, `tos` and the running `entry_idx`. -/
def edge_parser_loop {α : Type} (cfg : vertex_decl) :
    List (List Nat) → List (scalar α) → List (scalar α) → Nat →
      Except fault (List (scalar α) × List (scalar α) × Nat)
  | [], froms, tos, entry_idx => .ok (froms, tos, entry_idx)
  | s :: rest, froms, tos, entry_idx =>
    match edge_parser_line cfg s with
    | .error e => .error e
    | .ok none => edge_parser_loop cfg rest froms tos entry_idx
    | .ok (some (src, dst)) =>
      edge_parser_loop cfg rest (froms.set entry_idx (scalar.vid src))
        (tos.set entry_idx (scalar.vid dst)) (entry_idx + 1)

/-- The function `edge_parser::parse(lines, df)`: staging vectors of
`lines.size()` elements are filled, resized to `entry_idx` and appended to
columns 0 and 1 of the frame; the result is `froms->get_length()` together
with the frame afterwards. -/
def edge_parser_parse {α : Type} (cfg : vertex_decl) (lines : List (List Nat))
    (df : data_frame α) : Except fault (Nat × data_frame α) :=
  match edge_parser_loop cfg lines (smp_vec_create lines.length)
      (smp_vec_create lines.length) 0 with
  | .error e => .error e
  | .ok (froms, tos, entry_idx) =>
    let froms := smp_vec_resize froms entry_idx
    let tos := smp_vec_resize tos entry_idx
    match get_vec_append df 0 froms with
    | .error e => .error e
    | .ok df1 =>
      match get_vec_append df1 1 tos with
      | .error e => .error e
      | .ok df2 => .ok (froms.length, df2)

/-! ## attr_edge_parser -/

/-- The body of the loop of `attr_edge_parser<AttrType>::parse` for one line.
The function `boost::lexical_cast<AttrType>` is a parameter: `none` stands for
the exception `bad_lexical_cast`, which `parse` does not catch. -/
def attr_edge_parser_line {α : Type} (cfg : vertex_decl) (lexical_cast : List Nat → Option α)
    (s : List Nat) : Except fault (Option (Nat × Nat × α)) :=
  let line := c_str s
  let len := line.length
  -- Skip space
  let first := line.dropWhile isspace
  if deref first = 35 then .ok none
  -- Make sure we get a number.
  else if !isdigit (deref first) then .ok none
  else
    let src := to_vertex_id cfg (atol first)
    if !(decide (src < cfg.MAX_VERTEX_ID)) then .error .assert_fail
    else
      -- Go to the end of the first number.
      let second := first.dropWhile isdigit
      if len - second.length = len then .ok none
      else
        -- Skip space between two numbers.
        let second := second.dropWhile isspace
        -- Make sure we get a number.
        if !isdigit (deref second) then .ok none
        else
          let dst := to_vertex_id cfg (atol second)
          if !(decide (dst < cfg.MAX_VERTEX_ID)) then .error .assert_fail
          else
            -- Go to the end of the second number.
            let third := second.dropWhile isdigit
            if len - third.length = len then .ok none
            else
              -- Skip space between two numbers.
              let third := third.dropWhile isspace
              match lexical_cast third with
              | none => .error .bad_lexical_cast
              | some attr => .ok (some (src, dst, attr))

/-- The loop of `attr_edge_parser<AttrType>::parse` over the lines that are
left. -/
def attr_edge_parser_loop {α : Type} (cfg : vertex_decl) (lexical_cast : List Nat → Option α) :
    List (List Nat) → List (scalar α) → List (scalar α) → List (scalar α) → Nat →
      Except fault (List (scalar α) × List (scalar α) × List (scalar α) × Nat)
  | [], froms, tos, attrs, entry_idx => .ok (froms, tos, attrs, entry_idx)
  | s :: rest, froms, tos, attrs, entry_idx =>
    match attr_edge_parser_line cfg lexical_cast s with
    | .error e => .error e
    | .ok none => attr_edge_parser_loop cfg lexical_cast rest froms tos attrs entry_idx
    | .ok (some (src, dst, attr)) =>
      attr_edge_parser_loop cfg lexical_cast rest (froms.set entry_idx (scalar.vid src))
        (tos.set entry_idx (scalar.vid dst)) (attrs.set entry_idx (scalar.attr attr))
        (entry_idx + 1)

/-- The function `attr_edge_parser<AttrType>::parse(lines, df)`. -/
def attr_edge_parser_parse {α : Type} (cfg : vertex_decl) (lexical_cast : List Nat → Option α)
    (lines : List (List Nat)) (df : data_frame α) : Except fault (Nat × data_frame α) :=
  match attr_edge_parser_loop cfg lexical_cast lines (smp_vec_create lines.length)
      (smp_vec_create lines.length) (smp_vec_create lines.length) 0 with
  | .error e => .error e
  | .ok (froms, tos, attrs, entry_idx) =>
    let froms := smp_vec_resize froms entry_idx
    let tos := smp_vec_resize tos entry_idx
    let attrs := smp_vec_resize attrs entry_idx
    match get_vec_append df 0 froms with
    | .error e => .error e
    | .ok df1 =>
      match get_vec_append df1 1 tos with
      | .error e => .error e
      | .ok df2 =>
        match get_vec_append df2 2 attrs with
        | .error e => .error e
        | .ok df3 => .ok (froms.length, df3)

/-- A `boost::lexical_cast<long>` for the examples: an optional sign and at
least one digit, nothing before or after them; anything else is
`bad_lexical_cast`. (Values outside `long` do not occur in the examples.) -/
def lexical_cast_long (p : List Nat) : Option Int :=
  let neg := decide (deref p = 45)
  let ds := if deref p = 45 ∨ deref p = 43 then p.tail else p
  if ds ≠ [] ∧ ds.all isdigit then
    some (if neg then -(digits_value ds : Int) else digits_value ds)
  else none

/-- The codes of the characters of a string literal. -/
def str (s : String) : List Nat := s.toList.map Char.toNat

/-- An empty frame with the two columns of the edge parser. -/
def edge_frame : data_frame Int :=
  [⟨"source", .vertex_id_t, []⟩, ⟨"dest", .vertex_id_t, []⟩]

/-- Three lines for the examples, one of them a comment. -/
def attr_sample_lines : List (List Nat) := [str "1 2 7", str "# c", str "3 4 9"]

/-- An empty frame with the three columns of the attributed edge parser. -/
def attr_edge_frame (α : Type) : data_frame α :=
  [⟨"source", .vertex_id_t, []⟩, ⟨"dest", .vertex_id_t, []⟩, ⟨"attr", .attr_t, []⟩]

deriving instance DecidableEq for Except

/-! ## parse_lines -/

/-- The search of `strchr(p, c)` in the memory from `p` on: the offset of the
first `c` when it comes before the first NUL, and nothing when a NUL (or the
end of the modelled memory) comes first. -/
def strchr_off (c : Nat) : List Nat → Option Nat
  | [] => none
  | b :: bs => if b = c then some 0 else if b = 0 then none else (strchr_off c bs).map (· + 1)

/-- C `strchr(p, c)`, with pointers as indices into the memory. -/
def strchr (mem : List Nat) (p c : Nat) : Option Nat :=
  (strchr_off c (mem.drop p)).map (p + ·)

/-- The string `std::string(p)`: the characters from `p` up to the first NUL. -/
def string_at (mem : List Nat) (p : Nat) : List Nat := c_str (mem.drop p)

/-- The `while` loop of `parse_lines`, on the memory `mem` with the pointers
`line` and `buf_start` as indices; the result is the memory, `line` and the
vector `lines` after the loop. The fuel bounds the number of iterations. The
test `*(line_end - 1) == '\r'` reads the byte before `line_end`, which is the
byte before the buffer when the block begins with `\n`; so the buffer is not
to start at index 0 of the modelled memory. -/
def parse_lines_loop (buf_start size : Nat) :
    Nat → List Nat → Nat → List (List Nat) → Except fault (List Nat × Nat × List (List Nat))
  | 0, mem, line, lines => .ok (mem, line, lines)
  | fuel + 1, mem, line, lines =>
    match strchr mem line 10 with
    | none => .ok (mem, line, lines)
    | some line_end =>
      if ¬ (line_end - buf_start ≤ size) then .error .assert_fail
      else
        let mem := mem.set line_end 0
        let mem := if mem[line_end - 1]?.getD 0 = 13 then mem.set (line_end - 1) 0 else mem
        parse_lines_loop buf_start size fuel mem (line_end + 1) (lines ++ [string_at mem line])

/-- The vector `lines` that `parse_lines(line_buf, size, parser, df)` builds,
where the buffer starts at index `buf_start` of the memory `mem`. Every
iteration moves `line` forward, so the length of the memory is enough fuel. -/
def parse_lines_split (mem : List Nat) (buf_start size : Nat) : Except fault (List (List Nat)) :=
  match parse_lines_loop buf_start size mem.length mem buf_start [] with
  | .error e => .error e
  | .ok (mem, line, lines) =>
    if line - buf_start < size then .ok (lines ++ [string_at mem line]) else .ok lines

/-- The function `parse_lines(line_buf, size, parser, df)`: the lines are
handed to `parser.parse`. -/
def parse_lines {α R : Type} (parse : List (List Nat) → data_frame α → R) (mem : List Nat)
    (buf_start size : Nat) (df : data_frame α) : Except fault R :=
  match parse_lines_split mem buf_start size with
  | .error e => .error e
  | .ok lines => .ok (parse lines df)

/-- A record without the `\r` at its end, if it has one. -/
def strip_cr (l : List Nat) : List Nat := if l.getLast? = some 13 then l.dropLast else l

/-- The records of a block in the words of the specification, with the bytes
`cur` of the current line read so far: every `\n` ends a record, which is
handed over without the `\n` and without a `\r` right before it; bytes behind
the last `\n` are one final record. -/
def spec_records_aux : List Nat → List Nat → List (List Nat)
  | cur, [] => if cur = [] then [] else [cur]
  | cur, b :: bs =>
    if b = 10 then strip_cr cur :: spec_records_aux [] bs else spec_records_aux (cur ++ [b]) bs

/-- The records of a block in the words of the specification. -/
def spec_records (block : List Nat) : List (List Nat) := spec_records_aux [] block

/-! ## text_file_io -/

/-- Modelled from the spec: the macro `ROUND_PAGE`, which is not part of the
sources, "rounds the current offset down to page size". -/
def ROUND_PAGE (page_size off : Nat) : Nat := off - off % page_size

/-- Modelled from the spec: the macro `ROUNDUP_PAGE`, which is not part of the
sources, rounds an offset "up to page size". -/
def ROUNDUP_PAGE (page_size off : Nat) : Nat := ROUND_PAGE page_size (off + page_size - 1)

/-- The state of a `text_file_io`: the bytes of the file behind `fd` (their
number is `file_size`) and `curr_off`. -/
structure text_file_io where
  file : List Nat
  curr_off : Nat
  deriving DecidableEq, Repr

/-- The function `text_file_io::eof`. -/
def text_file_io.eof (io : text_file_io) : Bool :=
  decide ((io.file.length : Int) - (io.curr_off : Int) = 0)

/-- The loop `while (*line_end != '\n') line_end--` from index `i` of the
buffer down: the index of the `\n` at which it stops, and nothing when it
leaves the buffer at its start. -/
def scan_back (addr : List Nat) : Nat → Option Nat
  | 0 => if addr[0]? = some 10 then some 0 else none
  | i + 1 => if addr[i + 1]? = some 10 then some (i + 1) else scan_back addr i

/-- The function `text_file_io::read_lines(wanted_bytes, read_bytes)` for the
page size `page_size` (the macro `PAGE_SIZE` is not part of the sources). The
buffer `addr` is modelled by the `expected_size` bytes that `read_complete`
puts into it. The result is the block (the `read_bytes` bytes at `line_buf`,
which the zero sentinel follows), `read_bytes` and the new state. The backward
scan cannot pass the byte before `line_buf` when `local_off > 0`, because that
byte is asserted to be `\n`; so `line_end - line_buf` is not negative. -/
def text_file_io.read_lines (page_size : Nat) (io : text_file_io) (wanted_bytes : Nat) :
    Except fault (List Nat × Nat × text_file_io) :=
  let file_size := io.file.length
  let align_start := ROUND_PAGE page_size io.curr_off
  let align_end := ROUNDUP_PAGE page_size (io.curr_off + wanted_bytes)
  let local_off := io.curr_off - align_start
  let buf_size := align_end - align_start
  if ¬ (file_size > align_start) then .error .assert_fail
  else
    let expected_size := min buf_size (file_size - align_start)
    let addr := (io.file.drop align_start).take expected_size
    if local_off > 0 ∧ addr[local_off - 1]? ≠ some 10 then .error .assert_fail
    else
      -- Find the end of the last line in the buffer.
      let start := if expected_size = buf_size then expected_size - 2 else expected_size - 1
      match scan_back addr start with
      | none => .error .out_of_bounds
      | some nl =>
        let line_end := nl + 1
        let read_bytes := line_end - local_off
        let curr_off := io.curr_off + read_bytes
        if ¬ (curr_off ≤ file_size) then .error .assert_fail
        else .ok ((addr.drop local_off).take read_bytes, read_bytes,
          { io with curr_off := curr_off })

/-- The constant `LINE_BLOCK_SIZE`. -/
def LINE_BLOCK_SIZE : Nat := 16 * 1024 * 1024

/-! ## Line parsers and the frames of read_lines -/

/-- The declarations of a `line_parser`: `get_num_cols`, `get_col_name` and
`get_col_type`; `none` stands for the exception `std::invalid_argument`. -/
structure line_parser_decl where
  get_num_cols : Nat
  get_col_name : Nat → Option String
  get_col_type : Nat → Option col_type

/-- The declarations of `edge_parser`. -/
def edge_parser_decl : line_parser_decl where
  get_num_cols := 2
  get_col_name := fun idx => if idx = 0 then some "source" else some "dest"
  get_col_type := fun _ => some .vertex_id_t

/-- The declarations of `attr_edge_parser<AttrType>`. -/
def attr_edge_parser_decl : line_parser_decl where
  get_num_cols := 3
  get_col_name := fun idx =>
    match idx with
    | 0 => some "source"
    | 1 => some "dest"
    | 2 => some "attr"
    | _ => none
  get_col_type := fun idx =>
    match idx with
    | 0 => some .vertex_id_t
    | 1 => some .vertex_id_t
    | 2 => some .attr_t
    | _ => none

/-- The call `df->add_vec(parser.get_col_name(i), vec_store::create(0,
parser.get_col_type(i), ...))`: an empty column with that name and type is
added behind the columns of the frame. -/
def add_parser_vec {α : Type} (parser : line_parser_decl) (df : data_frame α) (i : Nat) :
    Option (data_frame α) :=
  match parser.get_col_name i, parser.get_col_type i with
  | some name, some type => some (df ++ [⟨name, type, []⟩])
  | _, _ => none

/-- The function `create_data_frame(parser, in_mem)` (and the one without
`in_mem`, which differs in the kind of vector store only): one empty column
for each `i < parser.get_num_cols()`. -/
def create_data_frame {α : Type} (parser : line_parser_decl) : Option (data_frame α) :=
  (List.range parser.get_num_cols).foldlM (add_parser_vec parser) []

/-- The frame that `read_lines(files, parser, in_mem)` creates for two or more
files: the two `add_vec` calls for the columns 0 and 1. -/
def read_lines_files_frame {α : Type} (parser : line_parser_decl) : Option (data_frame α) :=
  (add_parser_vec parser [] 0).bind (fun df => add_parser_vec parser df 1)

/-- The frame in which `read_lines(files, parser, in_mem)` collects its result:
the one of `read_lines(files[0], ...)` for one file, and the two-column frame
otherwise. All later calls on this frame are `append` calls, which, in the
words of the specification, leave the schema constant. -/
def read_lines_result_frame {α : Type} (files : List String) (parser : line_parser_decl) :
    Option (data_frame α) :=
  if files.length = 1 then create_data_frame parser else read_lines_files_frame parser

/-- The schema of a frame: the names and types of its columns, in order. -/
def schema {α : Type} (df : data_frame α) : List (String × col_type) :=
  df.map (fun v => (v.name, v.type))

/-- The schema that a parser declares. -/
def parser_schema (parser : line_parser_decl) : List (Option String × Option col_type) :=
  (List.range parser.get_num_cols).map (fun i => (parser.get_col_name i, parser.get_col_type i))

/-! ## Opening files, and the tasks of read_lines for several files -/

/-- The function `file_io::create(file_name)` on a file system that maps the
names of the files that can be opened to their bytes: the null pointer
(`none`) for a file that cannot be opened. (Only the plain-text source is
modelled here; with gzip support a name that ends in `.gz` gives a
`gz_file_io`, and the null pointer as well when the file cannot be opened.) -/
def file_io_create (fs : String → Option (List Nat)) (file_name : String) :
    Option text_file_io :=
  match fs file_name with
  | none => none
  | some bytes => some ⟨bytes, 0⟩

/-- The first step of `file_parse_task::run()`: the call `io->eof()` of the
loop condition, which dereferences `io`. -/
def file_parse_task_first_eof (io : Option text_file_io) : Except fault Bool :=
  match io with
  | none => .error .null_deref
  | some io => .ok io.eof

/-- The tasks that the loop of `read_lines(files, parser, in_mem)` hands to
the thread pool for two or more files: for each file, in order, a
`file_parse_task` with `io = file_io::create(file)`. -/
def read_lines_files_tasks (fs : String → Option (List Nat)) (files : List String) :
    List (Option text_file_io) :=
  files.map (file_io_create fs)

/-! ## data_frame_set -/

/-- The state of a `data_frame_set`: the queue `dfs`, the atomic counter
`num_dfs` and `max_queue_size`. (The mutex, the condition variables and the
two `wait_for_` flags only serve the blocking, which is modelled by a call
that cannot take its step.) -/
structure data_frame_set (F : Type) where
  dfs : List F
  num_dfs : Nat
  max_queue_size : Nat

/-- The constructor `data_frame_set(max_queue_size)`. -/
def data_frame_set.create {F : Type} (max_queue_size : Nat) : data_frame_set F :=
  ⟨[], 0, max_queue_size⟩

/-- The function `data_frame_set::add(df)`: `none` while the caller has to
wait in `pthread_cond_wait(&add_cond, ...)` because the queue is full. -/
def data_frame_set.add {F : Type} (q : data_frame_set F) (df : F) : Option (data_frame_set F) :=
  if q.dfs.length ≥ q.max_queue_size then none
  else some { q with dfs := q.dfs ++ [df], num_dfs := q.num_dfs + 1 }

/-- The function `data_frame_set::fetch_data_frames()`: `none` while the
caller has to wait in `pthread_cond_wait(&fetch_cond, ...)` because the queue
is empty; otherwise the frames that are returned and the state afterwards. -/
def data_frame_set.fetch_data_frames {F : Type} (q : data_frame_set F) :
    Option (List F × data_frame_set F) :=
  if q.dfs.isEmpty then none
  else some (q.dfs, { q with dfs := [], num_dfs := 0 })

/-- The function `data_frame_set::get_num_dfs()`. -/
def data_frame_set.get_num_dfs {F : Type} (q : data_frame_set F) : Nat := q.num_dfs

/-! ## read_lines for a single file -/

/-- The interface `file_io` of a line source with state `σ`. -/
structure file_io (σ : Type) where
  eof : σ → Bool
  read_lines : σ → Nat → Except fault (List Nat × Nat × σ)

/-- The source `text_file_io` behind the interface `file_io`. -/
def text_file_io.ops (page_size : Nat) : file_io text_file_io where
  eof := text_file_io.eof
  read_lines := text_file_io.read_lines page_size

/-- Where the thread that runs `read_lines(file, parser, in_mem)` stands. -/
inductive driver_pc where
  /-- At the test of `while (!io->eof())`. -/
  | outer
  /-- At the test of `for (...; i < num_tasks && !io->eof(); i++)`. -/
  | for_loop
  /-- At `if (dfs.get_num_dfs() > 0)`. -/
  | check
  /-- In the call of `dfs.fetch_data_frames()` inside the loop. -/
  | fetch
  /-- In `mem_threads->wait4complete()`. -/
  | wait
  /-- In the call of `dfs.fetch_data_frames()` behind the loop. -/
  | final_fetch
  /-- The call has returned `df`. -/
  | done
  /-- The process has been stopped by a fault. -/
  | aborted (e : fault)
  deriving DecidableEq, Repr

/-- The state of a run of `read_lines(file, parser, in_mem)`: the driver
thread (`pc`, `io`, `df`, `num_tasks`, `i`), the parse tasks that the thread
pool has been given and that have not finished (`pending`, each with its
`lines` and `size`), and the `data_frame_set`. The list `blocks_read` is not in
the program: it records the blocks read so far, for the statements. -/
structure driver_state (σ F : Type) where
  pc : driver_pc
  io : σ
  df : F
  num_tasks : Nat
  i : Nat
  pending : List (List Nat × Nat)
  dfs : data_frame_set F
  blocks_read : List (List Nat × Nat)

/-- Who takes the next step: the driver thread, or the worker thread that
runs the pending task number `k` to its end. -/
inductive driver_event where
  | main
  | worker (k : Nat)
  deriving DecidableEq, Repr

/-- The state in which `read_lines(file, parser, in_mem)` enters its loop:
`df` is the frame of `create_data_frame(parser, in_mem)`, `io` the source that
has been opened and `MAX_PENDING` the capacity of the `data_frame_set`. -/
def driver_init {σ F : Type} (io : σ) (df : F) (MAX_PENDING : Nat) : driver_state σ F :=
  ⟨.outer, io, df, 0, 0, [], data_frame_set.create MAX_PENDING, []⟩

/-- One step of a run of `read_lines(file, parser, in_mem)`; `none` when the
thread cannot take a step (it waits, or there is no such task).

* `task_frame lines size` is the frame that `parse_task::run()` builds from a
  block (`create_data_frame(parser)` and `parse_lines`) before it calls
  `dfs.add(df)`; a fault of the parser stops the process.
* `append df tmp` is `df->append(tmp.begin(), tmp.end())`.
* Modelled from the spec: `get_num_pending()`, which is not part of the
  sources, is the "current count of unfinished tasks", and `wait4complete()`
  "blocks until all enqueued tasks have completed".

A worker step runs one pending task to its end; it cannot be taken while the
task would wait in `dfs.add` for room in the queue. -/
def driver_step {σ F : Type} (ops : file_io σ) (task_frame : List Nat → Nat → Except fault F)
    (append : F → List F → F) (MAX_PENDING : Nat) (s : driver_state σ F) :
    driver_event → Option (driver_state σ F)
  | .worker k =>
    match s.pc with
    | .aborted _ => none
    | _ =>
      match s.pending[k]? with
      | none => none
      | some (lines, size) =>
        match task_frame lines size with
        | .error e => some { s with pc := .aborted e }
        | .ok f =>
          match s.dfs.add f with
          | none => none
          | some q => some { s with dfs := q, pending := s.pending.eraseIdx k }
  | .main =>
    match s.pc with
    | .outer =>
      if ops.eof s.io then some { s with pc := .wait }
      else some { s with num_tasks := MAX_PENDING - s.pending.length, i := 0, pc := .for_loop }
    | .for_loop =>
      if s.i < s.num_tasks ∧ ops.eof s.io = false then
        match ops.read_lines s.io LINE_BLOCK_SIZE with
        | .error e => some { s with pc := .aborted e }
        | .ok (lines, size, io) =>
          some { s with io := io, pending := s.pending ++ [(lines, size)], i := s.i + 1,
                        blocks_read := s.blocks_read ++ [(lines, size)] }
      else some { s with pc := .check }
    | .check =>
      if s.dfs.get_num_dfs > 0 then some { s with pc := .fetch }
      else some { s with pc := .outer }
    | .fetch =>
      match s.dfs.fetch_data_frames with
      | none => none
      | some (tmp_dfs, q) =>
        some { s with dfs := q, df := if tmp_dfs.isEmpty then s.df else append s.df tmp_dfs,
                      pc := .outer }
    | .wait => if s.pending.isEmpty then some { s with pc := .final_fetch } else none
    | .final_fetch =>
      match s.dfs.fetch_data_frames with
      | none => none
      | some (tmp_dfs, q) =>
        some { s with dfs := q, df := if tmp_dfs.isEmpty then s.df else append s.df tmp_dfs,
                      pc := .done }
    | .done => none
    | .aborted _ => none

/-- A run: the steps of a list of events, one after the other. -/
def driver_run {σ F : Type} (ops : file_io σ) (task_frame : List Nat → Nat → Except fault F)
    (append : F → List F → F) (MAX_PENDING : Nat) :
    driver_state σ F → List driver_event → Option (driver_state σ F)
  | s, [] => some s
  | s, ev :: evs =>
    match driver_step ops task_frame append MAX_PENDING s ev with
    | none => none
    | some s' => driver_run ops task_frame append MAX_PENDING s' evs

/-- The number of rows of the frame that the parse task of a block builds
(none when the parser stops the process). -/
def block_rows {F : Type} (task_frame : List Nat → Nat → Except fault F) (len : F → Nat)
    (b : List Nat × Nat) : Nat :=
  match task_frame b.1 b.2 with
  | .ok f => len f
  | .error _ => 0

/-- The frame of the parse task of a block with the edge parser: the frame of
`create_data_frame(parser)` after `parse_lines`. The byte before the buffer
is taken to be a `\n`. -/
def edge_task_frame (cfg : vertex_decl) (lines : List Nat) (size : Nat) :
    Except fault (data_frame Int) :=
  match create_data_frame edge_parser_decl with
  | none => .error .null_deref
  | some df =>
    match parse_lines (edge_parser_parse cfg) (10 :: (lines ++ [0])) 1 size df with
    | .error e => .error e
    | .ok (.error e) => .error e
    | .ok (.ok (_, df)) => .ok df

/-- Modelled from the spec: `data_frame::append(frames)`, which is not part of
the sources, "concatenates matching-schema frames column-by-column". -/
def data_frame_append {α : Type} (df : data_frame α) (frames : List (data_frame α)) :
    data_frame α :=
  frames.foldl (fun acc f =>
    List.zipWith (fun v w => { v with data := v.data ++ w.data }) acc f) df

/-- The number of rows that `parser.parse` accepts in the parse task of a
block with the edge parser: the result of `parse_lines` on the frame of
`create_data_frame(parser)`. -/
def edge_task_rows (cfg : vertex_decl) (lines : List Nat) (size : Nat) : Except fault Nat :=
  match parse_lines (edge_parser_parse cfg) (10 :: (lines ++ [0])) 1 size edge_frame with
  | .error e => .error e
  | .ok (.error e) => .error e
  | .ok (.ok (n, _)) => .ok n

/-- The steps of a run on a file of one block: the driver thread reads the
block and leaves the loop, the worker finishes the task, and the driver thread
passes `wait4complete` and fetches the frame. -/
def one_block_run : List driver_event :=
  [.main, .main, .main, .main, .main, .worker 0, .main, .main]

/-- The entry of `read_lines(file, parser, in_mem)`, where `df` is the frame of
`create_data_frame(parser, in_mem)`: `none` is the null frame that is returned
when `file_io::create` gives the null pointer; otherwise the run starts. -/
def read_lines_enter {F : Type} (fs : String → Option (List Nat)) (file : String) (df : F)
    (MAX_PENDING : Nat) : Option (driver_state text_file_io F) :=
  match file_io_create fs file with
  | none => none
  | some io => some (driver_init io df MAX_PENDING)

/-- What a run of `read_lines` for a single file keeps true: the counter of
the queue is its length; the rows in the result frame, in the queue and in the
blocks of the unfinished tasks are the rows of the blocks read so far; no task
is left once `wait4complete` has returned, and no frame is left in the queue
once the call has returned; and the source is at its end behind the loop. -/
def driver_inv {σ F : Type} (ops : file_io σ) (task_frame : List Nat → Nat → Except fault F)
    (len : F → Nat) (n0 : Nat) (s : driver_state σ F) : Prop :=
  s.dfs.num_dfs = s.dfs.dfs.length ∧
  len s.df + (s.dfs.dfs.map len).sum + (s.pending.map (block_rows task_frame len)).sum =
    n0 + (s.blocks_read.map (block_rows task_frame len)).sum ∧
  ((s.pc = .final_fetch ∨ s.pc = .done) → s.pending = []) ∧
  (s.pc = .done → s.dfs.dfs = []) ∧
  ((s.pc = .wait ∨ s.pc = .final_fetch ∨ s.pc = .done) → ops.eof s.io = true)

/-- The states of a run on a source that is at its end from the start: no
task, no frame in the queue, and the driver thread before, in or behind
`wait4complete`. -/
def driver_idle {σ F : Type} (ops : file_io σ) (s : driver_state σ F) : Prop :=
  s.pending = [] ∧ s.dfs.dfs = [] ∧ ops.eof s.io = true ∧
  (s.pc = .outer ∨ s.pc = .wait ∨ s.pc = .final_fetch)

/-- A file system with the one file `empty.txt`, of size 0. -/
def fs_empty_file : String → Option (List Nat) :=
  fun name => if name = "empty.txt" then some [] else none

/-- A file system with the one file `b.txt`. -/
def fs_only_b : String → Option (List Nat) :=
  fun name => if name = "b.txt" then some (str "3 4\n") else none

/-! ## scalar_type_impl (matrix/generic_type.h) -/

/-- The primitive types of `enum prim_type` (without the count `NUM_TYPES`). -/
inductive prim_type where
  | P_CHAR
  | P_SHORT
  | P_INTEGER
  | P_LONG
  | P_FLOAT
  | P_DOUBLE
  | P_BOOL
  deriving DecidableEq, Repr

/-- The value of `sizeof(T)` for the C type of a primitive type (LP64). -/
def prim_type.sizeof : prim_type → Nat
  | .P_CHAR => 1
  | .P_SHORT => 2
  | .P_INTEGER => 4
  | .P_LONG => 8
  | .P_FLOAT => 4
  | .P_DOUBLE => 8
  | .P_BOOL => 1

/-- An object of `scalar_type_impl<T>`: the bytes of its member `v`. -/
structure scalar_type_impl (T : prim_type) where
  v : List Nat
  deriving DecidableEq, Repr

/-- The function `scalar_type_impl<T>::get_raw()`: the bytes at `&v`. -/
def scalar_type_impl.get_raw {T : prim_type} (s : scalar_type_impl T) : List Nat := s.v

/-- The function `scalar_type_impl<T>::get_size()`. -/
def scalar_type_impl.get_size {T : prim_type} (_ : scalar_type_impl T) : Nat := T.sizeof

/-- The function `scalar_type_impl<T>::set_raw(v, size)`: the result and the
object afterwards. In `sizeof(T) != size` the `int` is converted to the
unsigned `size_t`; `memcpy` copies the first `size` bytes at `v`. -/
def scalar_type_impl.set_raw {T : prim_type} (s : scalar_type_impl T) (v : List Nat)
    (size : Int) : Bool × scalar_type_impl T :=
  if (T.sizeof : Int) ≠ size % 2 ^ 64 then (false, s)
  else (true, ⟨v.take size.toNat⟩)

/-! ## Sequences of calls on a data_frame_set -/

/-- A call on a `data_frame_set`: `add(df)` or `fetch_data_frames()`. -/
inductive dfs_op (F : Type) where
  | add (df : F)
  | fetch
  deriving DecidableEq, Repr

/-- A completed call: the state afterwards; `none` when the call does not
complete because it waits. -/
def data_frame_set.step {F : Type} (q : data_frame_set F) : dfs_op F → Option (data_frame_set F)
  | .add df => q.add df
  | .fetch => (q.fetch_data_frames).map (fun r => r.2)

/-- A sequence of completed calls. -/
def data_frame_set.run {F : Type} : data_frame_set F → List (dfs_op F) → Option (data_frame_set F)
  | q, [] => some q
  | q, op :: ops =>
    match q.step op with
    | none => none
    | some q' => data_frame_set.run q' ops

/-! ## Sequences of calls of text_file_io::read_lines -/

/-- Calls of `text_file_io::read_lines`, one after the other, with the given
values of `wanted_bytes`. The result lists, for every call, the `curr_off` at
which it started, its block and its `read_bytes`. -/
def text_read_calls (page_size : Nat) :
    text_file_io → List Nat → Except fault (List (Nat × List Nat × Nat) × text_file_io)
  | io, [] => .ok ([], io)
  | io, wanted_bytes :: rest =>
    match text_file_io.read_lines page_size io wanted_bytes with
    | .error e => .error e
    | .ok (block, read_bytes, io') =>
      match text_read_calls page_size io' rest with
      | .error e => .error e
      | .ok (calls, io'') => .ok ((io.curr_off, block, read_bytes) :: calls, io'')

/-! ## bulk_queue (part_global_cached_private.cpp) -/

/-- The state of a `bulk_queue<T>`: the ring `buf`, its capacity `size`, and
the `int` members `start` and `num_entries`. The `int`s are integers without
overflow (the capacities are far below `2^31`). -/
structure bulk_queue (T : Type) where
  buf : List T
  size : Int
  start : Int
  num_entries : Int
  deriving DecidableEq, Repr

/-- The read `buf[idx]` of a ring; an index outside the ring is a fault. -/
def ring_read {T : Type} (buf : List T) (idx : Int) : Except fault T :=
  if idx < 0 then .error .out_of_bounds
  else
    match buf[idx.toNat]? with
    | none => .error .out_of_bounds
    | some x => .ok x

/-- The write `buf[idx] = x` of a ring; an index outside the ring is a fault. -/
def ring_write {T : Type} (buf : List T) (idx : Int) (x : T) : Except fault (List T) :=
  if idx < 0 ∨ buf.length ≤ idx.toNat then .error .out_of_bounds
  else .ok (buf.set idx.toNat x)

/-- The loop `for (...; i < n; i++) entries[i] = buf[(start + i) % size]` of
`bulk_queue<T>::fetch`, from `i` on and for `cnt` more rounds: the values
written to `entries[i]`, `entries[i + 1]`, ... The operator `%` of C truncates
(`Int.tmod`). -/
def bulk_queue.fetch_loop {T : Type} (q : bulk_queue T) : Nat → Nat → Except fault (List T)
  | _, 0 => .ok []
  | i, cnt + 1 =>
    match ring_read q.buf ((q.start + (i : Int)).tmod q.size) with
    | .error e => .error e
    | .ok x =>
      match bulk_queue.fetch_loop q (i + 1) cnt with
      | .error e => .error e
      | .ok xs => .ok (x :: xs)

/-- The function `bulk_queue<T>::fetch(entries, num)`: the result, the values
written to `entries[0..n)`, and the queue afterwards. A capacity of 0 makes the
operator `%` divide by zero. -/
def bulk_queue.fetch {T : Type} (q : bulk_queue T) (num : Int) :
    Except fault (Int × List T × bulk_queue T) :=
  let n := min num q.num_entries
  if q.size = 0 then .error .div_by_zero
  else
    match q.fetch_loop 0 n.toNat with
    | .error e => .error e
    | .ok entries =>
      .ok (n, entries, { q with start := (q.start + n).tmod q.size,
                                num_entries := q.num_entries - n })

/-- The loop `for (...; i < n; i++) buf[(end + i) % size] = entries[i]` of
`bulk_queue<T>::add`, from `i` on and for `cnt` more rounds: the ring
afterwards. A read behind the end of `entries` is a fault. -/
def bulk_queue.add_loop {T : Type} (size endp : Int) (entries : List T) :
    List T → Nat → Nat → Except fault (List T)
  | buf, _, 0 => .ok buf
  | buf, i, cnt + 1 =>
    match entries[i]? with
    | none => .error .out_of_bounds
    | some x =>
      match ring_write buf ((endp + (i : Int)).tmod size) x with
      | .error e => .error e
      | .ok buf' => bulk_queue.add_loop size endp entries buf' (i + 1) cnt

/-- The function `bulk_queue<T>::add(entries, num)`: the result and the queue
afterwards. -/
def bulk_queue.add {T : Type} (q : bulk_queue T) (entries : List T) (num : Int) :
    Except fault (Int × bulk_queue T) :=
  let n := min num (q.size - q.num_entries)
  if q.size = 0 then .error .div_by_zero
  else
    let endp := (q.start + q.num_entries).tmod q.size
    match bulk_queue.add_loop q.size endp entries q.buf 0 n.toNat with
    | .error e => .error e
    | .ok buf => .ok (n, { q with buf := buf, num_entries := q.num_entries + n })

/-- Modelled from the spec: `is_empty()`, which is declared in a header that
is not part of the sources, is the pre-check for an empty queue. -/
def bulk_queue.is_empty {T : Type} (q : bulk_queue T) : Bool := decide (q.num_entries = 0)

/-- Modelled from the spec: `is_full()`, which is declared in a header that is
not part of the sources, is the pre-check for a full queue. -/
def bulk_queue.is_full {T : Type} (q : bulk_queue T) : Bool := decide (q.num_entries = q.size)

/-- The queue seen as the list of its `num_entries` records from `start` on,
with the indices taken modulo `size` (a position outside the ring shows as
`none`). -/
def bulk_queue.records {T : Type} (q : bulk_queue T) : List (Option T) :=
  (List.range q.num_entries.toNat).map
    (fun (j : Nat) => q.buf[((q.start + (j : Int)) % q.size).toNat]?)

/-- A queue as the class keeps it: a ring of `size >= 1` records, `start` in
`[0, size)` and `num_entries` in `[0, size]`. -/
def bulk_queue.wf {T : Type} (q : bulk_queue T) : Prop :=
  (q.buf.length : Int) = q.size ∧ 0 ≤ q.start ∧ q.start < q.size ∧
    0 ≤ q.num_entries ∧ q.num_entries ≤ q.size

/-! ## gz_file_io (matrix/data_io.cpp) -/

/-- A `gzFile` of zlib that is open for reading: the decompressed bytes that
have not been delivered yet, and the end-of-file indicator. -/
structure gzFile where
  data : List Nat
  past : Bool
  deriving DecidableEq, Repr

/-- The function `gzeof` of zlib: the end-of-file indicator, which is set only
when a read tried to go past the end of the stream and came up short. -/
def gzeof (f : gzFile) : Bool := f.past

/-- The function `int gzread(gzFile, voidp, unsigned len)` of zlib on a stream
that decodes without error: the result, the bytes put into the buffer and the
stream afterwards. The argument is converted to the 32-bit `unsigned`; a
length that does not fit in an `int` is refused with -1, and a length of 0
returns 0 at once. -/
def gzread (f : gzFile) (len : Nat) : Int × List Nat × gzFile :=
  let len := len % 2 ^ 32
  if 2 ^ 31 ≤ len then (-1, [], f)
  else if len = 0 then (0, [], f)
  else (((min len f.data.length : Nat) : Int), f.data.take len,
    ⟨f.data.drop len, decide (f.data.length < len)⟩)

/-- The state of a `gz_file_io`: the vector `prev_buf`, the count
`prev_buf_bytes` and the stream `f`. -/
structure gz_file_io where
  prev_buf : List Nat
  prev_buf_bytes : Nat
  f : gzFile
  deriving DecidableEq, Repr

/-- The constructor `gz_file_io(gzFile f)` on a stream with the decompressed
bytes `stream`, for the page size `PAGE_SIZE` (the macro is not part of the
sources). -/
def gz_file_io.create (PAGE_SIZE : Nat) (stream : List Nat) : gz_file_io :=
  ⟨List.replicate PAGE_SIZE 0, 0, ⟨stream, false⟩⟩

/-- The function `gz_file_io::eof`. -/
def gz_file_io.eof (io : gz_file_io) : Bool := gzeof io.f && decide (io.prev_buf_bytes = 0)

/-- The loop `for (; i < over_read; i++) if (buf[wanted_bytes + i] == '\n')
{ i++; break; }` on the bytes `buf[wanted_bytes .. wanted_bytes + over_read)`:
the value of `i` after it. -/
def over_read_loop : List Nat → Nat
  | [] => 0
  | c :: region => if c = 10 then 1 else over_read_loop region + 1

/-- The function `gz_file_io::read_lines(wanted_bytes1, read_bytes)` for the
page size `PAGE_SIZE`. The result is the block (the `read_bytes` bytes at
`ret_buf`, which the zero sentinel follows), `read_bytes` and the new state.
The `size_t` values are taken modulo `2^64`; `d` stands for the bytes that
`gzread` puts at `buf`, behind the bytes copied from `prev_buf`. -/
def gz_file_io.read_lines (PAGE_SIZE : Nat) (io : gz_file_io) (wanted_bytes1 : Nat) :
    Except fault (List Nat × Nat × gz_file_io) :=
  let buf_size := (wanted_bytes1 + PAGE_SIZE) % 2 ^ 64
  let copied := io.prev_buf.take io.prev_buf_bytes
  if copied.length < io.prev_buf_bytes ∨ buf_size < io.prev_buf_bytes then .error .out_of_bounds
  else
    let read_bytes := io.prev_buf_bytes
    let wanted_bytes :=
      if io.prev_buf_bytes > 0 then (wanted_bytes1 + 2 ^ 64 - io.prev_buf_bytes) % 2 ^ 64
      else wanted_bytes1
    if ¬ gzeof io.f then
      match gzread io.f ((wanted_bytes + PAGE_SIZE) % 2 ^ 64) with
      | (ret, d, f) =>
        if ret ≤ 0 ∧ (ret < 0 ∨ ¬ gzeof f) then .error .fatal_exit
        else if buf_size < read_bytes + d.length then .error .out_of_bounds
        else if (ret % 2 ^ 64).toNat > wanted_bytes then
          let over_read := ret.toNat - wanted_bytes
          let i := over_read_loop ((d.drop wanted_bytes).take over_read)
          let read_bytes := (read_bytes + wanted_bytes + i) % 2 ^ 64
          let prev_buf_bytes := over_read - i
          if ¬ (prev_buf_bytes ≤ PAGE_SIZE) then .error .assert_fail
          else if io.prev_buf.length < prev_buf_bytes then .error .out_of_bounds
          else
            let prev_buf := (d.drop (wanted_bytes + i)).take prev_buf_bytes ++
              io.prev_buf.drop prev_buf_bytes
            -- The line buffer must end with '\0'.
            if ¬ (read_bytes < buf_size) then .error .assert_fail
            else .ok ((copied ++ d).take read_bytes, read_bytes, ⟨prev_buf, prev_buf_bytes, f⟩)
        else
          let read_bytes := (read_bytes + ret.toNat) % 2 ^ 64
          if ¬ (read_bytes < buf_size) then .error .assert_fail
          else .ok ((copied ++ d).take read_bytes, read_bytes, ⟨io.prev_buf, 0, f⟩)
    else
      if ¬ (read_bytes < buf_size) then .error .assert_fail
      else .ok (copied.take read_bytes, read_bytes, ⟨io.prev_buf, 0, io.f⟩)

/-- Calls of `gz_file_io::read_lines`, one after the other, with the given
values of `wanted_bytes`, each made as in the loops of the callers only while
`eof()` is false (the sequence ends at the first call for which `eof()` is
true). The result lists, for every call, its block and the state after it. -/
def gz_read_calls (PAGE_SIZE : Nat) :
    gz_file_io → List Nat → Except fault (List (List Nat × gz_file_io))
  | _, [] => .ok []
  | io, wanted_bytes :: rest =>
    if io.eof then .ok []
    else
      match gz_file_io.read_lines PAGE_SIZE io wanted_bytes with
      | .error e => .error e
      | .ok (block, _, io') =>
        match gz_read_calls PAGE_SIZE io' rest with
        | .error e => .error e
        | .ok calls => .ok ((block, io') :: calls)

/-- The bytes of `prev_buf` that are carried over to the next call. -/
def gz_file_io.carry (io : gz_file_io) : List Nat := io.prev_buf.take io.prev_buf_bytes

/-- What holds between the calls of `read_lines` on the decompressed stream
`S`. -/
def gz_inv (PAGE_SIZE : Nat) (S : List Nat) (io : gz_file_io) : Prop :=
  io.prev_buf.length = PAGE_SIZE ∧ io.prev_buf_bytes ≤ PAGE_SIZE ∧
  (∃ delivered, S = delivered ++ (io.carry ++ io.f.data)) ∧
  (io.f.past = true → io.f.data = []) ∧
  (io.prev_buf_bytes = 0 → io.f.data = [] → io.f.past = false → S = [])

/-! ## Replies of part_global_cached_private -/

/-- A reply as `process_reply` reads it (the class `io_reply` is declared in a
header that is not part of the sources): the values of `is_success()`,
`get_size()`, `get_access_method()`, `get_offset()`, `get_buf()` and
`get_status()`, and the `unsigned long` stored at `get_buf()`. -/
structure io_reply where
  success : Bool
  size : Int
  access_method : Int
  offset : Int
  buf : Nat
  buf_word : Nat
  status : Int
  deriving DecidableEq, Repr

/-- The members of a `part_global_cached_private` that `process_replies`
touches: `reply_queue`, `read_bytes`, and the entries given back to `buf` with
`free_entry`, in the order of the calls. -/
structure reply_state where
  reply_queue : bulk_queue io_reply
  read_bytes : Int
  freed : List Nat
  deriving DecidableEq, Repr

/-- The function `part_global_cached_private::process_reply(reply)`, with the
constant `READ` as a parameter: the result and the state afterwards. In the
assertion the offset is converted to `unsigned long` and divided by
`sizeof(long) = 8`. The message for a failed access is not modelled. -/
def process_reply (READ : Int) (s : reply_state) (reply : io_reply) :
    Except fault (Int × reply_state) :=
  let access_method := reply.access_method
  if reply.success then
    if access_method = READ ∧ ¬ ((reply.buf_word : Int) = reply.offset % 2 ^ 64 / 8) then
      .error .assert_fail
    else
      .ok (reply.size, { s with read_bytes := s.read_bytes + reply.size,
                                 freed := s.freed ++ [reply.buf] })
  else .ok (-1, s)

/-- The loop `for (int i = 0; i < num; i++)` of `process_replies` over the
fetched replies: the value of `size` and the state after it. -/
def process_replies_for (READ : Int) :
    List io_reply → Int → reply_state → Except fault (Int × reply_state)
  | [], size, s => .ok (size, s)
  | reply :: local_replies, size, s =>
    match process_reply READ s reply with
    | .error e => .error e
    | .ok (ret, s') =>
      process_replies_for READ local_replies (if ret ≥ 0 then size + ret else size) s'

/-- The `while` loop of `process_replies`: the values of `num_processed` and
`size` and the state after it; nothing when the loop has not ended after
`fuel` rounds. -/
def process_replies_loop (READ BUF_SIZE max_nreplies : Int) :
    Nat → Int → Int → reply_state → Option (Except fault (Int × Int × reply_state))
  | fuel, num_processed, size, s =>
    if ¬ (!s.reply_queue.is_empty && decide (num_processed < max_nreplies)) then
      some (.ok (num_processed, size, s))
    else
      match fuel with
      | 0 => none
      | fuel + 1 =>
        match s.reply_queue.fetch BUF_SIZE with
        | .error e => some (.error e)
        | .ok (num, local_replies, q) =>
          match process_replies_for READ local_replies size { s with reply_queue := q } with
          | .error e => some (.error e)
          | .ok (size', s') =>
            process_replies_loop READ BUF_SIZE max_nreplies fuel (num_processed + num) size' s'

/-- The function `part_global_cached_private::process_replies(max_nreplies)`:
the result and the state afterwards. The statement at its end is
`return num_processed;`. -/
def process_replies (READ BUF_SIZE : Int) (fuel : Nat) (max_nreplies : Int) (s : reply_state) :
    Option (Except fault (Int × reply_state)) :=
  match process_replies_loop READ BUF_SIZE max_nreplies fuel 0 0 s with
  | none => none
  | some (.error e) => some (.error e)
  | some (.ok (num_processed, _, s')) => some (.ok (num_processed, s'))

/-- The loop `while (buf->is_full())` of `access`, with the callees as
parameters: the value of `num_recv` and the state after it; nothing when a
callee or the loop does not end. -/
def access_loop {σ : Type} (process_requests : Int → σ → Except fault σ)
    (process_replies : Int → σ → Option (Except fault (Int × σ))) (buf_is_full : σ → Bool)
    (num : Int) : Nat → Int → σ → Option (Except fault (Int × σ))
  | fuel, num_recv, s =>
    if ¬ buf_is_full s then some (.ok (num_recv, s))
    else
      match fuel with
      | 0 => none
      | fuel + 1 =>
        match process_requests (num * 2) s with
        | .error e => some (.error e)
        | .ok s1 =>
          match process_replies (num * 4) s1 with
          | none => none
          | some (.error e) => some (.error e)
          | some (.ok (r, s2)) =>
            access_loop process_requests process_replies buf_is_full num fuel (num_recv + r) s2

/-- The function `part_global_cached_private::access(requests, num,
access_method)` on the state `s`, with `distribute_reqs(requests, num)`,
`process_requests`, `process_replies` and `buf->is_full()` as parameters: the
result and the state afterwards. -/
def access {σ : Type} (distribute_reqs : σ → Except fault σ)
    (process_requests : Int → σ → Except fault σ)
    (process_replies : Int → σ → Option (Except fault (Int × σ))) (buf_is_full : σ → Bool)
    (fuel : Nat) (num : Int) (s : σ) : Option (Except fault (Int × σ)) :=
  match distribute_reqs s with
  | .error e => some (.error e)
  | .ok s0 =>
    let num_recv := 0
    -- we need to process them at least once.
    match process_requests (num * 2) s0 with
    | .error e => some (.error e)
    | .ok s1 =>
      match process_replies (num * 4) s1 with
      | none => none
      | some (.error e) => some (.error e)
      | some (.ok (r, s2)) =>
        access_loop process_requests process_replies buf_is_full num fuel (num_recv + r) s2

/-- A worker state for the evaluations: a reply queue of capacity 2 that holds
one successful reply to a read of 4096 bytes at offset 8. -/
def one_reply_state : reply_state :=
  ⟨⟨[⟨true, 4096, 0, 8, 5, 1, 0⟩, ⟨false, 0, 0, 0, 0, 0, 0⟩], 2, 0, 1⟩, 0, []⟩

/-! ## part_global_cached_private::reply -/

/-- The members of a `part_global_cached_private` that `reply` touches, and the
reply queues of the workers. The array `nreplies` has the entries that were
allocated for it; `thread_replies[i]` is a buffer of bytes (of a type `β`); a
worker is named by its address, and `reply_queue thread` is the queue behind
`thread->reply_queue`, whose records are replies of `sizeof(io_reply)` bytes. -/
structure reply_bufs (β : Type) where
  nreplies : List Int
  thread_replies : List (List β)
  reply_queue : Nat → bulk_queue (List β)

/-- The read `a[i]` of an array with an `int` index; nothing for an index
outside the array. -/
def int_index {α : Type} (a : List α) (i : Int) : Option α :=
  if i < 0 then none else a[i.toNat]?

/-- A buffer of bytes read as an array of `io_reply`, each of `W` bytes. -/
def io_replies {β : Type} (W : Nat) (bytes : List β) : List (List β) :=
  (List.range (bytes.length / W)).map (fun i => (bytes.drop (i * W)).take W)

/-- The assignment `thread_replies[thread_id][n] = reply`, which copies the
`W` bytes of the reply into the buffer. -/
def store_reply {β : Type} (W : Nat) (bytes : List β) (n : Int) (reply : List β) :
    Except fault (List β) :=
  if n < 0 ∨ bytes.length < (n.toNat + 1) * W then .error .out_of_bounds
  else .ok (bytes.take (n.toNat * W) ++ reply.take W ++ bytes.drop ((n.toNat + 1) * W))

/-- The call `memmove(buffer, &buffer[ret], count)` on a buffer of replies of
`W` bytes: `count` bytes, not `count` replies, move to the front. -/
def memmove_replies {β : Type} (W : Nat) (bytes : List β) (ret count : Int) :
    Except fault (List β) :=
  if ret < 0 ∨ count < 0 ∨ bytes.length < ret.toNat * W + count.toNat then
    .error .out_of_bounds
  else .ok ((bytes.drop (ret.toNat * W)).take count.toNat ++ bytes.drop count.toNat)

/-- The state after `thread->reply_queue->add` has changed the queue of
`thread` to `q`, `nreplies[i]` is set to `n` and the buffer
`thread_replies[i]` holds `bytes`. -/
def reply_bufs.update {β : Type} (s : reply_bufs β) (i : Nat) (n : Int) (bytes : List β)
    (thread : Nat) (q : bulk_queue (List β)) : reply_bufs β :=
  ⟨s.nreplies.set i n, s.thread_replies.set i bytes,
    fun p => if p = thread then q else s.reply_queue p⟩

/-- The code that both loops of `reply` have for a buffer `i` that holds `k`
replies in `bytes`, `int ret = thread->reply_queue->add(buffer, k); if (ret !=
0 && ret != k) memmove(buffer, &buffer[ret], k - ret);`, after which the count
of the buffer is set to `k - ret`. -/
def reply_add {β : Type} (W : Nat) (s : reply_bufs β) (i : Nat) (k : Int) (bytes : List β)
    (thread : Nat) : Except fault (reply_bufs β) :=
  match (s.reply_queue thread).add (io_replies W bytes) k with
  | .error e => .error e
  | .ok (ret, q) =>
    match (if ret ≠ 0 ∧ ret ≠ k then memmove_replies W bytes ret (k - ret) else .ok bytes) with
    | .error e => .error e
    | .ok bytes => .ok (s.update i (k - ret) bytes thread q)

/-- The body of the first loop of `reply` for `requests[i]` and `replies[i]`.
The class `io_request` and `id2thread` are not part of the sources:
`get_thread` gives the address of the worker of a request (0 is the null
pointer), `idx` reads the member `idx` of the worker at an address. -/
def reply_one {R β : Type} (W : Nat) (BUF_SIZE : Int) (get_thread : R → Nat) (idx : Nat → Int)
    (id2thread : Int → Nat) (s : reply_bufs β) (request : R) (reply : List β) :
    Except fault (reply_bufs β) :=
  let thread := get_thread request
  if thread = 0 then .error .null_deref
  else
    let thread_id := idx thread
    match int_index s.nreplies thread_id with
    | none => .error .out_of_bounds
    | some n =>
      if n = BUF_SIZE then
        -- the buffer is already full. discard the request for now.
        .ok s
      else
        match int_index s.thread_replies thread_id with
        | none => .error .out_of_bounds
        | some bytes =>
          match store_reply W bytes n reply with
          | .error e => .error e
          | .ok bytes =>
            let n := n + 1
            if ¬ (thread = id2thread thread_id) then .error .assert_fail
            else if n = BUF_SIZE then reply_add W s thread_id.toNat BUF_SIZE bytes thread
            else .ok (s.update thread_id.toNat n bytes thread (s.reply_queue thread))

/-- The first loop of `reply`, `for (int i = 0; i < num; i++)`, from `i` on and
for `cnt` more rounds. -/
def reply_loop {R β : Type} (W : Nat) (BUF_SIZE : Int) (get_thread : R → Nat) (idx : Nat → Int)
    (id2thread : Int → Nat) (requests : List R) (replies : List (List β)) :
    Nat → Nat → reply_bufs β → Except fault (reply_bufs β)
  | _, 0, s => .ok s
  | i, cnt + 1, s =>
    match requests[i]?, replies[i]? with
    | some request, some reply =>
      match reply_one W BUF_SIZE get_thread idx id2thread s request reply with
      | .error e => .error e
      | .ok s' =>
        reply_loop W BUF_SIZE get_thread idx id2thread requests replies (i + 1) cnt s'
    | _, _ => .error .out_of_bounds

/-- The body of the second loop of `reply` for the worker number `i`. -/
def reply_flush_one {β : Type} (W : Nat) (id2thread : Int → Nat) (s : reply_bufs β) (i : Nat) :
    Except fault (reply_bufs β) :=
  match s.nreplies[i]? with
  | none => .error .out_of_bounds
  | some n =>
    if n > 0 then
      let thread := id2thread i
      if thread = 0 then .error .null_deref
      else
        match s.thread_replies[i]? with
        | none => .error .out_of_bounds
        | some bytes => reply_add W s i n bytes thread
    else .ok s

/-- The second loop of `reply`, `for (int i = 0; i < nthreads; i++)`, from `i`
on and for `cnt` more rounds. -/
def reply_flush_loop {β : Type} (W : Nat) (id2thread : Int → Nat) :
    Nat → Nat → reply_bufs β → Except fault (reply_bufs β)
  | _, 0, s => .ok s
  | i, cnt + 1, s =>
    match reply_flush_one W id2thread s i with
    | .error e => .error e
    | .ok s' => reply_flush_loop W id2thread (i + 1) cnt s'

/-- The function `part_global_cached_private::reply(requests, replies, num)`
of a worker in a pool of `nthreads` workers, with `W = sizeof(io_reply)` and
the constant `BUF_SIZE` as parameters: the result and the state afterwards. -/
def reply {R β : Type} (W : Nat) (BUF_SIZE nthreads : Int) (get_thread : R → Nat)
    (idx : Nat → Int) (id2thread : Int → Nat) (s : reply_bufs β) (requests : List R)
    (replies : List (List β)) (num : Int) : Except fault (Int × reply_bufs β) :=
  match reply_loop W BUF_SIZE get_thread idx id2thread requests replies 0 num.toNat s with
  | .error e => .error e
  | .ok s' =>
    match reply_flush_loop W id2thread 0 nthreads.toNat s' with
    | .error e => .error e
    | .ok s'' => .ok (0, s'')

/-- What `reply` keeps, for a property `ok t b` of a byte `b` ("`b` belongs to
a reply to a request of the worker with `idx == t`"): the buffers have
`BUF_SIZE` replies of `W >= 1` bytes, every count is in `[0, BUF_SIZE]`, a
buffer `t` that holds replies belongs to the worker `id2thread(t)`, whose
`idx` is `t`, the bytes of the replies in the buffer `t` are `ok t`, and the
reply queue of every worker is a ring whose records have only bytes that are
`ok` for the `idx` of that worker. -/
def reply_inv {β : Type} (W : Nat) (BUF_SIZE : Int) (idx : Nat → Int) (id2thread : Int → Nat)
    (ok : Int → β → Prop) (s : reply_bufs β) : Prop :=
  0 < W ∧
  (∀ (t : Nat) (bytes : List β), s.thread_replies[t]? = some bytes →
    (bytes.length : Int) = BUF_SIZE * W) ∧
  (∀ (t : Nat) (n : Int), s.nreplies[t]? = some n →
    0 ≤ n ∧ n ≤ BUF_SIZE ∧ (0 < n → idx (id2thread t) = t)) ∧
  (∀ (t : Nat) (n : Int) (bytes : List β), s.nreplies[t]? = some n →
    s.thread_replies[t]? = some bytes → ∀ b ∈ bytes.take (n.toNat * W), ok t b) ∧
  (∀ thread : Nat, (s.reply_queue thread).wf ∧
    ∀ r, some r ∈ (s.reply_queue thread).records → ∀ b ∈ r, ok (idx thread) b)

/-- Two workers for the evaluations: at the address 100 with `idx == 0` and at
the address 200 with `idx == 1`. -/
def two_idx (thread : Nat) : Int := if thread = 100 then 0 else if thread = 200 then 1 else -1

/-- The `id2thread` of the two workers for the evaluations. -/
def two_id2thread (i : Int) : Nat := if i = 0 then 100 else if i = 1 then 200 else 0

/-- A state for the evaluations, with bytes that carry the `idx` of the worker
they are for: two counts of 0, two buffers for 2 replies of 2 bytes (with
bytes that belong to nobody), and an empty reply queue of capacity 1 for every
worker. -/
def two_bufs : reply_bufs (Int × Nat) :=
  ⟨[0, 0], [[(9, 0), (9, 0), (9, 0), (9, 0)], [(9, 0), (9, 0), (9, 0), (9, 0)]],
    fun _ => ⟨[[]], 1, 0, 0⟩⟩

/-- The members of a worker that `reply` touches, as `thread_init()` leaves
them, and the reply queues of the workers (every worker has passed the barrier
at the end of `thread_init`): `nreplies` is allocated with `num_groups`
entries and zeroed, `thread_replies` has `nthreads` buffers of `BUF_SIZE`
replies of `W` bytes with unspecified content `junk`, and every reply queue is
an empty ring of `REPLY_QUEUE_SIZE` records (the constructor of `bulk_queue`
is not part of the sources). The `memset` of `nreplies` clears
`sizeof(nreplies) * num_groups` bytes, which is more than the array has; the
bytes behind the array are not modelled. -/
def thread_init {β : Type} (W : Nat) (BUF_SIZE REPLY_QUEUE_SIZE nthreads num_groups : Int)
    (junk : β) : reply_bufs β :=
  ⟨List.replicate num_groups.toNat 0,
    List.replicate nthreads.toNat (List.replicate (W * BUF_SIZE.toNat) junk),
    fun _ => ⟨List.replicate REPLY_QUEUE_SIZE.toNat [], REPLY_QUEUE_SIZE, 0, 0⟩⟩

/-! ## part_global_cached_private::send -/

/-- A `thread_group` as `send` uses it: `nthreads` and, for every entry of
`threads`, the request queue of the worker in it (`none` for a null pointer). -/
structure thread_group (R : Type) where
  nthreads : Int
  threads : List (Option (bulk_queue R))
  deriving DecidableEq, Repr

/-- The array of requests at the pointer `reqs + off`. -/
def reqs_at {R : Type} (reqs : List R) (off : Int) : List R :=
  if off < 0 then [] else reqs.drop off.toNat

/-- The loop `for (int i = 0; num > 0 && i < group->nthreads; i++)` of `send`,
from `i` on and for `cnt` more rounds: the array `threads` with the queues
after the loop, and the offset of the pointer `reqs` from its start. -/
def send_loop {R : Type} (nthreads base : Int) (reqs : List R) :
    Nat → Int → List (Option (bulk_queue R)) → Int → Int →
      Except fault (List (Option (bulk_queue R)) × Int)
  | 0, _, threads, off, _ => .ok (threads, off)
  | cnt + 1, i, threads, off, num =>
    if ¬ (num > 0 ∧ i < nthreads) then .ok (threads, off)
    else
      match int_index threads ((base + i).tmod nthreads) with
      | none => .error .out_of_bounds
      | some none => send_loop nthreads base reqs cnt (i + 1) threads off num
      | some (some q) =>
        -- is_full is pre-check, it can't guarantee the queue isn't full.
        if ¬ q.is_full then
          match q.add (reqs_at reqs off) num with
          | .error e => .error e
          | .ok (ret, q') =>
            send_loop nthreads base reqs cnt (i + 1)
              (threads.set ((base + i).tmod nthreads).toNat (some q')) (off + ret) (num - ret)
        else send_loop nthreads base reqs cnt (i + 1) threads off num

/-- The function `part_global_cached_private::send(node_id, reqs, num)` on the
group `groups[node_id]`: the offset of the returned pointer from `reqs`, and
the group afterwards. `own` tells whether `node_id == get_group_id()`;
`thread_idx` is the value of `thread_idx(this->idx, num_groups)` and `random`
the value of `random()` (both are not part of the sources). The counter
`remote_reads` is not modelled. -/
def send {R : Type} (group : thread_group R) (own : Bool) (thread_idx random : Int)
    (reqs : List R) (num : Int) : Except fault (Int × thread_group R) :=
  let base : Except fault Int :=
    if own then .ok thread_idx
    else if group.nthreads = 0 then .error .div_by_zero
    else .ok (random.tmod group.nthreads)
  match base with
  | .error e => .error e
  | .ok base =>
    match send_loop group.nthreads base reqs group.nthreads.toNat 0 group.threads 0 num with
    | .error e => .error e
    | .ok (threads, off) => .ok (off, { group with threads := threads })

/-- What a call of `send` does to the entry `p` of `threads`, in the words of
the claim: a null entry stays null (and `b = a`); the queue of a worker gets
exactly the requests `reqs[a..b)` added behind the ones it held, in order. -/
def send_added {R : Type} (reqs : List R) (threads threads' : List (Option (bulk_queue R)))
    (p a b : Nat) : Prop :=
  (threads[p]? = some none → threads'[p]? = some none ∧ b = a) ∧
  (∀ q, threads[p]? = some (some q) → ∃ q', threads'[p]? = some (some q') ∧ q'.wf ∧
    q'.records = q.records ++ ((reqs.drop a).take (b - a)).map some)

/-- A group for the evaluations: three entries, the second one null; the
queue of the first worker has capacity 2 and holds one request, the queue of
the third worker has capacity 2 and is empty. -/
def three_group : thread_group Nat :=
  ⟨3, [some ⟨[7, 0], 2, 0, 1⟩, none, some ⟨[0, 0], 2, 0, 0⟩]⟩

/-! ## part_global_cached_private::distribute_reqs -/

/-- The members of a worker that `distribute_reqs` touches: the counts `nreqs`
and the buffers `thread_reqs`, one for every group. -/
structure req_bufs (R : Type) where
  nreqs : List Int
  thread_reqs : List (List R)
  deriving DecidableEq, Repr

/-- The call `memmove(buffer, remaining, (char *) &buffer[k] - (char *)
remaining)` on a buffer of requests, with `remaining = buffer + off` and
`count = k - off` requests. -/
def memmove_reqs {R : Type} (buf : List R) (off count : Int) : Except fault (List R) :=
  if off < 0 ∨ count < 0 ∨ buf.length < off.toNat + count.toNat then .error .out_of_bounds
  else .ok ((buf.drop off.toNat).take count.toNat ++ buf.drop count.toNat)

/-- The code that both loops of `distribute_reqs` have for a buffer `idx` that
holds `k` requests in `buf`: `remaining = send(idx, buffer, k)`, the `memmove`
of the requests that were not sent to the front when `remaining` is neither
the start nor the end, and `nreqs[idx] = &buffer[k] - remaining`. The function
`send` is a parameter: from the state `w` of the groups, the node, the `k`
requests at the pointer and `k`, it gives the offset of the returned pointer
and the state of the groups afterwards. -/
def distribute_send {R σ : Type} (send : σ → Int → List R → Int → Int × σ) (w : σ)
    (s : req_bufs R) (idx : Nat) (k : Int) (buf : List R) : Except fault (req_bufs R × σ) :=
  match send w idx (buf.take k.toNat) k with
  | (remaining, w') =>
    match (if remaining ≠ 0 ∧ remaining ≠ k then memmove_reqs buf remaining (k - remaining)
        else .ok buf) with
    | .error e => .error e
    | .ok buf => .ok (⟨s.nreqs.set idx (k - remaining), s.thread_reqs.set idx buf⟩, w')

/-- The body of the first loop of `distribute_reqs` for `requests[i]`. The
function `hash_req` is not part of the sources. -/
def distribute_one {R σ : Type} (BUF_SIZE num_groups : Int) (hash_req : R → Int)
    (send : σ → Int → List R → Int → Int × σ) (s : req_bufs R) (w : σ) (request : R) :
    Except fault (req_bufs R × σ) :=
  let idx := hash_req request
  if ¬ (idx < num_groups) then .error .assert_fail
  else
    match int_index s.nreqs idx with
    | none => .error .out_of_bounds
    | some n =>
      if n = BUF_SIZE then
        -- the buffer is already full. discard the request for now.
        .ok (s, w)
      else
        match int_index s.thread_reqs idx with
        | none => .error .out_of_bounds
        | some buf =>
          if n < 0 ∨ buf.length ≤ n.toNat then .error .out_of_bounds
          else
            let buf := buf.set n.toNat request
            let n := n + 1
            if n = BUF_SIZE then distribute_send send w s idx.toNat BUF_SIZE buf
            else .ok (⟨s.nreqs.set idx.toNat n, s.thread_reqs.set idx.toNat buf⟩, w)

/-- The first loop of `distribute_reqs`, `for (int i = 0; i < num; i++)`, from
`i` on and for `cnt` more rounds. -/
def distribute_loop {R σ : Type} (BUF_SIZE num_groups : Int) (hash_req : R → Int)
    (send : σ → Int → List R → Int → Int × σ) (requests : List R) :
    Nat → Nat → req_bufs R → σ → Except fault (req_bufs R × σ)
  | _, 0, s, w => .ok (s, w)
  | i, cnt + 1, s, w =>
    match requests[i]? with
    | none => .error .out_of_bounds
    | some request =>
      match distribute_one BUF_SIZE num_groups hash_req send s w request with
      | .error e => .error e
      | .ok (s', w') =>
        distribute_loop BUF_SIZE num_groups hash_req send requests (i + 1) cnt s' w'

/-- The second loop of `distribute_reqs`, `for (int i = 0; i < num_groups;
i++)`, from `i` on and for `cnt` more rounds. -/
def distribute_flush_loop {R σ : Type} (send : σ → Int → List R → Int → Int × σ) :
    Nat → Nat → req_bufs R → σ → Except fault (req_bufs R × σ)
  | _, 0, s, w => .ok (s, w)
  | i, cnt + 1, s, w =>
    match s.nreqs[i]? with
    | none => .error .out_of_bounds
    | some n =>
      if n > 0 then
        match s.thread_reqs[i]? with
        | none => .error .out_of_bounds
        | some buf =>
          match distribute_send send w s i n buf with
          | .error e => .error e
          | .ok (s', w') => distribute_flush_loop send (i + 1) cnt s' w'
      else distribute_flush_loop send (i + 1) cnt s w

/-- The function `part_global_cached_private::distribute_reqs(requests, num)`:
the members and the state of the groups afterwards. -/
def distribute_reqs {R σ : Type} (BUF_SIZE num_groups : Int) (hash_req : R → Int)
    (send : σ → Int → List R → Int → Int × σ) (s : req_bufs R) (w : σ) (requests : List R)
    (num : Int) : Except fault (req_bufs R × σ) :=
  match distribute_loop BUF_SIZE num_groups hash_req send requests 0 num.toNat s w with
  | .error e => .error e
  | .ok (s', w') => distribute_flush_loop send 0 num_groups.toNat s' w'

/-- The claim's view of a send: of the requests `pending[g]` that wait for the
group `g`, the ones that a peer's request queue accepts (the first `remaining`
of them) leave the list. -/
def pending_send {R σ : Type} (send : σ → Int → List R → Int → Int × σ) (w : σ)
    (pending : List (List R)) (g : Nat) : List (List R) × σ :=
  let l := pending[g]?.getD []
  ((pending.set g (l.drop (send w g l l.length).1.toNat)), (send w g l l.length).2)

/-- The claim's view of one request: it is dropped when `BUF_SIZE` requests
wait for its group; otherwise it waits behind the others, and when `BUF_SIZE`
requests wait then, they are sent. -/
def pending_one {R σ : Type} (BUF_SIZE : Nat) (hash_req : R → Int)
    (send : σ → Int → List R → Int → Int × σ) (st : List (List R) × σ) (request : R) :
    List (List R) × σ :=
  let g := (hash_req request).toNat
  let l := st.1[g]?.getD []
  if l.length = BUF_SIZE then st
  else if l.length + 1 = BUF_SIZE then pending_send send st.2 (st.1.set g (l ++ [request])) g
  else (st.1.set g (l ++ [request]), st.2)

/-- The claim's view of the final loop: for every group, in order, the
requests that wait for it are sent when there are any. -/
def pending_flush {R σ : Type} (send : σ → Int → List R → Int → Int × σ) :
    Nat → Nat → List (List R) × σ → List (List R) × σ
  | _, 0, st => st
  | g, cnt + 1, st =>
    pending_flush send (g + 1) cnt
      (if 0 < (st.1[g]?.getD []).length then pending_send send st.2 st.1 g else st)

/-- The claim's view of `distribute_reqs(requests, num)`: the lists of the
requests that wait for every group, in their order, and the state of the
groups afterwards. -/
def pending_after {R σ : Type} (BUF_SIZE num_groups : Nat) (hash_req : R → Int)
    (send : σ → Int → List R → Int → Int × σ) (pending : List (List R)) (w : σ)
    (requests : List R) (num : Nat) : List (List R) × σ :=
  pending_flush send 0 num_groups
    ((requests.take num).foldl (pending_one BUF_SIZE hash_req send) (pending, w))

/-- The buffers of a worker hold the lists `pending`: for every group `g`
the count is in `[0, BUF_SIZE]`, the buffer has `BUF_SIZE` places, and the
requests at the positions `[0, nreqs[g])` are `pending[g]`. -/
def holds_pending {R : Type} (BUF_SIZE num_groups : Nat) (s : req_bufs R)
    (pending : List (List R)) : Prop :=
  s.nreqs.length = num_groups ∧ s.thread_reqs.length = num_groups ∧
  pending.length = num_groups ∧
  ∀ g, g < num_groups → ∃ (n : Nat) (buf : List R), s.nreqs[g]? = some (n : Int) ∧
    s.thread_reqs[g]? = some buf ∧ n ≤ BUF_SIZE ∧ buf.length = BUF_SIZE ∧
    pending[g]? = some (buf.take n)

/-- A `send` for the evaluations, on the number of the calls so far: every
other call accepts one request, the calls between accept none. -/
def every_other_send (w : Nat) (_ : Int) (_ : List Nat) (k : Int) : Int × Nat :=
  (if w % 2 = 0 then min k 1 else 0, w + 1)

/-! ## The locals of text_file_io::read_lines -/

/-- The value of `local_off` in a call of `text_file_io::read_lines`: the
offset of `line_buf` in the buffer `addr`. -/
def text_file_io.local_off (page_size : Nat) (io : text_file_io) : Nat :=
  io.curr_off - ROUND_PAGE page_size io.curr_off

/-- The value of `buf_size` in a call of `text_file_io::read_lines`: the size
of the buffer that `posix_memalign` allocates. -/
def text_file_io.buf_size (page_size : Nat) (io : text_file_io) (wanted_bytes : Nat) : Nat :=
  ROUNDUP_PAGE page_size (io.curr_off + wanted_bytes) - ROUND_PAGE page_size io.curr_off

/-- The value of `expected_size` in a call of `text_file_io::read_lines`. -/
def text_file_io.expected_size (page_size : Nat) (io : text_file_io) (wanted_bytes : Nat) :
    Nat :=
  min (io.buf_size page_size wanted_bytes) (io.file.length - ROUND_PAGE page_size io.curr_off)

/-- The bytes that `read_complete` puts into the buffer `addr` in a call of
`text_file_io::read_lines`. -/
def text_file_io.addr (page_size : Nat) (io : text_file_io) (wanted_bytes : Nat) : List Nat :=
  (io.file.drop (ROUND_PAGE page_size io.curr_off)).take
    (io.expected_size page_size wanted_bytes)

/-- What the other threads see of a `part_global_cached_private`: its
`request_queue`, its `reply_queue` and the counter `finished_threads`. -/
structure worker (R β : Type) where
  request_queue : bulk_queue R
  reply_queue : bulk_queue β
  finished_threads : Int
  deriving DecidableEq, Repr

/-- Where a thread stands with respect to `cleanup()`. -/
inductive cleanup_pc where
  /-- The thread has not called `cleanup()`: it is in `access` or between two
  calls of it. -/
  | working
  /-- In the two `for` loops, before the `__sync_fetch_and_add` on the
  registered thread number `k` (in the order of the loops). -/
  | incr (k : Nat)
  /-- At `!request_queue->is_empty()` of the loop condition. -/
  | test_request
  /-- At `!reply_queue->is_empty()` of the loop condition. -/
  | test_reply
  /-- At `finished_threads < nthreads` of the loop condition. -/
  | test_finished
  /-- In the body of the loop. -/
  | body
  /-- Behind the loop. -/
  | done
  deriving DecidableEq, Repr

/-- The threads that are registered in `groups`, in the order in which the
loops of `cleanup()` visit them (`groups[i].threads[j]` that is not null), and
where each of them stands. -/
structure cleanup_state (R β : Type) where
  workers : List (worker R β)
  pc : List cleanup_pc
  deriving DecidableEq, Repr

/-- What happens next: thread `w` takes its next step inside `cleanup()`;
thread `w` calls `cleanup()`; or thread `w`, which has not called `cleanup()`,
runs the `q->add(reqs, num)` of `send` on the request queue of thread `t`. -/
inductive cleanup_event (R : Type) where
  | step (w : Nat)
  | call (w : Nat)
  | send (w t : Nat) (reqs : List R)
  deriving DecidableEq, Repr

/-- One step of the threads around `cleanup()`; `none` when there is no such
step. The three operands of the loop condition are read one after the other,
as the operator `||` does. The body `process_requests(200);
process_replies(200)` of thread `w` is the parameter `body`, and `nthreads` is
the member `nthreads` of the base class. -/
def cleanup_step {R β : Type} (nthreads : Int)
    (body : Nat → List (worker R β) → List (worker R β)) (s : cleanup_state R β) :
    cleanup_event R → Option (cleanup_state R β)
  | .call w =>
    match s.pc[w]? with
    | some .working => some { s with pc := s.pc.set w (.incr 0) }
    | _ => none
  | .send w t reqs =>
    match s.pc[w]?, s.workers[t]? with
    | some .working, some y =>
      if y.request_queue.is_full then some s
      else
        match y.request_queue.add reqs reqs.length with
        | .error _ => none
        | .ok (_, q) => some { s with workers := s.workers.set t { y with request_queue := q } }
    | _, _ => none
  | .step w =>
    match s.pc[w]?, s.workers[w]? with
    | some (.incr k), some _ =>
      match s.workers[k]? with
      | none => some { s with pc := s.pc.set w .test_request }
      | some y =>
        some { workers := s.workers.set k { y with finished_threads := y.finished_threads + 1 },
               pc := s.pc.set w (.incr (k + 1)) }
    | some .test_request, some x =>
      some { s with pc := s.pc.set w (if x.request_queue.is_empty then .test_reply else .body) }
    | some .test_reply, some x =>
      some { s with pc := s.pc.set w (if x.reply_queue.is_empty then .test_finished else .body) }
    | some .test_finished, some x =>
      some { s with pc := s.pc.set w (if x.finished_threads < nthreads then .body else .done) }
    | some .body, some _ =>
      some { workers := body w s.workers, pc := s.pc.set w .test_request }
    | _, _ => none

/-- A run: the steps of a list of events, one after the other. -/
def cleanup_run {R β : Type} (nthreads : Int)
    (body : Nat → List (worker R β) → List (worker R β)) :
    cleanup_state R β → List (cleanup_event R) → Option (cleanup_state R β)
  | s, [] => some s
  | s, ev :: evs =>
    match cleanup_step nthreads body s ev with
    | none => none
    | some s' => cleanup_run nthreads body s' evs

/-- Two threads after `thread_init`, with empty queues of two places each and
`finished_threads = 0`, neither of them in `cleanup()`. -/
def two_workers : cleanup_state Nat Nat :=
  ⟨[⟨⟨[0, 0], 2, 0, 0⟩, ⟨[0, 0], 2, 0, 0⟩, 0⟩, ⟨⟨[0, 0], 2, 0, 0⟩, ⟨[0, 0], 2, 0, 0⟩, 0⟩],
    [.working, .working]⟩

/-- A run of two threads: thread 0 calls `cleanup()`, counts itself finished
at both threads and finds its request queue empty; thread 1, still in
`access`, sends it the request 7; thread 0 finds its reply queue empty; thread
1 calls `cleanup()` and counts itself finished at both threads; thread 0 reads
`finished_threads` and leaves its loop; thread 1 tests its three conditions
and leaves its loop. -/
def late_request_run : List (cleanup_event Nat) :=
  [.call 0, .step 0, .step 0, .step 0, .step 0, .send 1 0 [7], .step 0,
   .call 1, .step 1, .step 1, .step 1, .step 0, .step 1, .step 1, .step 1]

/-- A run on a file of one block in which the parse task finishes before the
driver thread reaches `if (dfs.get_num_dfs() > 0)`: the driver enters the `for`
loop and reads the block, the worker runs the task to its end, and the driver
leaves the `for` loop, finds a frame in the queue, fetches it, finds `eof()`
true, passes `wait4complete` and calls `fetch_data_frames` behind the loop. -/
def early_task_run : List driver_event :=
  [.main, .main, .worker 0, .main, .main, .main, .main, .main]

/-! ## The claims in the words of the specification -/

/-- Every character of the list is white space. -/
def all_space (l : List Nat) : Prop := ∀ c ∈ l, isspace c = true

/-- Every character of the list is a decimal digit. -/
def all_digit (l : List Nat) : Prop := ∀ c ∈ l, isdigit c = true

/-- The line consists, after optional leading white space, of a decimal
integer `a`, then white space, then a decimal integer `b`, and nothing else. -/
def EdgeLineExact (s : List Nat) (a b : Nat) : Prop :=
  ∃ ws da sp db, s = ws ++ (da ++ (sp ++ db)) ∧ all_space ws ∧ da ≠ [] ∧ all_digit da ∧
    sp ≠ [] ∧ all_space sp ∧ db ≠ [] ∧ all_digit db ∧
    a = digits_value da ∧ b = digits_value db

/-- The line begins, after optional leading white space, with a decimal
integer `a`, then white space, then a decimal integer `b`; `rest`, which does
not go on with a digit, is whatever follows `b`. -/
def EdgeLineStart (s : List Nat) (a b : Nat) : Prop :=
  ∃ ws da sp db rest, s = ws ++ (da ++ (sp ++ (db ++ rest))) ∧ all_space ws ∧
    da ≠ [] ∧ all_digit da ∧ sp ≠ [] ∧ all_space sp ∧ db ≠ [] ∧ all_digit db ∧
    isdigit (deref rest) = false ∧ a = digits_value da ∧ b = digits_value db

/-- The line begins, after optional leading white space, with the decimal
integer `a` (and does not go on with a digit). -/
def FirstNumber (s : List Nat) (a : Nat) : Prop :=
  ∃ ws da rest, s = ws ++ (da ++ rest) ∧ all_space ws ∧ da ≠ [] ∧ all_digit da ∧
    isdigit (deref rest) = false ∧ a = digits_value da

/-- No vertex id on the line is out of range: a leading number is below
`MAX_VERTEX_ID` and so is the second number of a line that has two. -/
def ids_in_range (cfg : vertex_decl) (s : List Nat) : Prop :=
  (∀ a, FirstNumber s a → a < cfg.MAX_VERTEX_ID) ∧
  (∀ a b, EdgeLineStart s a b → b < cfg.MAX_VERTEX_ID)

/-- The rows `rows` are one row `(a, b)` for each line that satisfies `P` with
`a` and `b`, in the order of the lines, and nothing for the other lines. -/
inductive EdgeRows (P : List Nat → Nat → Nat → Prop) :
    List (List Nat) → List (Nat × Nat) → Prop where
  | nil : EdgeRows P [] []
  | row {s : List Nat} {a b : Nat} {ls : List (List Nat)} {rs : List (Nat × Nat)} :
      P s a b → EdgeRows P ls rs → EdgeRows P (s :: ls) ((a, b) :: rs)
  | skip {s : List Nat} {ls : List (List Nat)} {rs : List (Nat × Nat)} :
      (∀ a b, ¬ P s a b) → EdgeRows P ls rs → EdgeRows P (s :: ls) rs

/-- The row that the loop body of `edge_parser::parse` stores for a line, if
it stores one. -/
def edge_row (cfg : vertex_decl) (s : List Nat) : Option (Nat × Nat) :=
  match edge_parser_line cfg s with
  | .ok (some r) => some r
  | _ => none

/-- The rows that the loop bodies store for a list of lines, in order. -/
def edge_rows (cfg : vertex_decl) (lines : List (List Nat)) : List (Nat × Nat) :=
  lines.filterMap (edge_row cfg)

/-! ## The fields of a line, as the parsers walk through them -/

/-- The pointer `first` after the leading white space has been skipped. -/
def field_first (s : List Nat) : List Nat := (c_str s).dropWhile isspace

/-- The digits of the first number. -/
def field_num1 (s : List Nat) : List Nat := (field_first s).takeWhile isdigit

/-- The pointer `second` after the white space behind the first number. -/
def field_second (s : List Nat) : List Nat :=
  ((field_first s).dropWhile isdigit).dropWhile isspace

/-- The digits of the second number. -/
def field_num2 (s : List Nat) : List Nat := (field_second s).takeWhile isdigit

/-- The value that `atol` followed by the conversion to `vertex_id_t` gives
for a number written with the digits `ds`. -/
def id_read (cfg : vertex_decl) (ds : List Nat) : Nat :=
  to_vertex_id cfg (min LONG_MAX (digits_value ds))

/-- The pointer `third` after the white space behind the second number. -/
def field_third (s : List Nat) : List Nat :=
  ((field_second s).dropWhile isdigit).dropWhile isspace

/-- The row that the loop body of `attr_edge_parser::parse` stores for a
line, if it stores one. -/
def attr_row {α : Type} (cfg : vertex_decl) (lexical_cast : List Nat → Option α)
    (s : List Nat) : Option (Nat × Nat × α) :=
  match attr_edge_parser_line cfg lexical_cast s with
  | .ok (some r) => some r
  | _ => none

/-- The rows that the loop bodies of `attr_edge_parser::parse` store for a
list of lines, in order. -/
def attr_rows {α : Type} (cfg : vertex_decl) (lexical_cast : List Nat → Option α)
    (lines : List (List Nat)) : List (Nat × Nat × α) :=
  lines.filterMap (attr_row cfg lexical_cast)

/-- The line reads an id that is not below `MAX_VERTEX_ID`: its first number,
or the second number of a line that has two. The id is the value that `atol`
and the conversion to `vertex_id_t` give for the number. -/
def OutOfRange (cfg : vertex_decl) (s : List Nat) : Prop :=
  (∃ a, FirstNumber s a ∧ cfg.MAX_VERTEX_ID ≤ to_vertex_id cfg (min LONG_MAX (a : Int))) ∨
  (∃ a b, EdgeLineStart s a b ∧ cfg.MAX_VERTEX_ID ≤ to_vertex_id cfg (min LONG_MAX (b : Int)))

/-- A decision procedure for `ids_in_range`, in terms of the two numbers of
the line. -/
def ids_check (cfg : vertex_decl) (s : List Nat) : Bool :=
  decide ((field_num1 s = [] ∨ digits_value (field_num1 s) < cfg.MAX_VERTEX_ID) ∧
    (field_num1 s = [] ∨ field_num2 s = [] ∨ digits_value (field_num2 s) < cfg.MAX_VERTEX_ID))

/-! ## Properties of the C library model -/

theorem isspace_zero : isspace 0 = false := by decide

theorem isdigit_zero : isdigit 0 = false := by decide

theorem isdigit_not_space {c : Nat} (h : isdigit c = true) : isspace c = false := by
  simp only [isdigit, isspace, Bool.and_eq_true, decide_eq_true_eq] at *
  simp only [Bool.or_eq_false_iff, beq_eq_false_iff_ne, ne_eq, Bool.and_eq_false_imp,
    decide_eq_true_eq, decide_eq_false_iff_not, not_le]
  omega

theorem isspace_not_digit {c : Nat} (h : isspace c = true) : isdigit c = false := by
  cases hd : isdigit c
  · rfl
  · rw [isdigit_not_space hd] at h; exact absurd h (by simp)

theorem isdigit_ne_zero {c : Nat} (h : isdigit c = true) : (c != 0) = true := by
  simp only [isdigit, Bool.and_eq_true, decide_eq_true_eq] at h
  simp only [bne_iff_ne, ne_eq]
  omega

theorem isspace_ne_zero {c : Nat} (h : isspace c = true) : (c != 0) = true := by
  simp only [isspace, Bool.or_eq_true, beq_iff_eq, Bool.and_eq_true, decide_eq_true_eq] at h
  simp only [bne_iff_ne, ne_eq]
  omega

theorem deref_cons (c : Nat) (l : List Nat) : deref (c :: l) = c := rfl

theorem deref_nil : deref [] = 0 := rfl

theorem deref_append_of_ne_nil {l : List Nat} (r : List Nat) (h : l ≠ []) :
    deref (l ++ r) = deref l := by
  cases l with
  | nil => exact absurd rfl h
  | cons c l => rfl

theorem deref_mem {l : List Nat} (h : l ≠ []) : deref l ∈ l := by
  cases l with
  | nil => exact absurd rfl h
  | cons c l => simp [deref]

theorem deref_dropWhile (p : Nat → Bool) (h0 : p 0 = false) (l : List Nat) :
    p (deref (l.dropWhile p)) = false := by
  induction l with
  | nil => simpa [deref] using h0
  | cons c l ih =>
    cases hc : p c
    · rw [List.dropWhile_cons_of_neg (by simp [hc])]; simpa [deref] using hc
    · rw [List.dropWhile_cons_of_pos hc]; exact ih

theorem takeWhile_of_deref {p : Nat → Bool} {r : List Nat} (h : p (deref r) = false) :
    r.takeWhile p = [] := by
  cases r with
  | nil => rfl
  | cons c r => exact List.takeWhile_cons_of_neg (by simpa [deref] using h)

theorem dropWhile_of_deref {p : Nat → Bool} {r : List Nat} (h : p (deref r) = false) :
    r.dropWhile p = r := by
  cases r with
  | nil => rfl
  | cons c r => exact List.dropWhile_cons_of_neg (by simpa [deref] using h)

theorem takeWhile_run {p : Nat → Bool} {l r : List Nat} (hl : ∀ c ∈ l, p c = true)
    (hr : p (deref r) = false) : (l ++ r).takeWhile p = l := by
  rw [List.takeWhile_append_of_pos hl, takeWhile_of_deref hr, List.append_nil]

theorem dropWhile_run {p : Nat → Bool} {l r : List Nat} (hl : ∀ c ∈ l, p c = true)
    (hr : p (deref r) = false) : (l ++ r).dropWhile p = r := by
  rw [List.dropWhile_append_of_pos hl, dropWhile_of_deref hr]

theorem mem_takeWhile_imp {p : Nat → Bool} {l : List Nat} {c : Nat}
    (h : c ∈ l.takeWhile p) : p c = true := by
  have := List.all_takeWhile (p := p) (l := l)
  rw [List.all_eq_true] at this
  exact this c h

theorem takeWhile_ne_nil_iff {p : Nat → Bool} (h0 : p 0 = false) (l : List Nat) :
    l.takeWhile p ≠ [] ↔ p (deref l) = true := by
  cases l with
  | nil => simp [deref, h0]
  | cons c l =>
    cases hc : p c
    · simp [deref, hc]
    · simp [deref, hc]

/-! ### c_str -/

theorem c_str_append_of_nonzero {l : List Nat} (r : List Nat) (h : ∀ c ∈ l, (c != 0) = true) :
    c_str (l ++ r) = l ++ c_str r := by
  unfold c_str
  exact List.takeWhile_append_of_pos h

theorem deref_c_str (r : List Nat) : deref (c_str r) = deref r := by
  cases r with
  | nil => rfl
  | cons c r =>
    by_cases hc : c = 0
    · subst hc; rfl
    · have : (c != 0) = true := by simpa using hc
      unfold c_str
      rw [List.takeWhile_cons_of_pos (p := fun c => c != 0) this]
      rfl

theorem c_str_decomp (s : List Nat) : ∃ tail, s = c_str s ++ tail ∧ deref tail = 0 := by
  refine ⟨s.dropWhile (fun c => c != 0), (List.takeWhile_append_dropWhile _ s).symm, ?_⟩
  have := deref_dropWhile (fun c => c != 0) (by simp) s
  simpa using this

/-! ### atol and the conversion to a vertex id -/

theorem atol_digits {da : List Nat} (r : List Nat) (hne : da ≠ []) (hd : all_digit da)
    (hr : isdigit (deref r) = false) : atol (da ++ r) = min LONG_MAX (digits_value da) := by
  cases da with
  | nil => exact absurd rfl hne
  | cons d ds =>
    have hdd : isdigit d = true := hd d (by simp)
    have hsp : isspace d = false := isdigit_not_space hdd
    have h48 : 48 ≤ d := by
      simp only [isdigit, Bool.and_eq_true, decide_eq_true_eq] at hdd; omega
    have hdrop : (d :: ds ++ r).dropWhile isspace = d :: (ds ++ r) := by
      rw [List.cons_append, List.dropWhile_cons_of_neg (by simp [hsp])]
    have htake : (d :: (ds ++ r)).takeWhile isdigit = d :: ds := by
      have := takeWhile_run (p := isdigit) (l := d :: ds) (r := r) hd hr
      simpa using this
    unfold atol
    simp only [hdrop]
    have hm : (match d :: (ds ++ r) with
        | 45 :: r => r
        | 43 :: r => r
        | _ => d :: (ds ++ r)) = d :: (ds ++ r) := by
      split
      · rename_i h; simp only [List.cons.injEq] at h; omega
      · rename_i h; simp only [List.cons.injEq] at h; omega
      · rfl
    rw [hm, htake]
    have h45 : deref (d :: (ds ++ r)) ≠ 45 := by simp only [deref_cons]; omega
    simp only [h45, if_false]

theorem to_vertex_id_in_range (cfg : vertex_decl) (h1 : cfg.MAX_VERTEX_ID ≤ 2 ^ cfg.id_bits)
    (h2 : cfg.MAX_VERTEX_ID ≤ 2 ^ 63) {a : Nat} (ha : a < cfg.MAX_VERTEX_ID) :
    to_vertex_id cfg (min LONG_MAX (a : Int)) = a := by
  have ha63 : (a : Int) ≤ LONG_MAX := by
    unfold LONG_MAX
    have : a < 2 ^ 63 := lt_of_lt_of_le ha h2
    have h3 : ((a : Int)) < 2 ^ 63 := by exact_mod_cast this
    omega
  rw [min_eq_right ha63]
  unfold to_vertex_id
  have hlt : a < 2 ^ cfg.id_bits := lt_of_lt_of_le ha h1
  have : (a : Int) % 2 ^ cfg.id_bits = a := by
    apply Int.emod_eq_of_lt (by positivity)
    exact_mod_cast hlt
  rw [this]
  simp

theorem id_read_in_range (cfg : vertex_decl) (h1 : cfg.MAX_VERTEX_ID ≤ 2 ^ cfg.id_bits)
    (h2 : cfg.MAX_VERTEX_ID ≤ 2 ^ 63) {ds : List Nat} (ha : digits_value ds < cfg.MAX_VERTEX_ID) :
    id_read cfg ds = digits_value ds :=
  to_vertex_id_in_range cfg h1 h2 ha

/-! ### The fields of a line -/

theorem field_first_eq (s : List Nat) :
    field_first s = field_num1 s ++ (field_first s).dropWhile isdigit :=
  (List.takeWhile_append_dropWhile isdigit (field_first s)).symm

theorem field_num1_all_digit (s : List Nat) : all_digit (field_num1 s) :=
  fun _ h => mem_takeWhile_imp h

theorem field_num2_all_digit (s : List Nat) : all_digit (field_num2 s) :=
  fun _ h => mem_takeWhile_imp h

theorem field_num1_ne_nil_iff (s : List Nat) :
    field_num1 s ≠ [] ↔ isdigit (deref (field_first s)) = true :=
  takeWhile_ne_nil_iff isdigit_zero _

theorem field_num2_ne_nil_iff (s : List Nat) :
    field_num2 s ≠ [] ↔ isdigit (deref (field_second s)) = true :=
  takeWhile_ne_nil_iff isdigit_zero _

theorem atol_field_first (s : List Nat) (h : field_num1 s ≠ []) :
    atol (field_first s) = min LONG_MAX (digits_value (field_num1 s)) := by
  have := atol_digits ((field_first s).dropWhile isdigit) h (field_num1_all_digit s)
    (deref_dropWhile isdigit isdigit_zero _)
  rwa [← field_first_eq] at this

theorem atol_field_second (s : List Nat) (h : field_num2 s ≠ []) :
    atol (field_second s) = min LONG_MAX (digits_value (field_num2 s)) := by
  have := atol_digits ((field_second s).dropWhile isdigit) h (field_num2_all_digit s)
    (deref_dropWhile isdigit isdigit_zero _)
  have e : field_num2 s ++ (field_second s).dropWhile isdigit = field_second s :=
    List.takeWhile_append_dropWhile isdigit (field_second s)
  rwa [e] at this

theorem field_first_length_le (s : List Nat) : (field_first s).length ≤ (c_str s).length :=
  (List.dropWhile_sublist isspace).length_le

/-- The test `second - line == len` holds exactly when the first number ends
the line. -/
theorem second_at_end_iff (s : List Nat) (h : field_num1 s ≠ []) :
    (c_str s).length - ((field_first s).dropWhile isdigit).length = (c_str s).length ↔
      (field_first s).dropWhile isdigit = [] := by
  have h1 := field_first_length_le s
  have h2 : (field_first s).length =
      (field_num1 s).length + ((field_first s).dropWhile isdigit).length := by
    conv_lhs => rw [field_first_eq s]
    exact List.length_append _ _
  have h3 : 0 < (field_num1 s).length := List.length_pos.mpr h
  rw [← List.length_eq_zero]
  omega

theorem field_num2_of_second_at_end (s : List Nat)
    (h : (field_first s).dropWhile isdigit = []) : field_num2 s = [] := by
  simp [field_num2, field_second, h]

/-- The loop body of `edge_parser::parse` in terms of the two numbers of the
line. -/
theorem edge_parser_line_eq (cfg : vertex_decl) (s : List Nat) :
    edge_parser_line cfg s =
      if field_num1 s = [] then .ok none
      else if ¬ id_read cfg (field_num1 s) < cfg.MAX_VERTEX_ID then .error .assert_fail
      else if field_num2 s = [] then .ok none
      else if ¬ id_read cfg (field_num2 s) < cfg.MAX_VERTEX_ID then .error .assert_fail
      else .ok (some (id_read cfg (field_num1 s), id_read cfg (field_num2 s))) := by
  unfold edge_parser_line
  have hsec : List.dropWhile isspace (List.dropWhile isdigit (field_first s)) = field_second s :=
    rfl
  simp only [← field_first.eq_1 s, hsec, id_read]
  by_cases h1 : field_num1 s = []
  · have hd : isdigit (deref (field_first s)) = false := by
      cases hh : isdigit (deref (field_first s))
      · rfl
      · exact absurd h1 ((field_num1_ne_nil_iff s).mpr hh)
    rw [if_pos h1]
    by_cases h35 : deref (field_first s) = 35
    · rw [if_pos h35]
    · rw [if_neg h35]; simp [hd]
  · have hd : isdigit (deref (field_first s)) = true := (field_num1_ne_nil_iff s).mp h1
    have h35 : deref (field_first s) ≠ 35 := by
      intro h; rw [h] at hd; exact absurd hd (by decide)
    rw [if_neg h1, if_neg h35]
    simp only [atol_field_first s h1, hd, Bool.not_true, Bool.false_eq_true, if_false]
    by_cases hr1 : to_vertex_id cfg (min LONG_MAX (digits_value (field_num1 s)))
        < cfg.MAX_VERTEX_ID
    · simp only [hr1, decide_True, Bool.not_true, Bool.false_eq_true, if_false, not_true_eq_false]
      by_cases hend : (field_first s).dropWhile isdigit = []
      · rw [if_pos ((second_at_end_iff s h1).mpr hend),
          if_pos (field_num2_of_second_at_end s hend)]
      · rw [if_neg (fun h => hend ((second_at_end_iff s h1).mp h))]
        by_cases h2 : field_num2 s = []
        · have hd2 : isdigit (deref (field_second s)) = false := by
            cases hh : isdigit (deref (field_second s))
            · rfl
            · exact absurd h2 ((field_num2_ne_nil_iff s).mpr hh)
          simp [h2, hd2]
        · have hd2 : isdigit (deref (field_second s)) = true := (field_num2_ne_nil_iff s).mp h2
          rw [if_neg h2]
          simp only [atol_field_second s h2, hd2, Bool.not_true, Bool.false_eq_true, if_false]
          by_cases hr2 : to_vertex_id cfg (min LONG_MAX (digits_value (field_num2 s)))
              < cfg.MAX_VERTEX_ID
          · simp only [hr2, decide_True, Bool.not_true, Bool.false_eq_true, if_false,
              not_true_eq_false]
          · simp [hr2]
    · simp [hr1]

/-! ### The words of the specification and the fields of a line -/

theorem isdigit_deref_append {l r : List Nat} (hl : isdigit (deref l) = false)
    (hr : isdigit (deref r) = false) : isdigit (deref (l ++ r)) = false := by
  cases l with
  | nil => simpa using hr
  | cons c l => simpa [deref] using hl

theorem all_space_nonzero {l : List Nat} (h : all_space l) : ∀ c ∈ l, (c != 0) = true :=
  fun c hc => isspace_ne_zero (h c hc)

theorem all_digit_nonzero {l : List Nat} (h : all_digit l) : ∀ c ∈ l, (c != 0) = true :=
  fun c hc => isdigit_ne_zero (h c hc)

/-- The fields of a line that is white space, a number and a rest. -/
theorem fields_of_first_number {s ws da rest : List Nat} (hs : s = ws ++ (da ++ rest))
    (hws : all_space ws) (hne : da ≠ []) (hda : all_digit da)
    (hrest : isdigit (deref rest) = false) :
    field_first s = da ++ c_str rest ∧ field_num1 s = da ∧
      (field_first s).dropWhile isdigit = c_str rest := by
  have hc : c_str s = ws ++ (da ++ c_str rest) := by
    rw [hs, c_str_append_of_nonzero _ (all_space_nonzero hws),
      c_str_append_of_nonzero _ (all_digit_nonzero hda)]
  have hfirst : field_first s = da ++ c_str rest := by
    unfold field_first
    rw [hc]
    apply dropWhile_run hws
    rw [deref_append_of_ne_nil _ hne]
    exact isdigit_not_space (hda _ (deref_mem hne))
  have hr2 : isdigit (deref (c_str rest)) = false := by rw [deref_c_str]; exact hrest
  refine ⟨hfirst, ?_, ?_⟩
  · unfold field_num1; rw [hfirst]; exact takeWhile_run hda hr2
  · rw [hfirst]; exact dropWhile_run hda hr2

theorem first_number_iff (s : List Nat) (a : Nat) :
    FirstNumber s a ↔ field_num1 s ≠ [] ∧ a = digits_value (field_num1 s) := by
  constructor
  · rintro ⟨ws, da, rest, hs, hws, hne, hda, hrest, ha⟩
    obtain ⟨_, h1, _⟩ := fields_of_first_number hs hws hne hda hrest
    rw [h1]; exact ⟨hne, ha⟩
  · rintro ⟨hne, ha⟩
    obtain ⟨tail, htail, hdt⟩ := c_str_decomp s
    refine ⟨(c_str s).takeWhile isspace, field_num1 s,
      (field_first s).dropWhile isdigit ++ tail, ?_, ?_, hne, field_num1_all_digit s, ?_, ha⟩
    · rw [← List.append_assoc (field_num1 s), ← field_first_eq, ← List.append_assoc]
      unfold field_first
      rw [List.takeWhile_append_dropWhile]
      exact htail
    · exact fun _ h => mem_takeWhile_imp h
    · apply isdigit_deref_append (deref_dropWhile isdigit isdigit_zero _)
      rw [hdt]; exact isdigit_zero

theorem edge_line_start_iff (s : List Nat) (a b : Nat) :
    EdgeLineStart s a b ↔ field_num1 s ≠ [] ∧ field_num2 s ≠ [] ∧
      a = digits_value (field_num1 s) ∧ b = digits_value (field_num2 s) := by
  constructor
  · rintro ⟨ws, da, sp, db, rest, hs, hws, hne, hda, hsne, hsp, hbne, hdb, hrest, ha, hb⟩
    have hr1 : isdigit (deref (sp ++ (db ++ rest))) = false := by
      rw [deref_append_of_ne_nil _ hsne]
      exact isspace_not_digit (hsp _ (deref_mem hsne))
    obtain ⟨_, h1, h2⟩ := fields_of_first_number hs hws hne hda hr1
    have hc : c_str (sp ++ (db ++ rest)) = sp ++ (db ++ c_str rest) := by
      rw [c_str_append_of_nonzero _ (all_space_nonzero hsp),
        c_str_append_of_nonzero _ (all_digit_nonzero hdb)]
    have hsec : field_second s = db ++ c_str rest := by
      unfold field_second
      rw [h2, hc]
      apply dropWhile_run hsp
      rw [deref_append_of_ne_nil _ hbne]
      exact isdigit_not_space (hdb _ (deref_mem hbne))
    have hn2 : field_num2 s = db := by
      unfold field_num2
      rw [hsec]
      apply takeWhile_run hdb
      rw [deref_c_str]; exact hrest
    rw [h1, hn2]
    exact ⟨hne, hbne, ha, hb⟩
  · rintro ⟨hne, hbne, ha, hb⟩
    obtain ⟨tail, htail, hdt⟩ := c_str_decomp s
    have hd2 : isdigit (deref (field_second s)) = true := (field_num2_ne_nil_iff s).mp hbne
    have hsp : ((field_first s).dropWhile isdigit).takeWhile isspace ≠ [] := by
      intro h
      have e : field_second s = (field_first s).dropWhile isdigit := by
        have := List.takeWhile_append_dropWhile isspace ((field_first s).dropWhile isdigit)
        rw [h] at this
        exact this
      have := deref_dropWhile isdigit isdigit_zero (field_first s)
      rw [← e, hd2] at this
      exact absurd this (by simp)
    refine ⟨(c_str s).takeWhile isspace, field_num1 s,
      ((field_first s).dropWhile isdigit).takeWhile isspace, field_num2 s,
      (field_second s).dropWhile isdigit ++ tail, ?_, ?_, hne, field_num1_all_digit s, hsp, ?_,
      hbne, field_num2_all_digit s, ?_, ha, hb⟩
    · have e2 : field_num2 s ++ ((field_second s).dropWhile isdigit ++ tail) =
          field_second s ++ tail := by
        rw [← List.append_assoc]
        congr 1
        exact List.takeWhile_append_dropWhile isdigit (field_second s)
      have e3 : ((field_first s).dropWhile isdigit).takeWhile isspace ++
          (field_second s ++ tail) = (field_first s).dropWhile isdigit ++ tail := by
        rw [← List.append_assoc]
        congr 1
        exact List.takeWhile_append_dropWhile isspace _
      rw [e2, e3, ← List.append_assoc (field_num1 s), ← field_first_eq, ← List.append_assoc]
      unfold field_first
      rw [List.takeWhile_append_dropWhile]
      exact htail
    · exact fun _ h => mem_takeWhile_imp h
    · exact fun _ h => mem_takeWhile_imp h
    · apply isdigit_deref_append (deref_dropWhile isdigit isdigit_zero _)
      rw [hdt]; exact isdigit_zero

theorem ids_in_range_iff (cfg : vertex_decl) (s : List Nat) :
    ids_in_range cfg s ↔
      (field_num1 s ≠ [] → digits_value (field_num1 s) < cfg.MAX_VERTEX_ID) ∧
      (field_num1 s ≠ [] → field_num2 s ≠ [] →
        digits_value (field_num2 s) < cfg.MAX_VERTEX_ID) := by
  unfold ids_in_range
  constructor
  · rintro ⟨h1, h2⟩
    refine ⟨fun hne => h1 _ ((first_number_iff s _).mpr ⟨hne, rfl⟩), fun hne hbne => ?_⟩
    exact h2 _ _ ((edge_line_start_iff s _ _).mpr ⟨hne, hbne, rfl, rfl⟩)
  · rintro ⟨h1, h2⟩
    refine ⟨fun a ha => ?_, fun a b hab => ?_⟩
    · obtain ⟨hne, rfl⟩ := (first_number_iff s a).mp ha
      exact h1 hne
    · obtain ⟨hne, hbne, _, rfl⟩ := (edge_line_start_iff s a b).mp hab
      exact h2 hne hbne

/-! ## Frames -/

theorem take_set_succ {β : Type} (l : List β) (e : Nat) (x : β) (h : e < l.length) :
    (l.set e x).take (e + 1) = l.take e ++ [x] := by
  induction l generalizing e with
  | nil => simp at h
  | cons c l ih =>
    cases e with
    | zero => simp
    | succ e =>
      simp only [List.length_cons, Nat.add_lt_add_iff_right] at h
      simp only [List.set_cons_succ, List.take_succ_cons, List.cons_append, List.cons.injEq,
        true_and]
      exact ih e h

theorem get_vec_append_spec {α : Type} (df : data_frame α) (i : Nat) (xs c : List (scalar α))
    (h : col_data df i = some c) :
    ∃ df', get_vec_append df i xs = .ok df' ∧ col_data df' i = some (c ++ xs) ∧
      (∀ j, j ≠ i → col_data df' j = col_data df j) ∧
      col_lengths df' = (col_lengths df).set i (c.length + xs.length) := by
  unfold col_data at h
  cases hv : df[i]? with
  | none => rw [hv] at h; simp at h
  | some v =>
    rw [hv] at h
    simp only [Option.map_some', Option.some.injEq] at h
    have hi : i < df.length := by
      rcases List.getElem?_eq_some_iff.mp hv with ⟨hi, _⟩
      exact hi
    refine ⟨df.set i { v with data := v.data ++ xs }, ?_, ?_, ?_, ?_⟩
    · unfold get_vec_append; rw [hv]
    · unfold col_data
      rw [List.getElem?_set_self hi]
      simp [h]
    · intro j hj
      unfold col_data
      rw [List.getElem?_set_ne (Ne.symm hj)]
    · unfold col_lengths
      rw [List.map_set]
      simp [h]

/-! ## The loop of edge_parser::parse -/

theorem edge_rows_cons_none {cfg : vertex_decl} {s : List Nat} (ls : List (List Nat))
    (h : edge_parser_line cfg s = .ok none) : edge_rows cfg (s :: ls) = edge_rows cfg ls := by
  have : edge_row cfg s = none := by unfold edge_row; rw [h]
  unfold edge_rows
  rw [List.filterMap_cons_none this]

theorem edge_rows_cons_some {cfg : vertex_decl} {s : List Nat} {r : Nat × Nat}
    (ls : List (List Nat)) (h : edge_parser_line cfg s = .ok (some r)) :
    edge_rows cfg (s :: ls) = r :: edge_rows cfg ls := by
  have : edge_row cfg s = some r := by unfold edge_row; rw [h]
  unfold edge_rows
  rw [List.filterMap_cons_some this]

theorem edge_rows_length_le (cfg : vertex_decl) (lines : List (List Nat)) :
    (edge_rows cfg lines).length ≤ lines.length :=
  List.length_filterMap_le _ _

/-- When no line fails an assertion the loop ends with `entry_idx` advanced by
the number of rows, and the staging vectors hold the rows behind what they
held below the old `entry_idx`. -/
theorem edge_parser_loop_ok {α : Type} (cfg : vertex_decl) (lines : List (List Nat))
    (hok : ∀ s ∈ lines, ∀ e, edge_parser_line cfg s ≠ .error e) :
    ∀ (froms tos : List (scalar α)) (e : Nat), e + lines.length ≤ froms.length →
      e + lines.length ≤ tos.length →
      ∃ f t, edge_parser_loop cfg lines froms tos e =
          .ok (f, t, e + (edge_rows cfg lines).length) ∧
        f.take (e + (edge_rows cfg lines).length) =
          froms.take e ++ (edge_rows cfg lines).map (fun r => scalar.vid r.1) ∧
        t.take (e + (edge_rows cfg lines).length) =
          tos.take e ++ (edge_rows cfg lines).map (fun r => scalar.vid r.2) := by
  induction lines with
  | nil =>
    intro froms tos e _ _
    exact ⟨froms, tos, by simp [edge_parser_loop, edge_rows], by simp [edge_rows],
      by simp [edge_rows]⟩
  | cons s ls ih =>
    intro froms tos e hf ht
    have ih := ih (fun s hs => hok s (List.mem_cons_of_mem _ hs))
    simp only [List.length_cons] at hf ht
    cases hl : edge_parser_line cfg s with
    | error err => exact absurd hl (hok s (List.mem_cons_self _ _) err)
    | ok r =>
      cases r with
      | none =>
        obtain ⟨f, t, h1, h2, h3⟩ := ih froms tos e (by omega) (by omega)
        refine ⟨f, t, ?_, ?_, ?_⟩
        · rw [edge_rows_cons_none ls hl]; unfold edge_parser_loop; rw [hl]; exact h1
        · rw [edge_rows_cons_none ls hl]; exact h2
        · rw [edge_rows_cons_none ls hl]; exact h3
      | some r =>
        obtain ⟨x, y⟩ := r
        obtain ⟨f, t, h1, h2, h3⟩ := ih (froms.set e (scalar.vid x)) (tos.set e (scalar.vid y))
          (e + 1) (by rw [List.length_set]; omega) (by rw [List.length_set]; omega)
        have hlen : e + (edge_rows cfg (s :: ls)).length =
            e + 1 + (edge_rows cfg ls).length := by
          rw [edge_rows_cons_some ls hl, List.length_cons]; omega
        refine ⟨f, t, ?_, ?_, ?_⟩
        · rw [hlen]; unfold edge_parser_loop; rw [hl]; exact h1
        · rw [hlen, h2, take_set_succ _ _ _ (by omega), edge_rows_cons_some ls hl]
          simp
        · rw [hlen, h3, take_set_succ _ _ _ (by omega), edge_rows_cons_some ls hl]
          simp

theorem edge_parser_line_error {cfg : vertex_decl} {s : List Nat} {err : fault}
    (h : edge_parser_line cfg s = .error err) : err = .assert_fail := by
  rw [edge_parser_line_eq] at h
  split_ifs at h <;> cases h <;> rfl

/-- The first line that fails an assertion ends the loop with that failure. -/
theorem edge_parser_loop_fault {α : Type} (cfg : vertex_decl) (lines : List (List Nat))
    (hbad : ∃ s ∈ lines, edge_parser_line cfg s = .error .assert_fail) :
    ∀ (froms tos : List (scalar α)) (e : Nat),
      edge_parser_loop cfg lines froms tos e = .error .assert_fail := by
  induction lines with
  | nil => obtain ⟨s, hs, _⟩ := hbad; simp at hs
  | cons s ls ih =>
    intro froms tos e
    cases hl : edge_parser_line cfg s with
    | error err =>
      have := edge_parser_line_error hl
      subst this
      unfold edge_parser_loop; rw [hl]
    | ok r =>
      have hbad2 : ∃ s ∈ ls, edge_parser_line cfg s = .error .assert_fail := by
        obtain ⟨s2, hs2, h2⟩ := hbad
        rcases List.mem_cons.mp hs2 with rfl | hmem
        · rw [hl] at h2; cases h2
        · exact ⟨s2, hmem, h2⟩
      cases r with
      | none => unfold edge_parser_loop; rw [hl]; exact ih hbad2 froms tos e
      | some r =>
        obtain ⟨x, y⟩ := r
        unfold edge_parser_loop; rw [hl]
        exact ih hbad2 _ _ _

theorem edge_parser_parse_fault {α : Type} (cfg : vertex_decl) (lines : List (List Nat))
    (df : data_frame α) (hbad : ∃ s ∈ lines, edge_parser_line cfg s = .error .assert_fail) :
    edge_parser_parse cfg lines df = .error .assert_fail := by
  unfold edge_parser_parse
  rw [edge_parser_loop_fault cfg lines hbad]

/-- When no line fails an assertion, `parse` returns the number of rows and
has appended their two components to columns 0 and 1. -/
theorem edge_parser_parse_ok {α : Type} (cfg : vertex_decl) (lines : List (List Nat))
    (df : data_frame α) (c0 c1 : List (scalar α)) (h0 : col_data df 0 = some c0)
    (h1 : col_data df 1 = some c1)
    (hok : ∀ s ∈ lines, ∀ e, edge_parser_line cfg s ≠ .error e) :
    ∃ df', edge_parser_parse cfg lines df = .ok ((edge_rows cfg lines).length, df') ∧
      col_data df' 0 = some (c0 ++ (edge_rows cfg lines).map (fun r => scalar.vid r.1)) ∧
      col_data df' 1 = some (c1 ++ (edge_rows cfg lines).map (fun r => scalar.vid r.2)) ∧
      (∀ j, 2 ≤ j → col_data df' j = col_data df j) ∧
      col_lengths df' = ((col_lengths df).set 0 (c0.length + (edge_rows cfg lines).length)).set 1
        (c1.length + (edge_rows cfg lines).length) := by
  obtain ⟨f, t, hloop, hf, ht⟩ := edge_parser_loop_ok (α := α) cfg lines hok
    (smp_vec_create lines.length) (smp_vec_create lines.length) 0
    (by simp [smp_vec_create]) (by simp [smp_vec_create])
  simp only [Nat.zero_add, List.take_zero, List.nil_append] at hloop hf ht
  obtain ⟨df1, ha1, hb1, hc1, hd1⟩ := get_vec_append_spec df 0
    ((edge_rows cfg lines).map (fun r => scalar.vid r.1)) c0 h0
  have h1' : col_data df1 1 = some c1 := by rw [hc1 1 (by omega)]; exact h1
  obtain ⟨df2, ha2, hb2, hc2, hd2⟩ := get_vec_append_spec df1 1
    ((edge_rows cfg lines).map (fun r => scalar.vid r.2)) c1 h1'
  refine ⟨df2, ?_, ?_, hb2, ?_, ?_⟩
  · unfold edge_parser_parse
    rw [hloop]
    simp only [smp_vec_resize, hf, ht, ha1, ha2, List.length_map]
  · rw [hc2 0 (by omega)]; exact hb1
  · intro j hj
    rw [hc2 j (by omega), hc1 j (by omega)]
  · rw [hd2, hd1]; simp

/-! ## edge_parser::parse against the words of the specification -/

/-- On a line whose ids are in range the loop body stores the two numbers of
the line when it has both, and skips the line otherwise. -/
theorem edge_parser_line_in_range (cfg : vertex_decl)
    (h1 : cfg.MAX_VERTEX_ID ≤ 2 ^ cfg.id_bits) (h2 : cfg.MAX_VERTEX_ID ≤ 2 ^ 63)
    (s : List Nat) (hr : ids_in_range cfg s) :
    edge_parser_line cfg s =
      if field_num1 s = [] ∨ field_num2 s = [] then .ok none
      else .ok (some (digits_value (field_num1 s), digits_value (field_num2 s))) := by
  obtain ⟨hr1, hr2⟩ := (ids_in_range_iff cfg s).mp hr
  rw [edge_parser_line_eq]
  by_cases hn1 : field_num1 s = []
  · simp [hn1]
  · have e1 := id_read_in_range cfg h1 h2 (hr1 hn1)
    by_cases hn2 : field_num2 s = []
    · simp [hn1, hn2, e1, hr1 hn1]
    · have e2 := id_read_in_range cfg h1 h2 (hr2 hn1 hn2)
      simp [hn1, hn2, e1, e2, hr1 hn1, hr2 hn1 hn2]

theorem edge_parser_line_no_fault (cfg : vertex_decl)
    (h1 : cfg.MAX_VERTEX_ID ≤ 2 ^ cfg.id_bits) (h2 : cfg.MAX_VERTEX_ID ≤ 2 ^ 63)
    (s : List Nat) (hr : ids_in_range cfg s) (e : fault) :
    edge_parser_line cfg s ≠ .error e := by
  rw [edge_parser_line_in_range cfg h1 h2 s hr]
  split_ifs <;> simp

theorem edge_row_iff_start (cfg : vertex_decl)
    (h1 : cfg.MAX_VERTEX_ID ≤ 2 ^ cfg.id_bits) (h2 : cfg.MAX_VERTEX_ID ≤ 2 ^ 63)
    (s : List Nat) (hr : ids_in_range cfg s) (a b : Nat) :
    edge_row cfg s = some (a, b) ↔ EdgeLineStart s a b := by
  unfold edge_row
  rw [edge_parser_line_in_range cfg h1 h2 s hr, edge_line_start_iff]
  by_cases hn1 : field_num1 s = []
  · simp [hn1]
  · by_cases hn2 : field_num2 s = []
    · simp [hn2]
    · simp only [hn1, hn2, or_self, if_false, Option.some.injEq, Prod.mk.injEq, ne_eq,
        not_false_eq_true, true_and]
      constructor
      · rintro ⟨rfl, rfl⟩; exact ⟨rfl, rfl⟩
      · rintro ⟨rfl, rfl⟩; exact ⟨rfl, rfl⟩

/-- When the stored row of every line is the one the predicate `P` describes,
the rows described by `P` are the stored rows. -/
theorem edge_rows_iff (cfg : vertex_decl) (P : List Nat → Nat → Nat → Prop)
    (lines : List (List Nat))
    (h : ∀ s ∈ lines, ∀ a b, edge_row cfg s = some (a, b) ↔ P s a b)
    (rows : List (Nat × Nat)) : EdgeRows P lines rows ↔ rows = edge_rows cfg lines := by
  constructor
  · intro hrows
    induction hrows with
    | nil => rfl
    | @row s a b ls rs hP _ ih =>
      have hs : edge_row cfg s = some (a, b) := (h s (List.mem_cons_self _ _) a b).mpr hP
      rw [ih (fun s hs => h s (List.mem_cons_of_mem _ hs))]
      unfold edge_rows
      rw [List.filterMap_cons_some hs]
    | @skip s ls rs hP _ ih =>
      have hs : edge_row cfg s = none := by
        cases hrow : edge_row cfg s with
        | none => rfl
        | some r =>
          exact absurd ((h s (List.mem_cons_self _ _) r.1 r.2).mp hrow) (hP r.1 r.2)
      rw [ih (fun s hs => h s (List.mem_cons_of_mem _ hs))]
      unfold edge_rows
      rw [List.filterMap_cons_none hs]
  · rintro rfl
    induction lines with
    | nil => exact EdgeRows.nil
    | cons s ls ih =>
      have ih := ih (fun s hs => h s (List.mem_cons_of_mem _ hs))
      cases hrow : edge_row cfg s with
      | none =>
        unfold edge_rows
        rw [List.filterMap_cons_none hrow]
        refine EdgeRows.skip (fun a b hP => ?_) ih
        have := (h s (List.mem_cons_self _ _) a b).mpr hP
        rw [hrow] at this
        cases this
      | some r =>
        unfold edge_rows
        rw [List.filterMap_cons_some hrow]
        exact EdgeRows.row ((h s (List.mem_cons_self _ _) r.1 r.2).mp hrow) ih

/-- A line whose first character after the white space is `#` has no number
at its start. -/
theorem comment_line_not_start {s ws rest : List Nat} (hs : s = ws ++ 35 :: rest)
    (hws : all_space ws) (a b : Nat) : ¬ EdgeLineStart s a b := by
  intro h
  obtain ⟨hne, _⟩ := (edge_line_start_iff s a b).mp h
  apply hne
  have hc : c_str s = ws ++ c_str (35 :: rest) := by
    rw [hs, c_str_append_of_nonzero _ (all_space_nonzero hws)]
  have h35 : c_str (35 :: rest) = 35 :: c_str rest := by
    unfold c_str
    rw [List.takeWhile_cons_of_pos (by decide)]
  have hfirst : field_first s = 35 :: c_str rest := by
    unfold field_first
    rw [hc, h35]
    exact dropWhile_run hws (by rw [deref_cons]; decide)
  unfold field_num1
  rw [hfirst]
  exact List.takeWhile_cons_of_neg (by decide)

/-- A line that consists of two numbers and white space only ends in a
digit. -/
theorem edge_line_exact_last {s : List Nat} {a b : Nat} (h : EdgeLineExact s a b) :
    isdigit (s.getLast?.getD 0) = true := by
  obtain ⟨ws, da, sp, db, hs, _, _, _, _, _, hbne, hdb, _, _⟩ := h
  have hl : s.getLast? = some (db.getLast hbne) := by
    rw [hs, ← List.append_assoc, ← List.append_assoc, List.getLast?_append,
      List.getLast?_eq_getLast db hbne]
    rfl
  rw [hl]
  exact hdb _ (List.getLast_mem hbne)

theorem ids_in_range_of_check (cfg : vertex_decl) (lines : List (List Nat))
    (h : lines.all (ids_check cfg) = true) : ∀ s ∈ lines, ids_in_range cfg s := by
  intro s hs
  have hc := List.all_eq_true.mp h s hs
  simp only [ids_check, decide_eq_true_eq] at hc
  rw [ids_in_range_iff]
  obtain ⟨ha, hb⟩ := hc
  refine ⟨fun hne => ?_, fun hne hbne => ?_⟩
  · rcases ha with h | h
    · exact absurd h hne
    · exact h
  · rcases hb with h | h | h
    · exact absurd h hne
    · exact absurd h hbne
    · exact h

/-- C1 (as amended). Let `MAX_VERTEX_ID` fit the id type and `long`, and let
no line carry an out-of-range id. Then `edge_parser::parse` returns, and it
appends to column 0 and column 1 exactly one row `(a, b)` for each line that,
after optional leading white space, begins with a decimal integer `a`, white
space and a decimal integer `b` (whatever follows `b`), in the order of the
lines, and nothing for every other line; the rows so described are unique, the
result is their number, and a line whose first character after the white
space is `#` is none of these lines. -/
theorem edge_parser_parse_rows {α : Type} (cfg : vertex_decl)
    (h1 : cfg.MAX_VERTEX_ID ≤ 2 ^ cfg.id_bits) (h2 : cfg.MAX_VERTEX_ID ≤ 2 ^ 63)
    (lines : List (List Nat)) (df : data_frame α) (c0 c1 : List (scalar α))
    (h0 : col_data df 0 = some c0) (hc1 : col_data df 1 = some c1)
    (hr : ∀ s ∈ lines, ids_in_range cfg s) :
    ∃ rows df', EdgeRows EdgeLineStart lines rows ∧
      (∀ rows', EdgeRows EdgeLineStart lines rows' → rows' = rows) ∧
      edge_parser_parse cfg lines df = .ok (rows.length, df') ∧
      col_data df' 0 = some (c0 ++ rows.map (fun r => scalar.vid r.1)) ∧
      col_data df' 1 = some (c1 ++ rows.map (fun r => scalar.vid r.2)) ∧
      (∀ s ws rest, s = ws ++ 35 :: rest → all_space ws → ∀ a b, ¬ EdgeLineStart s a b) := by
  have hiff := edge_rows_iff cfg EdgeLineStart lines
    (fun s hs a b => edge_row_iff_start cfg h1 h2 s (hr s hs) a b)
  obtain ⟨df', hp, hd0, hd1, _, _⟩ := edge_parser_parse_ok cfg lines df c0 c1 h0 hc1
    (fun s hs e => edge_parser_line_no_fault cfg h1 h2 s (hr s hs) e)
  exact ⟨edge_rows cfg lines, df', (hiff _).mpr rfl, fun rows' h => (hiff rows').mp h, hp, hd0,
    hd1, fun s ws rest hs hws a b => comment_line_not_start hs hws a b⟩

/-- C1, the example of the specification: the lines `1 2`, `3 4`, `# skip`,
`5 6` give `source = [1, 3, 5]` and `dest = [2, 4, 6]`, and the amended claim
applies to them. -/
theorem edge_parser_parse_rows_witness :
    edge_parser_parse vertex_decl32 [str "1 2", str "3 4", str "# skip", str "5 6"] edge_frame =
      .ok (3, [⟨"source", .vertex_id_t, [.vid 1, .vid 3, .vid 5]⟩,
        ⟨"dest", .vertex_id_t, [.vid 2, .vid 4, .vid 6]⟩]) ∧
    ∃ rows df', EdgeRows EdgeLineStart [str "1 2", str "3 4", str "# skip", str "5 6"] rows ∧
      (∀ rows', EdgeRows EdgeLineStart [str "1 2", str "3 4", str "# skip", str "5 6"] rows' →
        rows' = rows) ∧
      edge_parser_parse vertex_decl32 [str "1 2", str "3 4", str "# skip", str "5 6"]
        edge_frame = .ok (rows.length, df') ∧
      col_data df' 0 = some ([] ++ rows.map (fun r => scalar.vid r.1)) ∧
      col_data df' 1 = some ([] ++ rows.map (fun r => scalar.vid r.2)) ∧
      (∀ s ws rest, s = ws ++ 35 :: rest → all_space ws → ∀ a b, ¬ EdgeLineStart s a b) :=
  ⟨by decide, edge_parser_parse_rows vertex_decl32 (by decide) (by decide) _ edge_frame [] []
    (by decide) (by decide) (ids_in_range_of_check _ _ (by decide))⟩

/-- C1 as stated fails: the line `1 2 x` does not consist of two integers
separated by white space, yet `edge_parser::parse` appends the row `(1, 2)`
for it. -/
theorem edge_parser_parse_trailing_counterexample :
    (¬ ∃ a b, EdgeLineExact (str "1 2 x") a b) ∧
    edge_parser_parse vertex_decl32 [str "1 2 x"] edge_frame =
      .ok (1, [⟨"source", .vertex_id_t, [.vid 1]⟩, ⟨"dest", .vertex_id_t, [.vid 2]⟩]) := by
  refine ⟨?_, by decide⟩
  rintro ⟨a, b, h⟩
  have := edge_line_exact_last h
  revert this
  decide

/-! ## attr_edge_parser::parse -/

theorem field_second_length_lt (s : List Nat) (h : field_num1 s ≠ []) :
    (field_second s).length < (c_str s).length := by
  have h1 := field_first_length_le s
  have h2 : (field_first s).length =
      (field_num1 s).length + ((field_first s).dropWhile isdigit).length := by
    conv_lhs => rw [field_first_eq s]
    exact List.length_append _ _
  have h3 : 0 < (field_num1 s).length := List.length_pos.mpr h
  have h4 : (field_second s).length ≤ ((field_first s).dropWhile isdigit).length :=
    (List.dropWhile_sublist isspace).length_le
  omega

/-- The test `third - line == len` holds exactly when the second number ends
the line. -/
theorem third_at_end_iff (s : List Nat) (h : field_num1 s ≠ []) :
    (c_str s).length - ((field_second s).dropWhile isdigit).length = (c_str s).length ↔
      (field_second s).dropWhile isdigit = [] := by
  have h1 := field_second_length_lt s h
  have h2 : ((field_second s).dropWhile isdigit).length ≤ (field_second s).length :=
    (List.dropWhile_sublist isdigit).length_le
  rw [← List.length_eq_zero]
  omega

/-- The loop body of `attr_edge_parser::parse`: the one of `edge_parser::parse`
followed by the attribute. -/
theorem attr_edge_parser_line_eq {α : Type} (cfg : vertex_decl)
    (cast : List Nat → Option α) (s : List Nat) :
    attr_edge_parser_line cfg cast s =
      match edge_parser_line cfg s with
      | .error e => .error e
      | .ok none => .ok none
      | .ok (some (src, dst)) =>
        if (field_second s).dropWhile isdigit = [] then .ok none
        else match cast (field_third s) with
          | none => .error .bad_lexical_cast
          | some attr => .ok (some (src, dst, attr)) := by
  rw [edge_parser_line_eq]
  unfold attr_edge_parser_line
  have hsec : List.dropWhile isspace (List.dropWhile isdigit (field_first s)) = field_second s :=
    rfl
  have hthird : List.dropWhile isspace (List.dropWhile isdigit (field_second s)) =
    field_third s := rfl
  simp only [← field_first.eq_1 s, hsec, hthird, id_read]
  by_cases h1 : field_num1 s = []
  · have hd : isdigit (deref (field_first s)) = false := by
      cases hh : isdigit (deref (field_first s))
      · rfl
      · exact absurd h1 ((field_num1_ne_nil_iff s).mpr hh)
    rw [if_pos h1]
    by_cases h35 : deref (field_first s) = 35
    · rw [if_pos h35]
    · rw [if_neg h35]; simp [hd]
  · have hd : isdigit (deref (field_first s)) = true := (field_num1_ne_nil_iff s).mp h1
    have h35 : deref (field_first s) ≠ 35 := by
      intro h; rw [h] at hd; exact absurd hd (by decide)
    rw [if_neg h1, if_neg h35]
    simp only [atol_field_first s h1, hd, Bool.not_true, Bool.false_eq_true, if_false]
    by_cases hr1 : to_vertex_id cfg (min LONG_MAX (digits_value (field_num1 s)))
        < cfg.MAX_VERTEX_ID
    · simp only [hr1, decide_True, Bool.not_true, Bool.false_eq_true, if_false, not_true_eq_false]
      by_cases hend : (field_first s).dropWhile isdigit = []
      · rw [if_pos ((second_at_end_iff s h1).mpr hend),
          if_pos (field_num2_of_second_at_end s hend)]
      · rw [if_neg (fun h => hend ((second_at_end_iff s h1).mp h))]
        by_cases h2 : field_num2 s = []
        · have hd2 : isdigit (deref (field_second s)) = false := by
            cases hh : isdigit (deref (field_second s))
            · rfl
            · exact absurd h2 ((field_num2_ne_nil_iff s).mpr hh)
          simp [h2, hd2]
        · have hd2 : isdigit (deref (field_second s)) = true := (field_num2_ne_nil_iff s).mp h2
          rw [if_neg h2]
          simp only [atol_field_second s h2, hd2, Bool.not_true, Bool.false_eq_true, if_false]
          by_cases hr2 : to_vertex_id cfg (min LONG_MAX (digits_value (field_num2 s)))
              < cfg.MAX_VERTEX_ID
          · simp only [hr2, decide_True, Bool.not_true, Bool.false_eq_true, if_false,
              not_true_eq_false]
            by_cases h3 : (field_second s).dropWhile isdigit = []
            · rw [if_pos ((third_at_end_iff s h1).mpr h3), if_pos h3]
            · rw [if_neg (fun h => h3 ((third_at_end_iff s h1).mp h)), if_neg h3]
          · simp [hr2]
    · simp [hr1]

theorem out_of_range_iff (cfg : vertex_decl) (s : List Nat) :
    OutOfRange cfg s ↔ edge_parser_line cfg s = .error .assert_fail := by
  rw [edge_parser_line_eq]
  unfold OutOfRange
  constructor
  · rintro (⟨a, ha, hmax⟩ | ⟨a, b, hab, hmax⟩)
    · obtain ⟨hne, rfl⟩ := (first_number_iff s a).mp ha
      have : ¬ id_read cfg (field_num1 s) < cfg.MAX_VERTEX_ID := by
        unfold id_read; omega
      rw [if_neg hne, if_pos this]
    · obtain ⟨hne, hbne, rfl, rfl⟩ := (edge_line_start_iff s a b).mp hab
      have : ¬ id_read cfg (field_num2 s) < cfg.MAX_VERTEX_ID := by
        unfold id_read; omega
      rw [if_neg hne]
      by_cases h1 : id_read cfg (field_num1 s) < cfg.MAX_VERTEX_ID
      · rw [if_neg (not_not.mpr h1), if_neg hbne, if_pos this]
      · rw [if_pos h1]
  · intro h
    by_cases hne : field_num1 s = []
    · rw [if_pos hne] at h; cases h
    · rw [if_neg hne] at h
      by_cases h1 : id_read cfg (field_num1 s) < cfg.MAX_VERTEX_ID
      · rw [if_neg (not_not.mpr h1)] at h
        by_cases hbne : field_num2 s = []
        · rw [if_pos hbne] at h; cases h
        · rw [if_neg hbne] at h
          by_cases h2 : id_read cfg (field_num2 s) < cfg.MAX_VERTEX_ID
          · rw [if_neg (not_not.mpr h2)] at h; cases h
          · right
            refine ⟨_, _, (edge_line_start_iff s _ _).mpr ⟨hne, hbne, rfl, rfl⟩, ?_⟩
            unfold id_read at h2; omega
      · left
        refine ⟨_, (first_number_iff s _).mpr ⟨hne, rfl⟩, ?_⟩
        unfold id_read at h1; omega

theorem attr_rows_cons_none {α : Type} {cfg : vertex_decl} {cast : List Nat → Option α}
    {s : List Nat} (ls : List (List Nat)) (h : attr_edge_parser_line cfg cast s = .ok none) :
    attr_rows cfg cast (s :: ls) = attr_rows cfg cast ls := by
  have : attr_row cfg cast s = none := by unfold attr_row; rw [h]
  unfold attr_rows
  rw [List.filterMap_cons_none this]

theorem attr_rows_cons_some {α : Type} {cfg : vertex_decl} {cast : List Nat → Option α}
    {s : List Nat} {r : Nat × Nat × α} (ls : List (List Nat))
    (h : attr_edge_parser_line cfg cast s = .ok (some r)) :
    attr_rows cfg cast (s :: ls) = r :: attr_rows cfg cast ls := by
  have : attr_row cfg cast s = some r := by unfold attr_row; rw [h]
  unfold attr_rows
  rw [List.filterMap_cons_some this]

/-- When no line stops the call the loop ends with `entry_idx` advanced by
the number of rows, and the three staging vectors hold the rows. -/
theorem attr_edge_parser_loop_ok {α : Type} (cfg : vertex_decl) (cast : List Nat → Option α)
    (lines : List (List Nat))
    (hok : ∀ s ∈ lines, ∀ e, attr_edge_parser_line cfg cast s ≠ .error e) :
    ∀ (froms tos attrs : List (scalar α)) (e : Nat), e + lines.length ≤ froms.length →
      e + lines.length ≤ tos.length → e + lines.length ≤ attrs.length →
      ∃ f t a, attr_edge_parser_loop cfg cast lines froms tos attrs e =
          .ok (f, t, a, e + (attr_rows cfg cast lines).length) ∧
        f.take (e + (attr_rows cfg cast lines).length) =
          froms.take e ++ (attr_rows cfg cast lines).map (fun r => scalar.vid r.1) ∧
        t.take (e + (attr_rows cfg cast lines).length) =
          tos.take e ++ (attr_rows cfg cast lines).map (fun r => scalar.vid r.2.1) ∧
        a.take (e + (attr_rows cfg cast lines).length) =
          attrs.take e ++ (attr_rows cfg cast lines).map (fun r => scalar.attr r.2.2) := by
  induction lines with
  | nil =>
    intro froms tos attrs e _ _ _
    exact ⟨froms, tos, attrs, by simp [attr_edge_parser_loop, attr_rows], by simp [attr_rows],
      by simp [attr_rows], by simp [attr_rows]⟩
  | cons s ls ih =>
    intro froms tos attrs e hf ht ha
    have ih := ih (fun s hs => hok s (List.mem_cons_of_mem _ hs))
    simp only [List.length_cons] at hf ht ha
    cases hl : attr_edge_parser_line cfg cast s with
    | error err => exact absurd hl (hok s (List.mem_cons_self _ _) err)
    | ok r =>
      cases r with
      | none =>
        obtain ⟨f, t, a, h1, h2, h3, h4⟩ := ih froms tos attrs e (by omega) (by omega) (by omega)
        refine ⟨f, t, a, ?_, ?_, ?_, ?_⟩
        · rw [attr_rows_cons_none ls hl]; unfold attr_edge_parser_loop; rw [hl]; exact h1
        · rw [attr_rows_cons_none ls hl]; exact h2
        · rw [attr_rows_cons_none ls hl]; exact h3
        · rw [attr_rows_cons_none ls hl]; exact h4
      | some r =>
        obtain ⟨x, y, z⟩ := r
        obtain ⟨f, t, a, h1, h2, h3, h4⟩ := ih (froms.set e (scalar.vid x))
          (tos.set e (scalar.vid y)) (attrs.set e (scalar.attr z)) (e + 1)
          (by rw [List.length_set]; omega) (by rw [List.length_set]; omega)
          (by rw [List.length_set]; omega)
        have hlen : e + (attr_rows cfg cast (s :: ls)).length =
            e + 1 + (attr_rows cfg cast ls).length := by
          rw [attr_rows_cons_some ls hl, List.length_cons]; omega
        refine ⟨f, t, a, ?_, ?_, ?_, ?_⟩
        · rw [hlen]; unfold attr_edge_parser_loop; rw [hl]; exact h1
        · rw [hlen, h2, take_set_succ _ _ _ (by omega), attr_rows_cons_some ls hl]
          simp
        · rw [hlen, h3, take_set_succ _ _ _ (by omega), attr_rows_cons_some ls hl]
          simp
        · rw [hlen, h4, take_set_succ _ _ _ (by omega), attr_rows_cons_some ls hl]
          simp

/-- A line that stops the call makes the loop end abnormally. -/
theorem attr_edge_parser_loop_fault {α : Type} (cfg : vertex_decl)
    (cast : List Nat → Option α) (lines : List (List Nat))
    (hbad : ∃ s ∈ lines, ∃ e, attr_edge_parser_line cfg cast s = .error e) :
    ∀ (froms tos attrs : List (scalar α)) (e : Nat), ∃ err,
      attr_edge_parser_loop cfg cast lines froms tos attrs e = .error err := by
  induction lines with
  | nil => obtain ⟨s, hs, _⟩ := hbad; simp at hs
  | cons s ls ih =>
    intro froms tos attrs e
    cases hl : attr_edge_parser_line cfg cast s with
    | error err => exact ⟨err, by unfold attr_edge_parser_loop; rw [hl]⟩
    | ok r =>
      have hbad2 : ∃ s ∈ ls, ∃ e, attr_edge_parser_line cfg cast s = .error e := by
        obtain ⟨s2, hs2, e2, h2⟩ := hbad
        rcases List.mem_cons.mp hs2 with rfl | hmem
        · rw [hl] at h2; cases h2
        · exact ⟨s2, hmem, e2, h2⟩
      cases r with
      | none =>
        obtain ⟨err, h⟩ := ih hbad2 froms tos attrs e
        exact ⟨err, by unfold attr_edge_parser_loop; rw [hl]; exact h⟩
      | some r =>
        obtain ⟨x, y, z⟩ := r
        obtain ⟨err, h⟩ := ih hbad2 (froms.set e (scalar.vid x)) (tos.set e (scalar.vid y))
          (attrs.set e (scalar.attr z)) (e + 1)
        exact ⟨err, by unfold attr_edge_parser_loop; rw [hl]; exact h⟩

theorem attr_edge_parser_parse_fault {α : Type} (cfg : vertex_decl)
    (cast : List Nat → Option α) (lines : List (List Nat)) (df : data_frame α)
    (hbad : ∃ s ∈ lines, ∃ e, attr_edge_parser_line cfg cast s = .error e) :
    ∃ err, attr_edge_parser_parse cfg cast lines df = .error err := by
  obtain ⟨err, h⟩ := attr_edge_parser_loop_fault cfg cast lines hbad
    (smp_vec_create lines.length) (smp_vec_create lines.length) (smp_vec_create lines.length) 0
  exact ⟨err, by unfold attr_edge_parser_parse; rw [h]⟩

/-- When no line stops the call, `parse` returns the number of rows and has
appended their three components to columns 0, 1 and 2. -/
theorem attr_edge_parser_parse_ok {α : Type} (cfg : vertex_decl) (cast : List Nat → Option α)
    (lines : List (List Nat)) (df : data_frame α) (c0 c1 c2 : List (scalar α))
    (h0 : col_data df 0 = some c0) (h1 : col_data df 1 = some c1)
    (h2 : col_data df 2 = some c2)
    (hok : ∀ s ∈ lines, ∀ e, attr_edge_parser_line cfg cast s ≠ .error e) :
    ∃ df', attr_edge_parser_parse cfg cast lines df =
        .ok ((attr_rows cfg cast lines).length, df') ∧
      col_data df' 0 = some (c0 ++ (attr_rows cfg cast lines).map (fun r => scalar.vid r.1)) ∧
      col_data df' 1 = some (c1 ++ (attr_rows cfg cast lines).map (fun r => scalar.vid r.2.1)) ∧
      col_data df' 2 =
        some (c2 ++ (attr_rows cfg cast lines).map (fun r => scalar.attr r.2.2)) ∧
      col_lengths df' = (((col_lengths df).set 0 (c0.length + (attr_rows cfg cast lines).length)).set
        1 (c1.length + (attr_rows cfg cast lines).length)).set 2
        (c2.length + (attr_rows cfg cast lines).length) := by
  obtain ⟨f, t, a, hloop, hf, ht, ha⟩ := attr_edge_parser_loop_ok cfg cast lines hok
    (smp_vec_create lines.length) (smp_vec_create lines.length) (smp_vec_create lines.length) 0
    (by simp [smp_vec_create]) (by simp [smp_vec_create]) (by simp [smp_vec_create])
  simp only [Nat.zero_add, List.take_zero, List.nil_append] at hloop hf ht ha
  obtain ⟨df1, ha1, hb1, hc1, hd1⟩ := get_vec_append_spec df 0
    ((attr_rows cfg cast lines).map (fun r => scalar.vid r.1)) c0 h0
  have h1' : col_data df1 1 = some c1 := by rw [hc1 1 (by omega)]; exact h1
  obtain ⟨df2, ha2, hb2, hc2, hd2⟩ := get_vec_append_spec df1 1
    ((attr_rows cfg cast lines).map (fun r => scalar.vid r.2.1)) c1 h1'
  have h2' : col_data df2 2 = some c2 := by rw [hc2 2 (by omega), hc1 2 (by omega)]; exact h2
  obtain ⟨df3, ha3, hb3, hc3, hd3⟩ := get_vec_append_spec df2 2
    ((attr_rows cfg cast lines).map (fun r => scalar.attr r.2.2)) c2 h2'
  refine ⟨df3, ?_, ?_, ?_, hb3, ?_⟩
  · unfold attr_edge_parser_parse
    rw [hloop]
    simp only [smp_vec_resize, hf, ht, ha, ha1, ha2, ha3, List.length_map]
  · rw [hc3 0 (by omega), hc2 0 (by omega)]; exact hb1
  · rw [hc3 1 (by omega)]; exact hb2
  · rw [hd3, hd2, hd1]; simp

/-! ## Out-of-range ids and invalid attributes -/

/-- C2 (as amended). A line that reads an id that is not below `MAX_VERTEX_ID`
is not skipped: it fails the assertion `id < MAX_VERTEX_ID`. With such a line
in the list `edge_parser::parse` ends in the failed assertion, and
`attr_edge_parser::parse`, whose loop body fails the same assertion on the
line, does not return either; neither call appends a row. -/
theorem parse_out_of_range_aborts {α : Type} (cfg : vertex_decl) (cast : List Nat → Option α)
    (lines : List (List Nat)) (df : data_frame α) (s : List Nat) (hs : s ∈ lines)
    (hbad : OutOfRange cfg s) :
    edge_parser_parse cfg lines df = .error .assert_fail ∧
    attr_edge_parser_line cfg cast s = .error .assert_fail ∧
    ∃ err, attr_edge_parser_parse cfg cast lines df = .error err := by
  have hline := (out_of_range_iff cfg s).mp hbad
  have hattr : attr_edge_parser_line cfg cast s = .error .assert_fail := by
    rw [attr_edge_parser_line_eq, hline]
  exact ⟨edge_parser_parse_fault cfg lines df ⟨s, hs, hline⟩, hattr,
    attr_edge_parser_parse_fault cfg cast lines df ⟨s, hs, _, hattr⟩⟩

/-- C2, an instance: with `MAX_VERTEX_ID = 4294967295` the line `4294967295 3`
behind the well-formed line `1 2`. -/
theorem parse_out_of_range_aborts_witness :
    str "4294967295 3" ∈ [str "1 2", str "4294967295 3"] ∧
    OutOfRange vertex_decl32 (str "4294967295 3") ∧
    edge_parser_parse vertex_decl32 [str "1 2", str "4294967295 3"] edge_frame =
      .error .assert_fail ∧
    attr_edge_parser_line vertex_decl32 lexical_cast_long (str "4294967295 3") =
      .error .assert_fail ∧
    ∃ err, attr_edge_parser_parse vertex_decl32 lexical_cast_long
      [str "1 2", str "4294967295 3"] edge_frame = .error err :=
  ⟨by decide, (out_of_range_iff _ _).mpr (by decide),
    parse_out_of_range_aborts vertex_decl32 lexical_cast_long _ edge_frame _ (by decide)
      ((out_of_range_iff _ _).mpr (by decide))⟩

/-- C2 as stated fails: with `MAX_VERTEX_ID = 4294967295` the line
`4294967295 3` is not skipped. Both parsers stop in the failed assertion, and
the row of the well-formed line before it is not appended either, although
that line alone gives one row. -/
theorem parse_out_of_range_counterexample :
    OutOfRange vertex_decl32 (str "4294967295 3") ∧
    edge_parser_parse vertex_decl32 [str "1 2", str "4294967295 3"] edge_frame =
      .error .assert_fail ∧
    edge_parser_parse vertex_decl32 [str "1 2"] edge_frame =
      .ok (1, [⟨"source", .vertex_id_t, [.vid 1]⟩, ⟨"dest", .vertex_id_t, [.vid 2]⟩]) ∧
    attr_edge_parser_parse vertex_decl32 lexical_cast_long
      [str "1 2 7", str "4294967295 3 7"] (attr_edge_frame Int) = .error .assert_fail :=
  ⟨(out_of_range_iff _ _).mpr (by decide), by decide, by decide, by decide⟩

/-- C3, the failing input: whenever `lexical_cast` rejects `x`, the line
`1 2 x` is not skipped by `attr_edge_parser::parse`; the exception leaves the
call, nothing is appended and the line `3 4 5` behind it is not parsed. -/
theorem attr_parse_bad_attr_escapes {α : Type} (cast : List Nat → Option α)
    (h : cast (str "x") = none) (df : data_frame α) :
    attr_edge_parser_parse vertex_decl32 cast [str "1 2 x", str "3 4 5"] df =
      .error .bad_lexical_cast := by
  have hl : attr_edge_parser_line vertex_decl32 cast (str "1 2 x") = .error .bad_lexical_cast := by
    rw [attr_edge_parser_line_eq]
    have h1 : edge_parser_line vertex_decl32 (str "1 2 x") = .ok (some (1, 2)) := by decide
    have h2 : (field_second (str "1 2 x")).dropWhile isdigit ≠ [] := by decide
    have h3 : field_third (str "1 2 x") = str "x" := by decide
    rw [h1]
    simp only [h2, if_false, h3, h]
  unfold attr_edge_parser_parse attr_edge_parser_loop
  rw [hl]

/-- C3, an instance: the cast `lexical_cast_long` rejects `x`. -/
theorem attr_parse_bad_attr_escapes_witness :
    lexical_cast_long (str "x") = none ∧
    attr_edge_parser_parse vertex_decl32 lexical_cast_long [str "1 2 x", str "3 4 5"]
      (attr_edge_frame Int) = .error .bad_lexical_cast :=
  ⟨by decide, attr_parse_bad_attr_escapes lexical_cast_long (by decide) _⟩

/-! ## rows_accepted -/

theorem length_filterMap_eq_countP {β γ : Type} (f : β → Option γ) (l : List β) :
    (l.filterMap f).length = l.countP (fun x => (f x).isSome) := by
  induction l with
  | nil => rfl
  | cons x l ih =>
    cases hx : f x with
    | none => rw [List.filterMap_cons_none hx, List.countP_cons_of_neg _ _ (by simp [hx]), ih]
    | some y =>
      rw [List.filterMap_cons_some hx, List.countP_cons_of_pos _ _ (by simp [hx]),
        List.length_cons, ih]

theorem frame_of_two_lengths {α : Type} {df : data_frame α} {m : Nat}
    (h : col_lengths df = [m, m]) :
    ∃ c0 c1, col_data df 0 = some c0 ∧ col_data df 1 = some c1 ∧ c0.length = m ∧
      c1.length = m := by
  unfold col_lengths at h
  rcases df with _ | ⟨v0, _ | ⟨v1, _ | ⟨v2, rest⟩⟩⟩
  · simp at h
  · simp at h
  · simp only [List.map_cons, List.map_nil, List.cons.injEq, and_true] at h
    exact ⟨v0.data, v1.data, rfl, rfl, h.1, h.2⟩
  · simp at h

theorem frame_of_three_lengths {α : Type} {df : data_frame α} {m : Nat}
    (h : col_lengths df = [m, m, m]) :
    ∃ c0 c1 c2, col_data df 0 = some c0 ∧ col_data df 1 = some c1 ∧ col_data df 2 = some c2 ∧
      c0.length = m ∧ c1.length = m ∧ c2.length = m := by
  unfold col_lengths at h
  rcases df with _ | ⟨v0, _ | ⟨v1, _ | ⟨v2, _ | ⟨v3, rest⟩⟩⟩⟩
  · simp at h
  · simp at h
  · simp at h
  · simp only [List.map_cons, List.map_nil, List.cons.injEq, and_true] at h
    exact ⟨v0.data, v1.data, v2.data, rfl, rfl, rfl, h.1, h.2.1, h.2.2⟩
  · simp at h

/-- C4 (as amended). Let the 2 (3) columns of the frame have the equal length
`m`. Either a line stops the call (a failed assertion or an uncaught
`bad_lexical_cast`) and `parse` returns nothing, or no line does and `parse`
returns rows_accepted, the number of accepted lines, which is the final
`entry_idx` of the loop, and every column has grown by exactly rows_accepted,
so that all columns again have equal length. -/
theorem parse_rows_accepted {α : Type} (cfg : vertex_decl) (cast : List Nat → Option α)
    (lines : List (List Nat)) (m : Nat) (df2 df3 : data_frame α)
    (h2 : col_lengths df2 = [m, m]) (h3 : col_lengths df3 = [m, m, m]) :
    (((∃ s ∈ lines, edge_parser_line cfg s = .error .assert_fail) ∧
        edge_parser_parse cfg lines df2 = .error .assert_fail) ∨
      ((∀ s ∈ lines, ∀ e, edge_parser_line cfg s ≠ .error e) ∧ ∃ f t df',
        edge_parser_loop (α := α) cfg lines (smp_vec_create lines.length)
          (smp_vec_create lines.length) 0 =
            .ok (f, t, lines.countP (fun s => (edge_row cfg s).isSome)) ∧
        edge_parser_parse cfg lines df2 =
          .ok (lines.countP (fun s => (edge_row cfg s).isSome), df') ∧
        col_lengths df' = [m + lines.countP (fun s => (edge_row cfg s).isSome),
          m + lines.countP (fun s => (edge_row cfg s).isSome)])) ∧
    (((∃ s ∈ lines, ∃ e, attr_edge_parser_line cfg cast s = .error e) ∧
        ∃ err, attr_edge_parser_parse cfg cast lines df3 = .error err) ∨
      ((∀ s ∈ lines, ∀ e, attr_edge_parser_line cfg cast s ≠ .error e) ∧ ∃ f t a df',
        attr_edge_parser_loop cfg cast lines (smp_vec_create lines.length)
          (smp_vec_create lines.length) (smp_vec_create lines.length) 0 =
            .ok (f, t, a, lines.countP (fun s => (attr_row cfg cast s).isSome)) ∧
        attr_edge_parser_parse cfg cast lines df3 =
          .ok (lines.countP (fun s => (attr_row cfg cast s).isSome), df') ∧
        col_lengths df' = [m + lines.countP (fun s => (attr_row cfg cast s).isSome),
          m + lines.countP (fun s => (attr_row cfg cast s).isSome),
          m + lines.countP (fun s => (attr_row cfg cast s).isSome)])) := by
  constructor
  · by_cases hbad : ∃ s ∈ lines, edge_parser_line cfg s = .error .assert_fail
    · exact Or.inl ⟨hbad, edge_parser_parse_fault cfg lines df2 hbad⟩
    · right
      have hok : ∀ s ∈ lines, ∀ e, edge_parser_line cfg s ≠ .error e := by
        intro s hs e he
        have := edge_parser_line_error he
        subst this
        exact hbad ⟨s, hs, he⟩
      refine ⟨hok, ?_⟩
      obtain ⟨c0, c1, hc0, hc1, hl0, hl1⟩ := frame_of_two_lengths h2
      obtain ⟨df', hp, _, _, _, hlen⟩ := edge_parser_parse_ok cfg lines df2 c0 c1 hc0 hc1 hok
      obtain ⟨f, t, hloop, _, _⟩ := edge_parser_loop_ok (α := α) cfg lines hok
        (smp_vec_create lines.length) (smp_vec_create lines.length) 0
        (by simp [smp_vec_create]) (by simp [smp_vec_create])
      have hn : (edge_rows cfg lines).length = lines.countP (fun s => (edge_row cfg s).isSome) :=
        length_filterMap_eq_countP _ _
      rw [Nat.zero_add] at hloop
      rw [hn] at hp hlen hloop
      refine ⟨f, t, df', hloop, hp, ?_⟩
      rw [hlen, h2, hl0, hl1]
      rfl
  · by_cases hbad : ∃ s ∈ lines, ∃ e, attr_edge_parser_line cfg cast s = .error e
    · exact Or.inl ⟨hbad, attr_edge_parser_parse_fault cfg cast lines df3 hbad⟩
    · right
      have hok : ∀ s ∈ lines, ∀ e, attr_edge_parser_line cfg cast s ≠ .error e :=
        fun s hs e he => hbad ⟨s, hs, e, he⟩
      refine ⟨hok, ?_⟩
      obtain ⟨c0, c1, c2, hc0, hc1, hc2, hl0, hl1, hl2⟩ := frame_of_three_lengths h3
      obtain ⟨df', hp, _, _, _, hlen⟩ :=
        attr_edge_parser_parse_ok cfg cast lines df3 c0 c1 c2 hc0 hc1 hc2 hok
      obtain ⟨f, t, a, hloop, _, _, _⟩ := attr_edge_parser_loop_ok cfg cast lines hok
        (smp_vec_create lines.length) (smp_vec_create lines.length)
        (smp_vec_create lines.length) 0
        (by simp [smp_vec_create]) (by simp [smp_vec_create]) (by simp [smp_vec_create])
      have hn : (attr_rows cfg cast lines).length =
          lines.countP (fun s => (attr_row cfg cast s).isSome) :=
        length_filterMap_eq_countP _ _
      rw [Nat.zero_add] at hloop
      rw [hn] at hp hlen hloop
      refine ⟨f, t, a, df', hloop, hp, ?_⟩
      rw [hlen, h3, hl0, hl1, hl2]
      rfl

/-- C4, an instance: three lines, one of them a comment, and empty frames. -/
theorem parse_rows_accepted_witness :
    col_lengths edge_frame = [0, 0] ∧ col_lengths (attr_edge_frame Int) = [0, 0, 0] ∧
    (((∃ s ∈ attr_sample_lines, edge_parser_line vertex_decl32 s = .error .assert_fail) ∧
        edge_parser_parse vertex_decl32 attr_sample_lines edge_frame = .error .assert_fail) ∨
      ((∀ s ∈ attr_sample_lines, ∀ e, edge_parser_line vertex_decl32 s ≠ .error e) ∧ ∃ f t df',
        edge_parser_loop (α := Int) vertex_decl32 attr_sample_lines (smp_vec_create attr_sample_lines.length)
          (smp_vec_create attr_sample_lines.length) 0 =
            .ok (f, t, attr_sample_lines.countP (fun s => (edge_row vertex_decl32 s).isSome)) ∧
        edge_parser_parse vertex_decl32 attr_sample_lines edge_frame =
          .ok (attr_sample_lines.countP (fun s => (edge_row vertex_decl32 s).isSome), df') ∧
        col_lengths df' = [0 + attr_sample_lines.countP (fun s => (edge_row vertex_decl32 s).isSome),
          0 + attr_sample_lines.countP (fun s => (edge_row vertex_decl32 s).isSome)])) ∧
    (((∃ s ∈ attr_sample_lines, ∃ e, attr_edge_parser_line vertex_decl32 lexical_cast_long s = .error e) ∧
        ∃ err, attr_edge_parser_parse vertex_decl32 lexical_cast_long attr_sample_lines (attr_edge_frame Int) = .error err) ∨
      ((∀ s ∈ attr_sample_lines, ∀ e, attr_edge_parser_line vertex_decl32 lexical_cast_long s ≠ .error e) ∧ ∃ f t a df',
        attr_edge_parser_loop vertex_decl32 lexical_cast_long attr_sample_lines (smp_vec_create attr_sample_lines.length)
          (smp_vec_create attr_sample_lines.length) (smp_vec_create attr_sample_lines.length) 0 =
            .ok (f, t, a, attr_sample_lines.countP (fun s => (attr_row vertex_decl32 lexical_cast_long s).isSome)) ∧
        attr_edge_parser_parse vertex_decl32 lexical_cast_long attr_sample_lines (attr_edge_frame Int) =
          .ok (attr_sample_lines.countP (fun s => (attr_row vertex_decl32 lexical_cast_long s).isSome), df') ∧
        col_lengths df' = [0 + attr_sample_lines.countP (fun s => (attr_row vertex_decl32 lexical_cast_long s).isSome),
          0 + attr_sample_lines.countP (fun s => (attr_row vertex_decl32 lexical_cast_long s).isSome),
          0 + attr_sample_lines.countP (fun s => (attr_row vertex_decl32 lexical_cast_long s).isSome)])) :=
  ⟨by decide, by decide, parse_rows_accepted vertex_decl32 lexical_cast_long
    attr_sample_lines 0 edge_frame (attr_edge_frame Int) (by decide)
    (by decide)⟩

/-- C4 as stated fails: for the line `4294967295 1` and an empty two-column
frame `edge_parser::parse` returns no rows_accepted at all; it stops in the
failed assertion on the first id. -/
theorem parse_rows_accepted_counterexample :
    col_lengths edge_frame = [0, 0] ∧
    edge_parser_parse vertex_decl32 [str "4294967295 1"] edge_frame = .error .assert_fail ∧
    ¬ ∃ n df', edge_parser_parse vertex_decl32 [str "4294967295 1"] edge_frame = .ok (n, df') := by
  refine ⟨by decide, by decide, ?_⟩
  rintro ⟨n, df', h⟩
  have h2 : edge_parser_parse vertex_decl32 [str "4294967295 1"] edge_frame =
    .error .assert_fail := by decide
  rw [h2] at h
  cases h


/-! ## parse_lines hands over the records of the block -/

theorem strchr_off_found (c : Nat) (l T : List Nat) (hl : ∀ b ∈ l, b ≠ c)
    (hz : ∀ b ∈ l, b ≠ 0) : strchr_off c (l ++ c :: T) = some l.length := by
  induction l with
  | nil => simp [strchr_off]
  | cons b l ih =>
    have hb : b ≠ c := hl b (by simp)
    have hb0 : b ≠ 0 := hz b (by simp)
    simp only [List.cons_append, strchr_off, hb, hb0, if_false, List.length_cons,
      List.append_eq]
    rw [ih (fun x hx => hl x (List.mem_cons_of_mem _ hx))
      (fun x hx => hz x (List.mem_cons_of_mem _ hx))]
    rfl

theorem strchr_off_none (c : Nat) (hc : c ≠ 0) (l T : List Nat) (hl : ∀ b ∈ l, b ≠ c) :
    strchr_off c (l ++ 0 :: T) = none := by
  induction l with
  | nil => simp [strchr_off, Ne.symm hc]
  | cons b l ih =>
    have hb : b ≠ c := hl b (by simp)
    simp only [List.cons_append, strchr_off, hb, if_false, List.append_eq]
    rw [ih (fun x hx => hl x (List.mem_cons_of_mem _ hx))]
    split_ifs <;> rfl

theorem spec_records_aux_no_nl (cur l : List Nat) (hl : ∀ b ∈ l, b ≠ 10) :
    spec_records_aux cur l = if cur ++ l = [] then [] else [cur ++ l] := by
  induction l generalizing cur with
  | nil => simp [spec_records_aux]
  | cons b l ih =>
    have hb : b ≠ 10 := hl b (by simp)
    simp only [spec_records_aux, hb, if_false]
    rw [ih _ (fun x hx => hl x (List.mem_cons_of_mem _ hx))]
    simp

theorem spec_records_aux_nl (cur l rest : List Nat) (hl : ∀ b ∈ l, b ≠ 10) :
    spec_records_aux cur (l ++ 10 :: rest) = strip_cr (cur ++ l) :: spec_records_aux [] rest := by
  induction l generalizing cur with
  | nil => simp [spec_records_aux]
  | cons b l ih =>
    have hb : b ≠ 10 := hl b (by simp)
    simp only [List.cons_append, spec_records_aux, hb, if_false, List.append_eq]
    rw [ih _ (fun x hx => hl x (List.mem_cons_of_mem _ hx))]
    simp

/-- A list of bytes has no `\n`, or it is a line without `\n`, a `\n` and the
rest. -/
theorem split_at_nl (rest : List Nat) :
    (∀ b ∈ rest, b ≠ 10) ∨
      ∃ l rest', rest = l ++ 10 :: rest' ∧ ∀ b ∈ l, b ≠ 10 := by
  induction rest with
  | nil => left; simp
  | cons b rest ih =>
    by_cases hb : b = 10
    · right; exact ⟨[], rest, by simp [hb], by simp⟩
    · rcases ih with h | ⟨l, rest', h, hl⟩
      · left
        intro x hx
        rcases List.mem_cons.mp hx with rfl | hx
        · exact hb
        · exact h x hx
      · right
        refine ⟨b :: l, rest', by simp [h], ?_⟩
        intro x hx
        rcases List.mem_cons.mp hx with rfl | hx
        · exact hb
        · exact hl x hx

theorem set_at_length {β : Type} (D T : List β) (x y : β) :
    (D ++ x :: T).set D.length y = D ++ y :: T := by
  induction D with
  | nil => rfl
  | cons d D ih => simp only [List.cons_append, List.length_cons, List.set_cons_succ, ih]

theorem get_at_length {β : Type} (D T : List β) (x : β) : (D ++ x :: T)[D.length]? = some x := by
  induction D with
  | nil => simp
  | cons d D ih => simpa using ih

/-- The test for a `\r` before the `\n` that has just been overwritten, and
the write that follows it. -/
theorem cr_step (D0 T : List Nat) (x : Nat) :
    (if (D0 ++ x :: 0 :: T)[D0.length]?.getD 0 = 13 then (D0 ++ x :: 0 :: T).set D0.length 0
      else D0 ++ x :: 0 :: T) = D0 ++ (if x = 13 then 0 else x) :: 0 :: T := by
  rw [get_at_length, set_at_length]
  simp only [Option.getD_some]
  split_ifs <;> rfl

theorem c_str_zero (T : List Nat) : c_str (0 :: T) = [] := by
  simp [c_str]

theorem string_at_append (done T : List Nat) : string_at (done ++ T) done.length = c_str T := by
  unfold string_at
  rw [List.drop_left]

theorem strip_cr_nil : strip_cr [] = [] := rfl

theorem strip_cr_concat (l0 : List Nat) (x : Nat) :
    strip_cr (l0 ++ [x]) = if x = 13 then l0 else l0 ++ [x] := by
  unfold strip_cr
  simp

theorem nil_or_snoc {β : Type} (l : List β) : l = [] ∨ ∃ l0 x, l = l0 ++ [x] := by
  rcases List.eq_nil_or_concat l with h | ⟨l0, x, h⟩
  · exact Or.inl h
  · exact Or.inr ⟨l0, x, by rw [h, List.concat_eq_append]⟩

/-- One iteration of the loop of `parse_lines` on a line `l`: the memory
after the two writes, and the record that is pushed. -/
theorem parse_lines_iteration (done l T : List Nat) (hd : done ≠ []) (hz : ∀ b ∈ l, b ≠ 0) :
    ∃ done', done'.length = done.length + l.length + 1 ∧ done' ≠ [] ∧
      (if ((done ++ l ++ 10 :: T).set (done ++ l).length 0)[(done ++ l).length - 1]?.getD 0 = 13
        then ((done ++ l ++ 10 :: T).set (done ++ l).length 0).set ((done ++ l).length - 1) 0
        else (done ++ l ++ 10 :: T).set (done ++ l).length 0) = done' ++ T ∧
      string_at (done' ++ T) done.length = strip_cr l := by
  rw [set_at_length]
  rcases nil_or_snoc l with rfl | ⟨l0, x, rfl⟩
  · have hne : done ≠ [] := hd
    rcases nil_or_snoc done with h | ⟨D0, x, rfl⟩
    · exact absurd h hne
    · refine ⟨D0 ++ [if x = 13 then 0 else x, 0], by simp, by simp, ?_, ?_⟩
      · have e : (D0 ++ [x] ++ []).length - 1 = D0.length := by simp
        rw [e]
        have e2 : D0 ++ [x] ++ [] ++ 0 :: T = D0 ++ x :: 0 :: T := by simp
        rw [e2, cr_step]
        simp
      · have e3 : D0 ++ [if x = 13 then 0 else x, 0] ++ T =
            (D0 ++ [if x = 13 then 0 else x]) ++ 0 :: T := by simp
        rw [e3]
        have e4 : (D0 ++ [x]).length = (D0 ++ [if x = 13 then 0 else x]).length := by simp
        rw [e4, string_at_append, c_str_zero, strip_cr_nil]
  · refine ⟨done ++ l0 ++ [if x = 13 then 0 else x, 0], by simp; omega, by simp, ?_, ?_⟩
    · have e : (done ++ (l0 ++ [x])).length - 1 = (done ++ l0).length := by simp
      rw [e]
      have e2 : done ++ (l0 ++ [x]) ++ 0 :: T = (done ++ l0) ++ x :: 0 :: T := by simp
      rw [e2, cr_step]
      simp
    · have e3 : done ++ l0 ++ [if x = 13 then 0 else x, 0] ++ T =
          done ++ (l0 ++ (if x = 13 then 0 else x) :: 0 :: T) := by simp
      rw [e3, string_at_append, strip_cr_concat]
      have hz0 : ∀ b ∈ l0, (b != 0) = true := by
        intro b hb
        simpa using hz b (by simp [hb])
      rw [c_str_append_of_nonzero _ hz0]
      by_cases hx : x = 13
      · simp [hx, c_str_zero]
      · have hx0 : x ≠ 0 := hz x (by simp)
        simp only [hx, if_false]
        have : c_str (x :: 0 :: T) = [x] := by
          unfold c_str
          rw [List.takeWhile_cons_of_pos (p := fun c => c != 0) (by simpa using hx0)]
          simp
        rw [this]

/-- The loop of `parse_lines`, followed by the push of the bytes behind the
last `\n`, adds the records of the rest of the block to the lines. -/
theorem parse_lines_loop_spec (buf_start size : Nat) :
    ∀ (fuel : Nat) (done rest post : List Nat) (acc : List (List Nat)),
      done ≠ [] → (∀ b ∈ rest, b ≠ 0) → rest.length < fuel →
      done.length + rest.length = buf_start + size → buf_start ≤ done.length →
      ∃ mem' line' lines',
        parse_lines_loop buf_start size fuel (done ++ (rest ++ 0 :: post)) done.length acc =
          .ok (mem', line', lines') ∧
        (if line' - buf_start < size then lines' ++ [string_at mem' line'] else lines') =
          acc ++ spec_records rest := by
  intro fuel
  induction fuel with
  | zero => intro done rest post acc _ _ h; omega
  | succ fuel ih =>
    intro done rest post acc hd hz hfuel hlen hstart
    rcases split_at_nl rest with hno | ⟨l, rest', hrest, hl⟩
    · have hs : strchr (done ++ (rest ++ 0 :: post)) done.length 10 = none := by
        unfold strchr
        rw [List.drop_left, strchr_off_none 10 (by decide) rest _ hno]
        rfl
      refine ⟨_, _, _, by unfold parse_lines_loop; rw [hs], ?_⟩
      have hz0 : ∀ b ∈ rest, (b != 0) = true := fun b hb => by simpa using hz b hb
      rw [string_at_append, c_str_append_of_nonzero _ hz0, c_str_zero, List.append_nil]
      unfold spec_records
      rw [spec_records_aux_no_nl [] rest hno]
      by_cases hr : rest = []
      · subst hr
        have : ¬ (done.length - buf_start < size) := by
          simp only [List.length_nil, Nat.add_zero] at hlen; omega
        simp [this]
      · have hpos : 0 < rest.length := List.length_pos.mpr hr
        have : done.length - buf_start < size := by omega
        simp [this, hr]
    · subst hrest
      have hzl : ∀ b ∈ l, b ≠ 0 := fun b hb => hz b (by simp [hb])
      have hzr : ∀ b ∈ rest', b ≠ 0 := fun b hb => hz b (by simp [hb])
      have hmem : done ++ (l ++ 10 :: rest' ++ 0 :: post) =
          done ++ l ++ 10 :: (rest' ++ 0 :: post) := by simp
      have hs : strchr (done ++ (l ++ 10 :: rest' ++ 0 :: post)) done.length 10 =
          some (done ++ l).length := by
        unfold strchr
        rw [List.drop_left]
        have : l ++ 10 :: rest' ++ 0 :: post = l ++ 10 :: (rest' ++ 0 :: post) := by simp
        rw [this, strchr_off_found 10 l _ hl hzl]
        simp
      have hassert : (done ++ l).length - buf_start ≤ size := by
        simp only [List.length_append, List.length_cons] at hlen ⊢
        omega
      obtain ⟨done', hdl, hdne, hstep, hrec⟩ :=
        parse_lines_iteration done l (rest' ++ 0 :: post) hd hzl
      have hlen' : done'.length + rest'.length = buf_start + size := by
        simp only [List.length_append, List.length_cons] at hlen
        omega
      obtain ⟨mem', line', lines', hloop, hfin⟩ := ih done' rest' post
        (acc ++ [strip_cr l]) hdne hzr
        (by simp only [List.length_append, List.length_cons] at hfuel; omega) hlen' (by omega)
      refine ⟨mem', line', lines', ?_, ?_⟩
      · unfold parse_lines_loop
        rw [hs]
        simp only [not_not.mpr hassert, if_false]
        rw [hmem, hstep, hrec]
        have : (done ++ l).length + 1 = done'.length := by
          rw [hdl, List.length_append]
        rw [this]
        exact hloop
      · rw [hfin]
        unfold spec_records
        rw [spec_records_aux_nl [] l rest' hl]
        simp

/-- C5. For every block of `size` bytes without a zero byte that is followed
by the zero sentinel (and preceded by at least one byte of memory),
`parse_lines` hands the parser exactly the records of the block: one record
per `\n`-terminated line, in order, each without its `\n` and without a `\r`
right before that `\n`, and the bytes behind the last `\n`, if any, as one
final record. -/
theorem parse_lines_records {α R : Type} (parse : List (List Nat) → data_frame α → R)
    (before block after : List Nat) (df : data_frame α) (hb : before ≠ [])
    (hz : ∀ b ∈ block, b ≠ 0) :
    parse_lines parse (before ++ (block ++ 0 :: after)) before.length block.length df =
      .ok (parse (spec_records block) df) := by
  obtain ⟨mem', line', lines', hloop, hfin⟩ := parse_lines_loop_spec before.length block.length
    (before ++ (block ++ 0 :: after)).length before block after [] hb hz
    (by simp only [List.length_append, List.length_cons]; omega) rfl (le_refl _)
  unfold parse_lines parse_lines_split
  rw [hloop]
  simp only [List.nil_append] at hfin
  by_cases h : line' - before.length < block.length
  · rw [if_pos h] at hfin
    simp only [if_pos h, hfin]
  · rw [if_neg h] at hfin
    simp only [if_neg h, hfin]

/-! ## read_lines for a single file -/

theorem sum_map_eraseIdx {β : Type} (g : β → Nat) (l : List β) (k : Nat) (b : β)
    (h : l[k]? = some b) : (l.map g).sum = g b + ((l.eraseIdx k).map g).sum := by
  induction l generalizing k with
  | nil => simp at h
  | cons x l ih =>
    cases k with
    | zero =>
      simp only [List.getElem?_cons_zero, Option.some.injEq] at h
      subst h
      simp
    | succ k =>
      simp only [List.getElem?_cons_succ] at h
      simp only [List.map_cons, List.sum_cons, List.eraseIdx_cons_succ]
      rw [ih k h]
      omega

theorem fetch_data_frames_spec {F : Type} (q : data_frame_set F) (tmp : List F)
    (q' : data_frame_set F) (h : q.fetch_data_frames = some (tmp, q')) :
    q.dfs ≠ [] ∧ tmp = q.dfs ∧ q'.dfs = [] ∧ q'.num_dfs = 0 := by
  unfold data_frame_set.fetch_data_frames at h
  split_ifs at h with he
  simp only [Option.some.injEq, Prod.mk.injEq] at h
  obtain ⟨rfl, rfl⟩ := h
  refine ⟨?_, rfl, rfl, rfl⟩
  intro h0
  simp [h0] at he

theorem add_spec {F : Type} (q : data_frame_set F) (f : F) (q' : data_frame_set F)
    (h : q.add f = some q') :
    q.dfs.length < q.max_queue_size ∧ q'.dfs = q.dfs ++ [f] ∧ q'.num_dfs = q.num_dfs + 1 ∧
      q'.max_queue_size = q.max_queue_size := by
  unfold data_frame_set.add at h
  split_ifs at h with hfull
  simp only [Option.some.injEq] at h
  subst h
  exact ⟨by omega, rfl, rfl, rfl⟩

/-- A step of the run keeps `driver_inv`. -/
theorem driver_step_inv {σ F : Type} (ops : file_io σ)
    (task_frame : List Nat → Nat → Except fault F) (append : F → List F → F) (len : F → Nat)
    (hlen : ∀ df fs, len (append df fs) = len df + (fs.map len).sum) (MAX_PENDING n0 : Nat)
    (s s' : driver_state σ F) (ev : driver_event)
    (hinv : driver_inv ops task_frame len n0 s)
    (hstep : driver_step ops task_frame append MAX_PENDING s ev = some s') :
    driver_inv ops task_frame len n0 s' := by
  obtain ⟨ha, hb, hc, hd, he⟩ := hinv
  cases ev with
  | worker k =>
    unfold driver_step at hstep
    simp only at hstep
    split at hstep
    · cases hstep
    · rename_i hpc
      split at hstep
      · cases hstep
      · rename_i lines size hk
        split at hstep
        · rename_i e _
          simp only [Option.some.injEq] at hstep
          subst hstep
          refine ⟨ha, hb, ?_, ?_, ?_⟩ <;> simp
        · rename_i f hf
          split at hstep
          · cases hstep
          · rename_i q hq
            simp only [Option.some.injEq] at hstep
            subst hstep
            obtain ⟨_, hq1, hq2, _⟩ := add_spec _ _ _ hq
            have hsum := sum_map_eraseIdx (block_rows task_frame len) s.pending k _ hk
            have hrows : block_rows task_frame len (lines, size) = len f := by
              unfold block_rows; simp only [hf]
            have hne : s.pending ≠ [] := by
              intro h0; rw [h0] at hk; simp at hk
            refine ⟨?_, ?_, ?_, ?_, ?_⟩
            · simp only [hq1, hq2, ha, List.length_append, List.length_singleton]
            · simp only [hq1, List.map_append, List.sum_append, List.map_cons, List.map_nil,
                List.sum_cons, List.sum_nil]
              rw [hsum, hrows] at hb
              omega
            · intro hpc2
              exact absurd (hc hpc2) hne
            · intro hpc2
              exact absurd (hc (Or.inr hpc2)) hne
            · exact he
  | main =>
    unfold driver_step at hstep
    simp only at hstep
    split at hstep
    · -- outer
      rename_i hpc
      split_ifs at hstep with heof
      · simp only [Option.some.injEq] at hstep
        subst hstep
        exact ⟨ha, hb, by simp, by simp, fun _ => heof⟩
      · simp only [Option.some.injEq] at hstep
        subst hstep
        exact ⟨ha, hb, by simp, by simp, by simp⟩
    · -- for_loop
      rename_i hpc
      split_ifs at hstep with hcond
      · split at hstep
        · simp only [Option.some.injEq] at hstep
          subst hstep
          exact ⟨ha, hb, by simp, by simp, by simp⟩
        · rename_i lines size io hr
          simp only [Option.some.injEq] at hstep
          subst hstep
          refine ⟨ha, ?_, by simp [hpc], by simp [hpc], by simp [hpc]⟩
          simp only [List.map_append, List.sum_append, List.map_cons, List.map_nil,
            List.sum_cons, List.sum_nil]
          omega
      · simp only [Option.some.injEq] at hstep
        subst hstep
        exact ⟨ha, hb, by simp, by simp, by simp⟩
    · -- check
      rename_i hpc
      split_ifs at hstep
      · simp only [Option.some.injEq] at hstep
        subst hstep
        exact ⟨ha, hb, by simp, by simp, by simp⟩
      · simp only [Option.some.injEq] at hstep
        subst hstep
        exact ⟨ha, hb, by simp, by simp, by simp⟩
    · -- fetch
      rename_i hpc
      split at hstep
      · cases hstep
      · rename_i tmp q hq
        simp only [Option.some.injEq] at hstep
        subst hstep
        obtain ⟨hne, rfl, hq1, hq2⟩ := fetch_data_frames_spec _ _ _ hq
        have hnotempty : s.dfs.dfs.isEmpty = false := by
          cases hdfs : s.dfs.dfs with
          | nil => exact absurd hdfs hne
          | cons x l => rfl
        refine ⟨by simp [hq1, hq2], ?_, by simp, by simp, by simp⟩
        simp only [hnotempty, hq1, List.map_nil, List.sum_nil, Bool.false_eq_true, if_false,
          hlen]
        omega
    · -- wait
      rename_i hpc
      split_ifs at hstep with hp
      simp only [Option.some.injEq] at hstep
      subst hstep
      have hp0 : s.pending = [] := by simpa using hp
      exact ⟨ha, hb, fun _ => hp0, by simp, fun _ => he (Or.inl hpc)⟩
    · -- final_fetch
      rename_i hpc
      split at hstep
      · cases hstep
      · rename_i tmp q hq
        simp only [Option.some.injEq] at hstep
        subst hstep
        obtain ⟨hne, rfl, hq1, hq2⟩ := fetch_data_frames_spec _ _ _ hq
        have hnotempty : s.dfs.dfs.isEmpty = false := by
          cases hdfs : s.dfs.dfs with
          | nil => exact absurd hdfs hne
          | cons x l => rfl
        refine ⟨by simp [hq1, hq2], ?_, fun _ => hc (Or.inl hpc), fun _ => hq1,
          fun _ => he (Or.inr (Or.inl hpc))⟩
        simp only [hnotempty, hq1, List.map_nil, List.sum_nil, Bool.false_eq_true, if_false,
          hlen]
        omega
    · cases hstep
    · cases hstep

theorem driver_init_inv {σ F : Type} (ops : file_io σ)
    (task_frame : List Nat → Nat → Except fault F) (len : F → Nat) (io : σ) (df : F)
    (MAX_PENDING : Nat) :
    driver_inv ops task_frame len (len df) (driver_init io df MAX_PENDING) := by
  refine ⟨rfl, ?_, ?_, ?_, ?_⟩ <;> simp [driver_init, data_frame_set.create]

theorem driver_run_inv {σ F : Type} (ops : file_io σ)
    (task_frame : List Nat → Nat → Except fault F) (append : F → List F → F) (len : F → Nat)
    (hlen : ∀ df fs, len (append df fs) = len df + (fs.map len).sum) (MAX_PENDING n0 : Nat)
    (events : List driver_event) :
    ∀ (s s' : driver_state σ F), driver_inv ops task_frame len n0 s →
      driver_run ops task_frame append MAX_PENDING s events = some s' →
      driver_inv ops task_frame len n0 s' := by
  induction events with
  | nil =>
    intro s s' hinv hrun
    simp only [driver_run, Option.some.injEq] at hrun
    subst hrun
    exact hinv
  | cons ev evs ih =>
    intro s s' hinv hrun
    unfold driver_run at hrun
    split at hrun
    · cases hrun
    · rename_i s1 hs1
      exact ih s1 s' (driver_step_inv ops task_frame append len hlen MAX_PENDING n0 s s1 ev
        hinv hs1) hrun

/-- Row conservation as an invariant. In every state `s` that a run of
`read_lines` for a single file reaches: the counter of the queue is the number of queued frames; a call of
`fetch_data_frames` that returns gives back exactly the queued frames (those
added since the previous fetch) and leaves the queue empty with count 0; the
rows of the result frame, of the queued frames and of the blocks of the
unfinished tasks together are the rows there were at the start and the rows
accepted on the blocks read so far, so that no frame is lost and none is
appended twice; and when the call has returned, the source is at its end and
the length of the returned frame is the sum, over all blocks read, of the rows
accepted on that block. Here `append` is `data_frame::append`, which adds the
lengths of the frames. -/
theorem read_lines_row_conservation {σ F : Type} (ops : file_io σ)
    (task_frame : List Nat → Nat → Except fault F) (append : F → List F → F) (len : F → Nat)
    (hlen : ∀ df fs, len (append df fs) = len df + (fs.map len).sum) (MAX_PENDING : Nat)
    (io : σ) (df : F) (events : List driver_event) (s : driver_state σ F)
    (hrun : driver_run ops task_frame append MAX_PENDING (driver_init io df MAX_PENDING) events =
      some s) :
    s.dfs.get_num_dfs = s.dfs.dfs.length ∧
    (∀ tmp q, s.dfs.fetch_data_frames = some (tmp, q) →
      tmp = s.dfs.dfs ∧ q.dfs = [] ∧ q.get_num_dfs = 0) ∧
    len s.df + (s.dfs.dfs.map len).sum + (s.pending.map (block_rows task_frame len)).sum =
      len df + (s.blocks_read.map (block_rows task_frame len)).sum ∧
    (s.pc = .done → ops.eof s.io = true ∧ s.pending = [] ∧ s.dfs.dfs = [] ∧
      len s.df = len df + (s.blocks_read.map (block_rows task_frame len)).sum) := by
  obtain ⟨ha, hb, hc, hd, he⟩ := driver_run_inv ops task_frame append len hlen MAX_PENDING
    (len df) events _ s (driver_init_inv ops task_frame len io df MAX_PENDING) hrun
  refine ⟨ha, ?_, hb, ?_⟩
  · intro tmp q hq
    obtain ⟨_, h1, h2, h3⟩ := fetch_data_frames_spec _ _ _ hq
    exact ⟨h1, h2, h3⟩
  · intro hpc
    have hp := hc (Or.inr hpc)
    have hq := hd hpc
    refine ⟨he (Or.inr (Or.inr hpc)), hp, hq, ?_⟩
    rw [hp, hq] at hb
    simpa using hb

/-! ### A source that is at its end from the start -/

theorem driver_step_idle {σ F : Type} (ops : file_io σ)
    (task_frame : List Nat → Nat → Except fault F) (append : F → List F → F)
    (MAX_PENDING : Nat) (s s' : driver_state σ F) (ev : driver_event)
    (hidle : driver_idle ops s)
    (hstep : driver_step ops task_frame append MAX_PENDING s ev = some s') :
    driver_idle ops s' := by
  obtain ⟨hp, hq, heof, hpc⟩ := hidle
  cases ev with
  | worker k =>
    unfold driver_step at hstep
    simp only [hp, List.getElem?_nil] at hstep
    split at hstep <;> cases hstep
  | main =>
    unfold driver_step at hstep
    rcases hpc with hpc | hpc | hpc
    · simp only [hpc, heof, if_true, Option.some.injEq] at hstep
      subst hstep
      exact ⟨hp, hq, heof, Or.inr (Or.inl rfl)⟩
    · simp only [hpc, hp, List.isEmpty_nil, if_true, Option.some.injEq] at hstep
      subst hstep
      exact ⟨rfl, hq, heof, Or.inr (Or.inr rfl)⟩
    · simp only [hpc, data_frame_set.fetch_data_frames, hq, List.isEmpty_nil, if_true] at hstep
      cases hstep

theorem driver_run_idle {σ F : Type} (ops : file_io σ)
    (task_frame : List Nat → Nat → Except fault F) (append : F → List F → F)
    (MAX_PENDING : Nat) (events : List driver_event) :
    ∀ (s s' : driver_state σ F), driver_idle ops s →
      driver_run ops task_frame append MAX_PENDING s events = some s' → driver_idle ops s' := by
  induction events with
  | nil =>
    intro s s' hidle hrun
    simp only [driver_run, Option.some.injEq] at hrun
    subst hrun
    exact hidle
  | cons ev evs ih =>
    intro s s' hidle hrun
    unfold driver_run at hrun
    split at hrun
    · cases hrun
    · rename_i s1 hs1
      exact ih s1 s' (driver_step_idle ops task_frame append MAX_PENDING s s1 ev hidle hs1) hrun

/-- C8, the failing input: `read_lines` on the existing file `empty.txt` of
size 0 with the edge parser enters its run (the file can be opened), no
sequence of steps of the run ends with the call returned, and after the two
steps of the driver thread that skip the loop and pass `wait4complete` the
thread is in the `fetch_data_frames` call behind the loop, with no task and an
empty queue, where neither it nor any worker can take a step. -/
theorem read_lines_empty_file_blocks (page_size MAX_PENDING : Nat) :
    ∃ s0, read_lines_enter fs_empty_file "empty.txt" edge_frame MAX_PENDING = some s0 ∧
      (∀ events, ¬ ∃ s, driver_run (text_file_io.ops page_size) (edge_task_frame vertex_decl32)
        data_frame_append MAX_PENDING s0 events = some s ∧ s.pc = .done) ∧
      ∃ s2, driver_run (text_file_io.ops page_size) (edge_task_frame vertex_decl32)
          data_frame_append MAX_PENDING s0 [.main, .main] = some s2 ∧
        s2.pc = .final_fetch ∧ s2.pending = [] ∧ s2.dfs.dfs = [] ∧
        ∀ ev, driver_step (text_file_io.ops page_size) (edge_task_frame vertex_decl32)
          data_frame_append MAX_PENDING s2 ev = none := by
  have hidle0 : driver_idle (text_file_io.ops page_size)
      (driver_init (⟨[], 0⟩ : text_file_io) edge_frame MAX_PENDING) :=
    ⟨rfl, rfl, rfl, Or.inl rfl⟩
  refine ⟨driver_init ⟨[], 0⟩ edge_frame MAX_PENDING, rfl, ?_, ?_⟩
  · rintro events ⟨s, hrun, hpc⟩
    obtain ⟨_, _, _, h⟩ := driver_run_idle _ _ _ _ events _ s hidle0 hrun
    rw [hpc] at h
    rcases h with h | h | h <;> cases h
  · refine ⟨{ (driver_init (⟨[], 0⟩ : text_file_io) edge_frame MAX_PENDING) with
      pc := .final_fetch }, rfl, rfl, rfl, rfl, ?_⟩
    intro ev
    cases ev with
    | main => rfl
    | worker k => rfl

/-- Row conservation on the file `1 2`, `3 4` (one block, two rows), with
frames counted by their rows, in a run in which the parse task finishes only in
`wait4complete`: the run of `one_block_run` ends with the call returned and two
rows in the result. -/
theorem read_lines_row_conservation_witness :
    (∀ (df : Nat) (fs : List Nat), df + fs.sum = df + (fs.map id).sum) ∧
    ∃ s, driver_run (text_file_io.ops 4096) (edge_task_rows vertex_decl32)
        (fun df fs => df + fs.sum) 3 (driver_init ⟨str "1 2\n3 4\n", 0⟩ 0 3) one_block_run =
          some s ∧
      s.pc = .done ∧ s.df = 2 ∧ s.blocks_read = [(str "1 2\n3 4\n", 8)] ∧
      s.dfs.get_num_dfs = s.dfs.dfs.length ∧
      (∀ tmp q, s.dfs.fetch_data_frames = some (tmp, q) →
        tmp = s.dfs.dfs ∧ q.dfs = [] ∧ q.get_num_dfs = 0) ∧
      id s.df + (s.dfs.dfs.map id).sum +
          (s.pending.map (block_rows (edge_task_rows vertex_decl32) id)).sum =
        id 0 + (s.blocks_read.map (block_rows (edge_task_rows vertex_decl32) id)).sum ∧
      (s.pc = .done → (text_file_io.ops 4096).eof s.io = true ∧ s.pending = [] ∧
        s.dfs.dfs = [] ∧
        id s.df = id 0 + (s.blocks_read.map (block_rows (edge_task_rows vertex_decl32) id)).sum) :=
  ⟨fun df fs => by simp,
    ⟨.done, ⟨str "1 2\n3 4\n", 8⟩, 2, 3, 1, [], ⟨[], 0, 3⟩, [(str "1 2\n3 4\n", 8)]⟩, rfl, rfl, rfl,
    rfl,
    read_lines_row_conservation (text_file_io.ops 4096) (edge_task_rows vertex_decl32)
      (fun df fs => df + fs.sum) id (fun df fs => by simp) 3 ⟨str "1 2\n3 4\n", 0⟩ 0
      one_block_run _ rfl⟩

/-- C5, an instance: the block `a\r\nb\n\nc` behind one byte of memory. -/
theorem parse_lines_records_witness :
    ([7] : List Nat) ≠ [] ∧ (∀ b ∈ str "a\r\nb\n\nc", b ≠ 0) ∧
    spec_records (str "a\r\nb\n\nc") = [str "a", str "b", [], str "c"] ∧
    parse_lines (fun lines (_ : data_frame Int) => lines)
        ([7] ++ (str "a\r\nb\n\nc" ++ 0 :: [1, 10])) ([7] : List Nat).length
        (str "a\r\nb\n\nc").length [] =
      .ok (spec_records (str "a\r\nb\n\nc")) :=
  ⟨by decide, by decide, by decide,
    parse_lines_records (fun lines (_ : data_frame Int) => lines) [7] (str "a\r\nb\n\nc") [1, 10]
      [] (by decide) (by decide)⟩

/-! ## The frame and the tasks of read_lines for several files -/

/-- C6, the failing input: for the two files `a.txt`, `b.txt` and the
attributed edge parser, which declares three columns, the frame in which
`read_lines` collects its result has the two columns `source` and `dest` only;
for the single file `a.txt` it has the three columns of the parser. -/
theorem read_lines_files_frame_attr :
    attr_edge_parser_decl.get_num_cols = 3 ∧
    (read_lines_result_frame (α := Int) ["a.txt", "b.txt"] attr_edge_parser_decl).map schema =
      some [("source", .vertex_id_t), ("dest", .vertex_id_t)] ∧
    (read_lines_result_frame (α := Int) ["a.txt"] attr_edge_parser_decl).map schema =
      some [("source", .vertex_id_t), ("dest", .vertex_id_t), ("attr", .attr_t)] ∧
    parser_schema attr_edge_parser_decl =
      [(some "source", some .vertex_id_t), (some "dest", some .vertex_id_t),
        (some "attr", some .attr_t)] := by
  decide

/-- C7, the failing input: of the two files `a.txt`, `b.txt` only `b.txt` can
be opened. For the single file `a.txt`, `read_lines` returns the null frame.
For the two files, the loop hands the thread pool a `file_parse_task` whose
`io` is the null pointer, and the first thing this task does, the call
`io->eof()`, dereferences it. -/
theorem read_lines_files_null_source :
    read_lines_enter fs_only_b "a.txt" edge_frame 3 = none ∧
    read_lines_files_tasks fs_only_b ["a.txt", "b.txt"] = [none, some ⟨str "3 4\n", 0⟩] ∧
    file_parse_task_first_eof none = .error .null_deref := by
  refine ⟨rfl, by decide, rfl⟩

/-! ## text_file_io::read_lines on a file without a final newline -/

theorem scan_back_spec (addr : List Nat) (i nl : Nat) (h : scan_back addr i = some nl) :
    nl ≤ i ∧ addr[nl]? = some 10 := by
  induction i with
  | zero =>
    unfold scan_back at h
    split_ifs at h with h0
    simp only [Option.some.injEq] at h
    subst h
    exact ⟨le_refl _, h0⟩
  | succ i ih =>
    unfold scan_back at h
    split_ifs at h with h0
    · simp only [Option.some.injEq] at h
      subst h
      exact ⟨le_refl _, h0⟩
    · obtain ⟨h1, h2⟩ := ih h
      exact ⟨by omega, h2⟩

theorem ROUND_PAGE_le (page_size off : Nat) : ROUND_PAGE page_size off ≤ off := by
  unfold ROUND_PAGE; omega

/-- What a call of `text_file_io::read_lines` that returns has done: the file
is unchanged, `curr_off` has advanced by `read_bytes` and is not behind the end
of the file, and when `read_bytes` is not 0 the byte of the file before the new
`curr_off` is a `\n`. -/
theorem text_read_lines_spec (page_size : Nat) (io io' : text_file_io) (wanted_bytes : Nat)
    (block : List Nat) (n : Nat)
    (h : text_file_io.read_lines page_size io wanted_bytes = .ok (block, n, io')) :
    io'.file = io.file ∧ io'.curr_off = io.curr_off + n ∧ io'.curr_off ≤ io.file.length ∧
      (1 ≤ n → io.file[io'.curr_off - 1]? = some 10) := by
  unfold text_file_io.read_lines at h
  simp only at h
  split_ifs at h with h1 h2 h3
  all_goals
    split at h
    · cases h
    · rename_i nl hscan
      split_ifs at h with h4
      simp only [Except.ok.injEq, Prod.mk.injEq] at h
      obtain ⟨_, hn, hio⟩ := h
      subst hio
      obtain ⟨_, hnl⟩ := scan_back_spec _ _ _ hscan
      have hal := ROUND_PAGE_le page_size io.curr_off
      refine ⟨rfl, by simp only [hn], by simp only; omega, ?_⟩
      intro hn1
      simp only
      rw [List.getElem?_take] at hnl
      split_ifs at hnl with hlt
      rw [List.getElem?_drop] at hnl
      have e : io.curr_off + (nl + 1 - (io.curr_off - ROUND_PAGE page_size io.curr_off)) - 1 =
          ROUND_PAGE page_size io.curr_off + nl := by omega
      rw [e]
      exact hnl

/-- C10, in general: on a file that does not end with `\n`, a call of
`text_file_io::read_lines` that returns while unread bytes are left leaves
unread bytes: its block does not extend to the last byte of the file, and
`eof()` stays false. So the line behind the last `\n` is never returned. -/
theorem text_read_lines_unterminated (page_size : Nat) (io io' : text_file_io)
    (wanted_bytes : Nat) (block : List Nat) (n : Nat) (hlast : io.file.getLast? ≠ some 10)
    (hoff : io.curr_off < io.file.length)
    (h : text_file_io.read_lines page_size io wanted_bytes = .ok (block, n, io')) :
    io'.file = io.file ∧ io'.curr_off = io.curr_off + n ∧ io'.curr_off < io'.file.length ∧
      io'.eof = false := by
  obtain ⟨hf, hc, hle, hnl⟩ := text_read_lines_spec page_size io io' wanted_bytes block n h
  have hlt : io'.curr_off < io.file.length := by
    by_cases hn : n = 0
    · omega
    · rcases Nat.lt_or_ge io'.curr_off io.file.length with hlt | hge
      · exact hlt
      · exfalso
        have heq : io'.curr_off = io.file.length := by omega
        have h10 := hnl (by omega)
        rw [heq] at h10
        apply hlast
        rw [List.getLast?_eq_getElem?]
        exact h10
  refine ⟨hf, hc, by rw [hf]; exact hlt, ?_⟩
  unfold text_file_io.eof
  rw [hf]
  simp only [decide_eq_false_iff_not]
  omega

/-- C10, the failing input: the file `a\nb` (3 bytes, no `\n` at its end). The
first call returns the block `a\n`, which does not reach the last byte of the
file; the next call returns an empty block (`read_bytes = 0`) and leaves
`curr_off` at 2, and so does every call after it; `eof()` stays false. -/
theorem text_read_lines_unterminated_witness :
    (str "a\nb").getLast? ≠ some 10 ∧
    text_file_io.read_lines 4096 ⟨str "a\nb", 0⟩ LINE_BLOCK_SIZE =
      .ok (str "a\n", 2, ⟨str "a\nb", 2⟩) ∧
    text_file_io.read_lines 4096 ⟨str "a\nb", 2⟩ LINE_BLOCK_SIZE =
      .ok ([], 0, ⟨str "a\nb", 2⟩) ∧
    ((⟨str "a\nb", 2⟩ : text_file_io).file = str "a\nb" ∧
      (⟨str "a\nb", 2⟩ : text_file_io).curr_off = 0 + 2 ∧
      (⟨str "a\nb", 2⟩ : text_file_io).curr_off < (⟨str "a\nb", 2⟩ : text_file_io).file.length ∧
      (⟨str "a\nb", 2⟩ : text_file_io).eof = false) :=
  ⟨by decide, by decide, by decide,
    text_read_lines_unterminated 4096 ⟨str "a\nb", 0⟩ ⟨str "a\nb", 2⟩ LINE_BLOCK_SIZE (str "a\n") 2
      (by decide) (by decide) (by decide)⟩

/-! ## scalar_type_impl::set_raw -/

/-- C20. For every primitive type `T` and every `(v, size)` with `size` an
`int`, `set_raw(v, size)` returns true if and only if `size == sizeof(T)`,
which is `get_size()`; when it returns true the bytes of `get_raw()` are the
first `sizeof(T)` bytes of `v`, and when it returns false the object is
unchanged. -/
theorem set_raw_spec (T : prim_type) (s : scalar_type_impl T) (v : List Nat) (size : Int)
    (hlo : -(2 ^ 31) ≤ size) (hhi : size < 2 ^ 31) :
    ((s.set_raw v size).1 = true ↔ (size = T.sizeof ∧ (T.sizeof : Int) = s.get_size)) ∧
    ((s.set_raw v size).1 = true → (s.set_raw v size).2.get_raw = v.take T.sizeof) ∧
    ((s.set_raw v size).1 = false → (s.set_raw v size).2 = s) := by
  have hsz : (T.sizeof : Int) ≤ 8 ∧ (1 : Int) ≤ T.sizeof := by
    cases T <;> simp [prim_type.sizeof]
  have h31 : (2 : Int) ^ 31 = 2147483648 := by norm_num
  have h64 : (2 : Int) ^ 64 = 18446744073709551616 := by norm_num
  rw [h31] at hlo hhi
  have hiff : (T.sizeof : Int) = size % 2 ^ 64 ↔ size = T.sizeof := by
    rw [h64]
    omega
  unfold scalar_type_impl.set_raw scalar_type_impl.get_size scalar_type_impl.get_raw
  by_cases h : (T.sizeof : Int) = size % 2 ^ 64
  · have hs := hiff.mp h
    rw [if_neg (not_not.mpr h)]
    refine ⟨⟨fun _ => ⟨hs, rfl⟩, fun _ => rfl⟩, fun _ => ?_, fun hf => by simp at hf⟩
    rw [hs]
    simp
  · have hs : ¬ size = T.sizeof := fun e => h (hiff.mpr e)
    rw [if_pos h]
    refine ⟨⟨fun hf => by simp at hf, fun hf => absurd hf.1 hs⟩, fun hf => by simp at hf,
      fun _ => rfl⟩

/-- C20, an instance: an `int` scalar, five bytes at `v` and `size = 4`. -/
theorem set_raw_spec_witness :
    -(2 ^ 31) ≤ (4 : Int) ∧ (4 : Int) < 2 ^ 31 ∧
    ((⟨[0, 0, 0, 0]⟩ : scalar_type_impl .P_INTEGER).set_raw [1, 2, 3, 4, 5] 4 =
      (true, ⟨[1, 2, 3, 4]⟩)) ∧
    ((⟨[0, 0, 0, 0]⟩ : scalar_type_impl .P_INTEGER).set_raw [1, 2, 3, 4, 5] 8 =
      (false, ⟨[0, 0, 0, 0]⟩)) ∧
    ((((⟨[0, 0, 0, 0]⟩ : scalar_type_impl .P_INTEGER).set_raw [1, 2, 3, 4, 5] 4).1 = true ↔
        ((4 : Int) = prim_type.P_INTEGER.sizeof ∧ (prim_type.P_INTEGER.sizeof : Int) =
          (⟨[0, 0, 0, 0]⟩ : scalar_type_impl .P_INTEGER).get_size)) ∧
      (((⟨[0, 0, 0, 0]⟩ : scalar_type_impl .P_INTEGER).set_raw [1, 2, 3, 4, 5] 4).1 = true →
        ((⟨[0, 0, 0, 0]⟩ : scalar_type_impl .P_INTEGER).set_raw [1, 2, 3, 4, 5] 4).2.get_raw =
          [1, 2, 3, 4, 5].take prim_type.P_INTEGER.sizeof) ∧
      (((⟨[0, 0, 0, 0]⟩ : scalar_type_impl .P_INTEGER).set_raw [1, 2, 3, 4, 5] 4).1 = false →
        ((⟨[0, 0, 0, 0]⟩ : scalar_type_impl .P_INTEGER).set_raw [1, 2, 3, 4, 5] 4).2 =
          ⟨[0, 0, 0, 0]⟩)) :=
  ⟨by decide, by decide, by decide, by decide,
    set_raw_spec .P_INTEGER ⟨[0, 0, 0, 0]⟩ [1, 2, 3, 4, 5] 4 (by decide) (by decide)⟩

/-! ## The bound and the drain of a data_frame_set -/

theorem data_frame_set_step_bound {F : Type} (q q' : data_frame_set F) (op : dfs_op F)
    (hstep : q.step op = some q')
    (hinv : q.dfs.length ≤ q.max_queue_size ∧ q.num_dfs = q.dfs.length) :
    q'.max_queue_size = q.max_queue_size ∧ q'.dfs.length ≤ q'.max_queue_size ∧
      q'.num_dfs = q'.dfs.length := by
  cases op with
  | add df =>
    obtain ⟨h1, h2, h3, h4⟩ := add_spec q df q' hstep
    refine ⟨h4, ?_, ?_⟩
    · rw [h2, h4, List.length_append, List.length_singleton]; omega
    · rw [h3, h2, List.length_append, List.length_singleton, hinv.2]
  | fetch =>
    unfold data_frame_set.step at hstep
    cases hf : q.fetch_data_frames with
    | none => rw [hf] at hstep; cases hstep
    | some r =>
      rw [hf] at hstep
      simp only [Option.map_some', Option.some.injEq] at hstep
      obtain ⟨tmp, q2⟩ := r
      obtain ⟨_, _, h3, h4⟩ := fetch_data_frames_spec q tmp q2 hf
      subst hstep
      have hmax : q2.max_queue_size = q.max_queue_size := by
        unfold data_frame_set.fetch_data_frames at hf
        split_ifs at hf
        simp only [Option.some.injEq, Prod.mk.injEq] at hf
        rw [← hf.2]
      refine ⟨hmax, ?_, ?_⟩
      · rw [h3]; simp
      · rw [h3, h4]; rfl

/-- C16. In every state that a sequence of completed `add` and
`fetch_data_frames` calls reaches from the empty `data_frame_set` of capacity
`cap` (1 or more, or even 0), the number of queued frames does not exceed `cap` (and is the
counter `num_dfs`), and an `add` completes in that state only when fewer than
`cap` frames are queued. -/
theorem data_frame_set_bound {F : Type} (cap : Nat) (ops : List (dfs_op F))
    (q : data_frame_set F) (hrun : (data_frame_set.create cap).run ops = some q) :
    q.dfs.length ≤ cap ∧ q.get_num_dfs = q.dfs.length ∧
      ∀ df q', q.add df = some q' → q.dfs.length < cap ∧ q'.dfs.length ≤ cap := by
  have key : ∀ (ops : List (dfs_op F)) (q0 q : data_frame_set F),
      q0.dfs.length ≤ q0.max_queue_size ∧ q0.num_dfs = q0.dfs.length →
      q0.run ops = some q →
      q.max_queue_size = q0.max_queue_size ∧ q.dfs.length ≤ q.max_queue_size ∧
        q.num_dfs = q.dfs.length := by
    intro ops
    induction ops with
    | nil =>
      intro q0 q hinv hrun
      simp only [data_frame_set.run, Option.some.injEq] at hrun
      subst hrun
      exact ⟨rfl, hinv.1, hinv.2⟩
    | cons op ops ih =>
      intro q0 q hinv hrun
      unfold data_frame_set.run at hrun
      split at hrun
      · cases hrun
      · rename_i q1 hq1
        obtain ⟨h1, h2, h3⟩ := data_frame_set_step_bound q0 q1 op hq1 hinv
        obtain ⟨k1, k2, k3⟩ := ih q1 q ⟨h2, h3⟩ hrun
        exact ⟨by rw [k1, h1], k2, k3⟩
  obtain ⟨hmax, hlen, hnum⟩ := key ops (data_frame_set.create cap) q
    ⟨by simp [data_frame_set.create], rfl⟩ hrun
  have hmax' : q.max_queue_size = cap := hmax
  refine ⟨by rw [← hmax']; exact hlen, hnum, ?_⟩
  intro df q' hadd
  obtain ⟨h1, h2, _, _⟩ := add_spec q df q' hadd
  refine ⟨by rw [← hmax']; exact h1, ?_⟩
  rw [h2, List.length_append, List.length_singleton]
  omega

/-- C16, an instance: capacity 2 and the calls add, add, fetch, add. -/
theorem data_frame_set_bound_witness :
    (data_frame_set.create 2).run [dfs_op.add 7, .add 8, .fetch, .add 9] =
      some (⟨[9], 1, 2⟩ : data_frame_set Nat) ∧
    (data_frame_set.create 2).run [dfs_op.add 7, .add 8, .add 9] =
      (none : Option (data_frame_set Nat)) ∧
    ((⟨[9], 1, 2⟩ : data_frame_set Nat).dfs.length ≤ 2 ∧
      (⟨[9], 1, 2⟩ : data_frame_set Nat).get_num_dfs =
        (⟨[9], 1, 2⟩ : data_frame_set Nat).dfs.length ∧
      ∀ df q', (⟨[9], 1, 2⟩ : data_frame_set Nat).add df = some q' →
        (⟨[9], 1, 2⟩ : data_frame_set Nat).dfs.length < 2 ∧ q'.dfs.length ≤ 2) :=
  ⟨rfl, rfl, data_frame_set_bound 2 [dfs_op.add 7, .add 8, .fetch, .add 9] _ rfl⟩

/-- C17 (as amended). A call of `fetch_data_frames` that returns gives back a
list that is not empty and leaves the queue empty with count 0; a second call
right after it, with no `add` in between, does not return the empty list: it
does not return at all, but waits on the empty queue. -/
theorem fetch_twice_waits {F : Type} (q q' : data_frame_set F) (tmp : List F)
    (h : q.fetch_data_frames = some (tmp, q')) :
    tmp ≠ [] ∧ tmp = q.dfs ∧ q'.dfs = [] ∧ q'.get_num_dfs = 0 ∧
      q'.fetch_data_frames = none := by
  obtain ⟨h1, h2, h3, h4⟩ := fetch_data_frames_spec q tmp q' h
  refine ⟨by rw [h2]; exact h1, h2, h3, h4, ?_⟩
  unfold data_frame_set.fetch_data_frames
  rw [h3]
  rfl

/-- C17, an instance: a queue that holds one frame. -/
theorem fetch_twice_waits_witness :
    (⟨[5], 1, 3⟩ : data_frame_set Nat).fetch_data_frames = some ([5], ⟨[], 0, 3⟩) ∧
    (([5] : List Nat) ≠ [] ∧ [5] = (⟨[5], 1, 3⟩ : data_frame_set Nat).dfs ∧
      (⟨[], 0, 3⟩ : data_frame_set Nat).dfs = [] ∧
      (⟨[], 0, 3⟩ : data_frame_set Nat).get_num_dfs = 0 ∧
      (⟨[], 0, 3⟩ : data_frame_set Nat).fetch_data_frames = none) :=
  ⟨rfl, fetch_twice_waits ⟨[5], 1, 3⟩ ⟨[], 0, 3⟩ [5] rfl⟩

/-- C17 as stated fails: after the one queued frame has been fetched, the
second call of `fetch_data_frames` does not return the empty list; it finds the
queue empty and waits. -/
theorem fetch_twice_counterexample :
    (⟨[5], 1, 3⟩ : data_frame_set Nat).fetch_data_frames = some ([5], ⟨[], 0, 3⟩) ∧
    (⟨[], 0, 3⟩ : data_frame_set Nat).fetch_data_frames = none ∧
    ¬ ∃ q'', (⟨[], 0, 3⟩ : data_frame_set Nat).fetch_data_frames = some ([], q'') := by
  refine ⟨rfl, rfl, ?_⟩
  rintro ⟨q'', h⟩
  cases h

/-! ## The blocks of text_file_io::read_lines, one after the other -/

/-- The block of a call of `text_file_io::read_lines` that returns is the
`read_bytes` bytes of the file from `curr_off` on. -/
theorem text_read_lines_block (page_size : Nat) (io io' : text_file_io) (wanted_bytes : Nat)
    (block : List Nat) (n : Nat)
    (h : text_file_io.read_lines page_size io wanted_bytes = .ok (block, n, io')) :
    block = (io.file.drop io.curr_off).take n ∧ block.length = n := by
  obtain ⟨_, hc, hle, _⟩ := text_read_lines_spec page_size io io' wanted_bytes block n h
  have hblock : block = (io.file.drop io.curr_off).take n := by
    unfold text_file_io.read_lines at h
    simp only at h
    split_ifs at h with h1 h2 h3
    all_goals
      split at h
      · cases h
      · rename_i nl hscan
        split_ifs at h with h4
        simp only [Except.ok.injEq, Prod.mk.injEq] at h
        obtain ⟨hb, hn, _⟩ := h
        obtain ⟨_, hnl⟩ := scan_back_spec _ _ _ hscan
        have hal := ROUND_PAGE_le page_size io.curr_off
        rw [List.getElem?_take] at hnl
        split_ifs at hnl with hlt
        rw [← hb, ← hn, List.drop_take, List.take_take, List.drop_drop]
        congr 1
        · omega
        · congr 1
          omega
  refine ⟨hblock, ?_⟩
  rw [hblock, List.length_take, List.length_drop]
  omega

/-- The calls of a sequence, seen from any state in which the byte before
`curr_off` (if there is one) is a `\n`. -/
theorem text_read_calls_spec (page_size : Nat) (wanteds : List Nat) :
    ∀ (io io' : text_file_io) (calls : List (Nat × List Nat × Nat)),
      io.curr_off ≤ io.file.length →
      (0 < io.curr_off → io.file[io.curr_off - 1]? = some 10) →
      text_read_calls page_size io wanteds = .ok (calls, io') →
      io'.file = io.file ∧
      io'.curr_off = io.curr_off + (calls.map (fun c => c.2.2)).sum ∧
      io'.curr_off ≤ io.file.length ∧
      (∀ k (hk : k < calls.length),
        calls[k].1 = io.curr_off + ((calls.take k).map (fun c => c.2.2)).sum ∧
        calls[k].2.1 = (io.file.drop calls[k].1).take calls[k].2.2 ∧
        calls[k].2.1.length = calls[k].2.2 ∧
        (0 < calls[k].1 → io.file[calls[k].1 - 1]? = some 10)) ∧
      (calls.map (fun c => c.2.1)).flatten =
        (io.file.drop io.curr_off).take (io'.curr_off - io.curr_off) := by
  induction wanteds with
  | nil =>
    intro io io' calls hle hprev h
    simp only [text_read_calls, Except.ok.injEq, Prod.mk.injEq] at h
    obtain ⟨rfl, rfl⟩ := h
    refine ⟨rfl, by simp, hle, ?_, by simp⟩
    intro k hk; simp at hk
  | cons w ws ih =>
    intro io io' calls hle hprev h
    unfold text_read_calls at h
    split at h
    · cases h
    · rename_i block n io1 hread
      split at h
      · cases h
      · rename_i calls1 io2 hrest
        simp only [Except.ok.injEq, Prod.mk.injEq] at h
        obtain ⟨rfl, rfl⟩ := h
        obtain ⟨hf1, hc1, hle1, hnl1⟩ := text_read_lines_spec page_size io io1 w block n hread
        obtain ⟨hb, hbl⟩ := text_read_lines_block page_size io io1 w block n hread
        have hprev1 : 0 < io1.curr_off → io1.file[io1.curr_off - 1]? = some 10 := by
          intro hpos
          rw [hf1]
          by_cases hn : n = 0
          · rw [hc1, hn, Nat.add_zero]
            exact hprev (by omega)
          · exact hnl1 (by omega)
        obtain ⟨k1, k2, k3, k4, k5⟩ := ih io1 io2 calls1 (by rw [hf1]; exact hle1) hprev1 hrest
        rw [hf1] at k1 k3 k4 k5
        refine ⟨k1, ?_, k3, ?_, ?_⟩
        · simp only [List.map_cons, List.sum_cons]
          omega
        · intro k hk
          cases k with
          | zero =>
            simp only [List.getElem_cons_zero, List.take_zero, List.map_nil, List.sum_nil,
              Nat.add_zero, true_and]
            exact ⟨hb, hbl, hprev⟩
          | succ k =>
            simp only [List.length_cons, Nat.add_lt_add_iff_right] at hk
            obtain ⟨a1, a2, a3, a4⟩ := k4 k hk
            simp only [List.getElem_cons_succ, List.take_succ_cons, List.map_cons, List.sum_cons]
            exact ⟨by rw [a1, hc1]; omega, a2, a3, a4⟩
        · simp only [List.map_cons, List.flatten_cons]
          rw [k5, hb, hc1]
          have e : io2.curr_off - io.curr_off = n + (io2.curr_off - (io.curr_off + n)) := by
            omega
          rw [e, List.take_add, List.drop_drop]

/-- C12. For every file and every sequence of `text_file_io::read_lines` calls
that starts at offset 0 and in which every call returns: call number `k` starts
at the offset where the calls before it have ended (the sum of their
`read_bytes`), its block is the `read_bytes` bytes of the file from that
offset on, and when the offset is not 0 the byte before the block is `\n`; the
blocks in call order are the file up to the last `curr_off`, and when the
sequence ends with `eof()` true they are the file content. -/
theorem text_read_calls_cover (page_size : Nat) (file : List Nat) (wanteds : List Nat)
    (calls : List (Nat × List Nat × Nat)) (io' : text_file_io)
    (h : text_read_calls page_size ⟨file, 0⟩ wanteds = .ok (calls, io')) :
    io'.curr_off = (calls.map (fun c => c.2.2)).sum ∧
    (∀ k (hk : k < calls.length),
      calls[k].1 = ((calls.take k).map (fun c => c.2.2)).sum ∧
      calls[k].2.1 = (file.drop calls[k].1).take calls[k].2.2 ∧
      calls[k].2.1.length = calls[k].2.2 ∧
      (0 < calls[k].1 → file[calls[k].1 - 1]? = some 10)) ∧
    (calls.map (fun c => c.2.1)).flatten = file.take io'.curr_off ∧
    (io'.eof = true → (calls.map (fun c => c.2.1)).flatten = file) := by
  obtain ⟨k1, k2, k3, k4, k5⟩ := text_read_calls_spec page_size wanteds ⟨file, 0⟩ io' calls
    (Nat.zero_le _) (fun h0 => absurd h0 (lt_irrefl 0)) h
  simp only [Nat.zero_add, List.drop_zero, Nat.sub_zero] at k2 k4 k5
  refine ⟨k2, k4, k5, ?_⟩
  intro heof
  rw [k5]
  unfold text_file_io.eof at heof
  simp only [decide_eq_true_eq] at heof
  rw [k1] at heof
  dsimp only at heof k3
  have : io'.curr_off = file.length := by omega
  rw [this, List.take_length]

/-- C12, an instance: page size 4, the file `a`, `bc`, `def`, `gh` (12 bytes)
and four calls with `wanted_bytes = 4`, which return the four lines. -/
theorem text_read_calls_cover_witness :
    text_read_calls 4 ⟨str "a\nbc\ndef\ngh\n", 0⟩ [4, 4, 4, 4] =
      .ok ([(0, str "a\n", 2), (2, str "bc\n", 3), (5, str "def\n", 4), (9, str "gh\n", 3)],
        ⟨str "a\nbc\ndef\ngh\n", 12⟩) ∧
    (⟨str "a\nbc\ndef\ngh\n", 12⟩ : text_file_io).eof = true ∧
    (([(0, str "a\n", 2), (2, str "bc\n", 3), (5, str "def\n", 4), (9, str "gh\n", 3)].map
        (fun c => c.2.1)).flatten = str "a\nbc\ndef\ngh\n") :=
  ⟨by decide, by decide,
    (text_read_calls_cover 4 (str "a\nbc\ndef\ngh\n") [4, 4, 4, 4]
      [(0, str "a\n", 2), (2, str "bc\n", 3), (5, str "def\n", 4), (9, str "gh\n", 3)]
      ⟨str "a\nbc\ndef\ngh\n", 12⟩ (by decide)).2.2.2 (by decide)⟩

/-! ## bulk_queue -/

theorem tmod_natCast (a sz : Nat) : ((a : Int)).tmod (sz : Int) = ((a % sz : Nat) : Int) := by
  rw [Int.tmod_eq_emod (Int.ofNat_nonneg a) (Int.ofNat_nonneg sz)]
  norm_cast

theorem ring_read_nat {T : Type} (buf : List T) (k : Nat) (x : T) (h : buf[k]? = some x) :
    ring_read buf (k : Int) = .ok x := by
  unfold ring_read
  rw [if_neg (by omega)]
  simp only [Int.toNat_ofNat, h]

theorem ring_write_nat {T : Type} (buf : List T) (k : Nat) (x : T) (h : k < buf.length) :
    ring_write buf (k : Int) x = .ok (buf.set k x) := by
  unfold ring_write
  rw [if_neg (by simp only [Int.toNat_ofNat]; omega)]
  simp only [Int.toNat_ofNat]

/-- Two positions of the ring that are less than `sz` steps apart differ. -/
theorem ring_pos_ne (sz st a b : Nat) (hab : a < b) (hlt : b - a < sz) :
    (st + a) % sz ≠ (st + b) % sz := by
  intro h
  have h1 : (st + b - (st + a)) % sz = 0 :=
    Nat.sub_mod_eq_zero_of_mod_eq h.symm
  have h2 : st + b - (st + a) = b - a := by omega
  rw [h2, Nat.mod_eq_of_lt hlt] at h1
  omega

/-- The loop of `fetch` reads the records of the ring from position `start + i`
on. -/
theorem fetch_loop_spec {T : Type} (buf : List T) (sz st ne : Nat) (hsz : 0 < sz)
    (hbuf : buf.length = sz) (cnt : Nat) :
    ∀ i, ∃ xs, (⟨buf, sz, st, ne⟩ : bulk_queue T).fetch_loop i cnt = .ok xs ∧
      xs.map some = (List.range' i cnt).map (fun j => buf[(st + j) % sz]?) := by
  induction cnt with
  | zero => intro i; exact ⟨[], rfl, rfl⟩
  | succ cnt ih =>
    intro i
    obtain ⟨xs, h1, h2⟩ := ih (i + 1)
    have hpos : (st + i) % sz < buf.length := by rw [hbuf]; exact Nat.mod_lt _ hsz
    have hget : buf[(st + i) % sz]? = some (buf[(st + i) % sz]) :=
      List.getElem?_eq_getElem hpos
    refine ⟨buf[(st + i) % sz] :: xs, ?_, ?_⟩
    · unfold bulk_queue.fetch_loop
      have e : ((st : Int) + (i : Int)).tmod (sz : Int) = (((st + i) % sz : Nat) : Int) := by
        rw [← tmod_natCast]; norm_cast
      simp only [e, ring_read_nat buf _ _ hget, h1]
    · simp only [List.map_cons, List.range'_succ, h2, hget]

/-- The loop of `add` writes `entries[i..i+cnt)` to the positions behind the
`ne` queued records and leaves the positions before them as they are. -/
theorem add_loop_spec {T : Type} (entries : List T) (sz st ne : Nat) (hsz : 0 < sz)
    (cnt : Nat) :
    ∀ (buf : List T) (i : Nat), buf.length = sz → i + cnt ≤ entries.length →
      ne + i + cnt ≤ sz →
      ∃ buf', bulk_queue.add_loop (sz : Int) (((st + ne) % sz : Nat) : Int) entries buf i cnt =
          .ok buf' ∧
        buf'.length = sz ∧
        (∀ j, j < ne + i → buf'[(st + j) % sz]? = buf[(st + j) % sz]?) ∧
        (∀ k, i ≤ k → k < i + cnt → buf'[(st + (ne + k)) % sz]? = entries[k]?) := by
  induction cnt with
  | zero =>
    intro buf i hbuf _ _
    exact ⟨buf, rfl, hbuf, fun _ _ => rfl, fun k h1 h2 => by omega⟩
  | succ cnt ih =>
    intro buf i hbuf hent hroom
    have hi : i < entries.length := by omega
    have hget : entries[i]? = some (entries[i]) := List.getElem?_eq_getElem hi
    have hpos : (st + (ne + i)) % sz < buf.length := by rw [hbuf]; exact Nat.mod_lt _ hsz
    have e : ((((st + ne) % sz : Nat) : Int) + (i : Int)).tmod (sz : Int) =
        (((st + (ne + i)) % sz : Nat) : Int) := by
      have : (((st + ne) % sz : Nat) : Int) + (i : Int) = (((st + ne) % sz + i : Nat) : Int) := by
        norm_cast
      rw [this, tmod_natCast, Nat.mod_add_mod, Nat.add_assoc]
    obtain ⟨buf', h1, h2, h3, h4⟩ := ih (buf.set ((st + (ne + i)) % sz) entries[i]) (i + 1)
      (by rw [List.length_set]; exact hbuf) (by omega) (by omega)
    refine ⟨buf', ?_, h2, ?_, ?_⟩
    · unfold bulk_queue.add_loop
      simp only [hget, e, ring_write_nat buf _ _ hpos, h1]
    · intro j hj
      rw [h3 j (by omega)]
      have hne : (st + (ne + i)) % sz ≠ (st + j) % sz :=
        fun h => ring_pos_ne sz st j (ne + i) (by omega) (by omega) h.symm
      rw [List.getElem?_set_ne hne]
    · intro k hk1 hk2
      rcases Nat.eq_or_lt_of_le hk1 with rfl | hlt
      · rw [h3 (ne + i) (by omega), List.getElem?_set_self hpos, hget]
      · exact h4 k (by omega) (by omega)

theorem range_map_getElem? {T : Type} (entries : List T) (m : Nat) (h : m ≤ entries.length) :
    (List.range m).map (fun k => entries[k]?) = (entries.take m).map some := by
  apply List.ext_getElem?
  intro k
  simp only [List.getElem?_map, List.getElem?_range', List.getElem?_take]
  by_cases hk : k < m
  · rw [List.getElem?_range hk]
    simp only [Option.map_some', hk, if_true]
    have : k < entries.length := by omega
    rw [List.getElem?_eq_getElem this]
    rfl
  · have : (List.range m)[k]? = none := by
      rw [List.getElem?_eq_none_iff, List.length_range]; omega
    rw [this]
    simp [hk]

theorem records_nat {T : Type} (buf : List T) (sz st ne : Nat) :
    (⟨buf, sz, st, ne⟩ : bulk_queue T).records =
      (List.range ne).map (fun j => buf[(st + j) % sz]?) := by
  unfold bulk_queue.records
  simp only [Int.toNat_ofNat]
  apply List.map_congr_left
  intro j _
  have : ((st : Int) + (j : Int)) % (sz : Int) = (((st + j) % sz : Nat) : Int) := by norm_cast
  rw [this, Int.toNat_ofNat]

/-- The function `add` on a queue whose members are natural numbers. -/
theorem bulk_queue_add_core {T : Type} (buf entries : List T) (sz st ne nn : Nat)
    (hsz : 0 < sz) (hbuf : buf.length = sz) (hne : ne ≤ sz) (hent : nn ≤ entries.length) :
    ∃ buf', (⟨buf, sz, st, ne⟩ : bulk_queue T).add entries (nn : Int) =
        .ok (((min nn (sz - ne) : Nat) : Int), ⟨buf', sz, st, ((ne + min nn (sz - ne) : Nat) : Int)⟩) ∧
      buf'.length = sz ∧ (min nn (sz - ne) = 0 → buf' = buf) ∧
      (⟨buf', sz, st, ((ne + min nn (sz - ne) : Nat) : Int)⟩ : bulk_queue T).records =
        (⟨buf, sz, st, ne⟩ : bulk_queue T).records ++
          (entries.take (min nn (sz - ne))).map some := by
  obtain ⟨buf', h1, h2, h3, h4⟩ := add_loop_spec entries sz st ne hsz (min nn (sz - ne)) buf 0
    hbuf (by omega) (by omega)
  have hmin : min (nn : Int) ((sz : Int) - (ne : Int)) = ((min nn (sz - ne) : Nat) : Int) := by
    omega
  have hend : ((st : Int) + (ne : Int)).tmod (sz : Int) = (((st + ne) % sz : Nat) : Int) := by
    rw [← tmod_natCast]; norm_cast
  refine ⟨buf', ?_, h2, ?_, ?_⟩
  · unfold bulk_queue.add
    simp only [hmin, hend, Int.toNat_ofNat]
    rw [if_neg (by omega), h1]
    simp only [Except.ok.injEq, Prod.mk.injEq, true_and, bulk_queue.mk.injEq, and_true]
    norm_cast
  · intro h0
    rw [h0] at h1
    simp only [bulk_queue.add_loop, Except.ok.injEq] at h1
    exact h1.symm
  · rw [records_nat, records_nat, List.range_add, List.map_append, List.map_map]
    congr 1
    · apply List.map_congr_left
      intro j hj
      exact h3 j (by simpa using hj)
    · rw [← range_map_getElem? entries _ (by omega)]
      apply List.map_congr_left
      intro k hk
      simp only [Function.comp_apply]
      exact h4 k (Nat.zero_le _) (by simpa using hk)

/-- The function `fetch` on a queue whose members are natural numbers. -/
theorem bulk_queue_fetch_core {T : Type} (buf : List T) (sz st ne nn : Nat) (hsz : 0 < sz)
    (hbuf : buf.length = sz) :
    ∃ out, (⟨buf, sz, st, ne⟩ : bulk_queue T).fetch (nn : Int) =
        .ok (((min nn ne : Nat) : Int), out,
          ⟨buf, sz, (((st + min nn ne) % sz : Nat) : Int), ((ne - min nn ne : Nat) : Int)⟩) ∧
      out.map some = (⟨buf, sz, st, ne⟩ : bulk_queue T).records.take (min nn ne) ∧
      (⟨buf, sz, (((st + min nn ne) % sz : Nat) : Int), ((ne - min nn ne : Nat) : Int)⟩ :
          bulk_queue T).records =
        (⟨buf, sz, st, ne⟩ : bulk_queue T).records.drop (min nn ne) := by
  obtain ⟨out, h1, h2⟩ := fetch_loop_spec buf sz st ne hsz hbuf (min nn ne) 0
  have hmin : min (nn : Int) (ne : Int) = ((min nn ne : Nat) : Int) := by omega
  have hst : ((st : Int) + ((min nn ne : Nat) : Int)).tmod (sz : Int) =
      (((st + min nn ne) % sz : Nat) : Int) := by
    rw [← tmod_natCast]; norm_cast
  refine ⟨out, ?_, ?_, ?_⟩
  · unfold bulk_queue.fetch
    simp only [hmin, Int.toNat_ofNat]
    rw [if_neg (by omega), h1]
    simp only [hst, Except.ok.injEq, Prod.mk.injEq, true_and, bulk_queue.mk.injEq, and_true]
    omega
  · rw [h2, records_nat, ← List.map_take, List.take_range, List.range_eq_range']
    congr 2
    omega
  · rw [records_nat, records_nat]
    apply List.ext_getElem?
    intro k
    simp only [List.getElem?_map, List.getElem?_drop]
    by_cases hk : k < ne - min nn ne
    · rw [List.getElem?_range hk, List.getElem?_range (by omega)]
      simp only [Option.map_some', Nat.mod_add_mod]
      congr 3
      omega
    · have e1 : (List.range (ne - min nn ne))[k]? = none := by
        rw [List.getElem?_eq_none_iff, List.length_range]; omega
      have e2 : (List.range ne)[min nn ne + k]? = none := by
        rw [List.getElem?_eq_none_iff, List.length_range]; omega
      rw [e1, e2]
      rfl

/-- The members of a queue as natural numbers. -/
theorem bulk_queue_nat {T : Type} (q : bulk_queue T) (hbuf : (q.buf.length : Int) = q.size)
    (hstart : 0 ≤ q.start) (hne : 0 ≤ q.num_entries) :
    ∃ sz st ne : Nat, q = ⟨q.buf, sz, st, ne⟩ ∧ q.buf.length = sz := by
  obtain ⟨st, hst⟩ := Int.eq_ofNat_of_zero_le hstart
  obtain ⟨ne, hne'⟩ := Int.eq_ofNat_of_zero_le hne
  refine ⟨q.buf.length, st, ne, ?_, rfl⟩
  cases q
  simp only at hbuf hst hne'
  simp only [bulk_queue.mk.injEq, true_and]
  exact ⟨hbuf.symm, hst, hne'⟩

/-- C13. For every `bulk_queue` state with `0 <= num_entries <= size` (a ring
of `size >= 1` records, `start >= 0`) and every `n >= 0` (with `entries` holding
`n` records), `add(entries, n)` returns `m = min(n, size - num_entries)`, the
queue afterwards holds the records it held, in their order, directly followed
by `entries[0..m)` in order, `num_entries` has grown by exactly `m`, and
`start` is unchanged; on a full queue it returns 0 and changes nothing. -/
theorem bulk_queue_add_spec {T : Type} (q : bulk_queue T) (entries : List T) (n : Int)
    (hbuf : (q.buf.length : Int) = q.size) (hsize : 0 < q.size) (hstart : 0 ≤ q.start)
    (hne : 0 ≤ q.num_entries) (hle : q.num_entries ≤ q.size) (hn : 0 ≤ n)
    (hent : n ≤ entries.length) :
    ∃ q', q.add entries n = .ok (min n (q.size - q.num_entries), q') ∧
      q'.records =
        q.records ++ (entries.take (min n (q.size - q.num_entries)).toNat).map some ∧
      q'.num_entries = q.num_entries + min n (q.size - q.num_entries) ∧
      q'.start = q.start ∧ q'.size = q.size ∧ (q'.buf.length : Int) = q'.size ∧
      (q.num_entries = q.size → min n (q.size - q.num_entries) = 0 ∧ q' = q) := by
  obtain ⟨buf, size, start, ne⟩ := q
  simp only at hbuf hsize hstart hne hle ⊢
  lift size to ℕ using le_of_lt hsize
  lift start to ℕ using hstart
  lift ne to ℕ using hne
  lift n to ℕ using hn
  have hmin : min (n : Int) ((size : Int) - (ne : Int)) = ((min n (size - ne) : Nat) : Int) := by
    omega
  obtain ⟨buf', h1, h2, h3, h4⟩ := bulk_queue_add_core buf entries size start ne n (by omega)
    (by omega) (by omega) (by omega)
  refine ⟨⟨buf', size, start, ((ne + min n (size - ne) : Nat) : Int)⟩, ?_, ?_, ?_, rfl, rfl,
    ?_, ?_⟩
  · rw [hmin]; exact h1
  · rw [hmin, Int.toNat_ofNat]; exact h4
  · simp only [hmin]; norm_cast
  · simp only; exact_mod_cast h2
  · intro hfull
    have h0 : min n (size - ne) = 0 := by omega
    refine ⟨by rw [hmin, h0]; rfl, ?_⟩
    rw [h3 h0, h0]
    rfl

/-- C13, an instance: a ring of 4 records with `start = 3` that holds the one
record 9; adding 5, 6, 7 wraps around the ring. -/
theorem bulk_queue_add_spec_witness :
    (⟨[0, 0, 0, 9], 4, 3, 1⟩ : bulk_queue Nat).add [5, 6, 7] 3 =
      .ok (3, ⟨[5, 6, 7, 9], 4, 3, 4⟩) ∧
    (⟨[5, 6, 7, 9], 4, 3, 4⟩ : bulk_queue Nat).records = [some 9, some 5, some 6, some 7] ∧
    ∃ q', (⟨[0, 0, 0, 9], 4, 3, 1⟩ : bulk_queue Nat).add [5, 6, 7] 3 =
        .ok (min 3 ((4 : Int) - 1), q') ∧
      q'.records = (⟨[0, 0, 0, 9], 4, 3, 1⟩ : bulk_queue Nat).records ++
        (([5, 6, 7] : List Nat).take (min 3 ((4 : Int) - 1)).toNat).map some ∧
      q'.num_entries = 1 + min 3 ((4 : Int) - 1) ∧
      q'.start = 3 ∧ q'.size = 4 ∧ (q'.buf.length : Int) = q'.size ∧
      ((1 : Int) = 4 → min 3 ((4 : Int) - 1) = 0 ∧ q' = ⟨[0, 0, 0, 9], 4, 3, 1⟩) :=
  ⟨by decide, by decide,
    bulk_queue_add_spec (⟨[0, 0, 0, 9], 4, 3, 1⟩ : bulk_queue Nat) [5, 6, 7] 3 (by decide)
      (by decide) (by decide) (by decide) (by decide) (by decide) (by decide)⟩

/-- C14. A `bulk_queue` is a FIFO. For every queue (a ring of `size >= 1`
records, `start >= 0`, `0 <= num_entries <= size`) and every `n >= 0`,
`fetch(out, n)` returns `m = min(n, num_entries)`, writes to `out[0..m)` the
`m` oldest records in their order and leaves the other records queued in their
order; and on an empty queue `add(xs, k)` for the `k <= size` records `xs`
followed by `fetch(out, k)` returns `k` with `out` equal to `xs`, wherever
`start` is in the ring. -/
theorem bulk_queue_fifo {T : Type} (q : bulk_queue T) (n : Int)
    (hbuf : (q.buf.length : Int) = q.size) (hsize : 0 < q.size) (hstart : 0 ≤ q.start)
    (hne : 0 ≤ q.num_entries) (hle : q.num_entries ≤ q.size) (hn : 0 ≤ n) :
    (∃ out q', q.fetch n = .ok (min n q.num_entries, out, q') ∧
      out.map some = q.records.take (min n q.num_entries).toNat ∧
      q'.records = q.records.drop (min n q.num_entries).toNat ∧
      q'.num_entries = q.num_entries - min n q.num_entries) ∧
    (∀ xs : List T, q.num_entries = 0 → (xs.length : Int) ≤ q.size →
      ∃ q1 q2, q.add xs xs.length = .ok ((xs.length : Int), q1) ∧
        q1.fetch xs.length = .ok ((xs.length : Int), xs, q2) ∧ q2.num_entries = 0) := by
  obtain ⟨buf, size, start, ne⟩ := q
  simp only at hbuf hsize hstart hne hle ⊢
  lift size to ℕ using le_of_lt hsize
  lift start to ℕ using hstart
  lift ne to ℕ using hne
  lift n to ℕ using hn
  constructor
  · have hmin : min (n : Int) (ne : Int) = ((min n ne : Nat) : Int) := by omega
    obtain ⟨out, h1, h2, h3⟩ := bulk_queue_fetch_core buf size start ne n (by omega) (by omega)
    refine ⟨out, ⟨buf, size, (((start + min n ne) % size : Nat) : Int),
      ((ne - min n ne : Nat) : Int)⟩, ?_, ?_, ?_, ?_⟩
    · rw [hmin]; exact h1
    · rw [hmin, Int.toNat_ofNat]; exact h2
    · rw [hmin, Int.toNat_ofNat]; exact h3
    · simp only [hmin]; omega
  · intro xs hempty hk
    have hne0 : ne = 0 := by omega
    subst hne0
    have hk' : xs.length ≤ size := by omega
    obtain ⟨buf', a1, a2, _, a4⟩ := bulk_queue_add_core buf xs size start 0 xs.length
      (by omega) (by omega) (by omega) (le_refl _)
    have hm : min xs.length (size - 0) = xs.length := by omega
    rw [hm] at a1 a4
    simp only [Nat.zero_add] at a1 a4
    obtain ⟨out, b1, b2, _⟩ := bulk_queue_fetch_core buf' size start xs.length xs.length
      (by omega) a2
    simp only [Nat.min_self, Nat.sub_self] at b1 b2
    rw [a4] at b2
    have hrec0 : (⟨buf, size, start, ((0 : Nat) : Int)⟩ : bulk_queue T).records = [] := by
      rw [records_nat]; rfl
    rw [hrec0, List.nil_append, List.take_length, List.take_of_length_le (by simp)] at b2
    have hout : out = xs := by
      have hinj : Function.Injective (some : T → Option T) := fun a b h => by
        cases h; rfl
      exact List.map_injective_iff.mpr hinj b2
    subst hout
    exact ⟨_, _, a1, b1, rfl⟩

/-- C14, an instance: the empty ring of 4 records with `start = 3`; the three
records 5, 6, 7 wrap around the ring and come back in their order. -/
theorem bulk_queue_fifo_witness :
    (⟨[0, 0, 0, 0], 4, 3, 0⟩ : bulk_queue Nat).add [5, 6, 7] 3 =
      .ok (3, ⟨[6, 7, 0, 5], 4, 3, 3⟩) ∧
    (⟨[6, 7, 0, 5], 4, 3, 3⟩ : bulk_queue Nat).fetch 3 =
      .ok (3, [5, 6, 7], ⟨[6, 7, 0, 5], 4, 2, 0⟩) ∧
    ∀ xs : List Nat, (0 : Int) = 0 → (xs.length : Int) ≤ 4 →
      ∃ q1 q2, (⟨[0, 0, 0, 0], 4, 3, 0⟩ : bulk_queue Nat).add xs xs.length =
          .ok ((xs.length : Int), q1) ∧
        q1.fetch xs.length = .ok ((xs.length : Int), xs, q2) ∧ q2.num_entries = 0 :=
  ⟨by decide, by decide,
    (bulk_queue_fifo (⟨[0, 0, 0, 0], 4, 3, 0⟩ : bulk_queue Nat) 0 (by decide) (by decide)
      (by decide) (by decide) (by decide) (by decide)).2⟩

/-- C15 (as amended). For every `bulk_queue` state with
`0 <= num_entries <= size` and `0 <= start < size` (a ring of `size` records)
and every argument `n >= 0` (with `entries` holding `n` records), `add` and
`fetch` return, and after `add(entries, n)` and after `fetch(out, n)` it still
holds that `0 <= num_entries <= size` and `0 <= start < size`. -/
theorem bulk_queue_bounds {T : Type} (q : bulk_queue T) (entries : List T) (n : Int)
    (hwf : q.wf) (hn : 0 ≤ n) (hent : n ≤ entries.length) :
    (∃ m q', q.add entries n = .ok (m, q') ∧ q'.wf) ∧
    (∃ m out q', q.fetch n = .ok (m, out, q') ∧ q'.wf) := by
  obtain ⟨hbuf, hstart, hlt, hne, hle⟩ := hwf
  obtain ⟨buf, size, start, ne⟩ := q
  simp only at hbuf hstart hlt hne hle ⊢
  lift size to ℕ using (by omega)
  lift start to ℕ using hstart
  lift ne to ℕ using hne
  lift n to ℕ using hn
  constructor
  · obtain ⟨buf', h1, h2, _, _⟩ := bulk_queue_add_core buf entries size start ne n (by omega)
      (by omega) (by omega) (by omega)
    refine ⟨_, _, h1, ?_⟩
    unfold bulk_queue.wf
    simp only
    refine ⟨by exact_mod_cast h2, by omega, hlt, by omega, by omega⟩
  · obtain ⟨out, h1, _, _⟩ := bulk_queue_fetch_core buf size start ne n (by omega) (by omega)
    refine ⟨_, out, _, h1, ?_⟩
    unfold bulk_queue.wf
    simp only
    have hmod : (start + min n ne) % size < size := Nat.mod_lt _ (by omega)
    refine ⟨hbuf, by omega, by exact_mod_cast hmod, by omega, by omega⟩

/-- C15, an instance: a ring of 2 records that holds one record. -/
theorem bulk_queue_bounds_witness :
    (⟨[7, 0], 2, 0, 1⟩ : bulk_queue Nat).wf ∧
    (⟨[7, 0], 2, 0, 1⟩ : bulk_queue Nat).add [8, 9] 2 = .ok (1, ⟨[7, 8], 2, 0, 2⟩) ∧
    (⟨[7, 0], 2, 0, 1⟩ : bulk_queue Nat).fetch 2 = .ok (1, [7], ⟨[7, 0], 2, 1, 0⟩) ∧
    ((∃ m q', (⟨[7, 0], 2, 0, 1⟩ : bulk_queue Nat).add [8, 9] 2 = .ok (m, q') ∧ q'.wf) ∧
      (∃ m out q', (⟨[7, 0], 2, 0, 1⟩ : bulk_queue Nat).fetch 2 = .ok (m, out, q') ∧ q'.wf)) :=
  ⟨⟨by decide, by decide, by decide, by decide, by decide⟩, by decide, by decide,
    bulk_queue_bounds (⟨[7, 0], 2, 0, 1⟩ : bulk_queue Nat) [8, 9] 2
      ⟨by decide, by decide, by decide, by decide, by decide⟩ (by decide) (by decide)⟩

/-- C15 as stated fails for a negative argument: on the empty ring of 2
records, `add(entries, -1)` leaves `num_entries = -1`, and `fetch(out, -1)`
leaves `start = -1` and `num_entries = 1`. -/
theorem bulk_queue_bounds_counterexample :
    (⟨[0, 0], 2, 0, 0⟩ : bulk_queue Nat).wf ∧
    (⟨[0, 0], 2, 0, 0⟩ : bulk_queue Nat).add [] (-1) = .ok (-1, ⟨[0, 0], 2, 0, -1⟩) ∧
    ¬ (0 ≤ (⟨[0, 0], 2, 0, -1⟩ : bulk_queue Nat).num_entries) ∧
    (⟨[0, 0], 2, 0, 0⟩ : bulk_queue Nat).fetch (-1) = .ok (-1, [], ⟨[0, 0], 2, -1, 1⟩) ∧
    ¬ (0 ≤ (⟨[0, 0], 2, -1, 1⟩ : bulk_queue Nat).start) :=
  ⟨⟨by decide, by decide, by decide, by decide, by decide⟩, by decide, by decide, by decide,
    by decide⟩

theorem over_read_loop_le (r : List Nat) : over_read_loop r ≤ r.length := by
  induction r with
  | nil => simp [over_read_loop]
  | cons c r ih =>
    unfold over_read_loop
    split_ifs
    · simp
    · simp only [List.length_cons]; omega

theorem over_read_loop_pos (r : List Nat) (h : r ≠ []) : 1 ≤ over_read_loop r := by
  cases r with
  | nil => exact absurd rfl h
  | cons c r =>
    unfold over_read_loop
    split_ifs
    · exact le_refl _
    · omega

theorem over_read_loop_spec (r : List Nat) :
    (r.take (over_read_loop r)).getLast? = some 10 ∨
      (over_read_loop r = r.length ∧ r.getLast? ≠ some 10) := by
  induction r with
  | nil => right; simp [over_read_loop]
  | cons c r ih =>
    unfold over_read_loop
    split_ifs with hc
    · left; simp [hc]
    · rcases ih with ih | ⟨ih1, ih2⟩
      · left
        have hpos : 1 ≤ over_read_loop r := by
          apply over_read_loop_pos
          rintro rfl
          simp [over_read_loop] at ih
        obtain ⟨k, hk⟩ : ∃ k, over_read_loop r = k + 1 := ⟨over_read_loop r - 1, by omega⟩
        rw [hk] at ih ⊢
        rw [List.take_succ_cons]
        cases r with
        | nil => simp at ih
        | cons x r =>
          rw [List.take_succ_cons] at ih ⊢
          rw [List.getLast?_cons_cons]
          exact ih
      · right
        refine ⟨by simp [ih1], ?_⟩
        cases r with
        | nil => simpa using hc
        | cons x r => rw [List.getLast?_cons_cons]; exact ih2

theorem gzread_eq (f : gzFile) (L : Nat) (h1 : 0 < L) (h2 : L < 2 ^ 31) :
    gzread f L = (((min L f.data.length : Nat) : Int), f.data.take L,
      ⟨f.data.drop L, decide (f.data.length < L)⟩) := by
  unfold gzread
  have h3 : L % 2 ^ 32 = L := Nat.mod_eq_of_lt (by omega)
  simp only [h3]
  rw [if_neg (by omega), if_neg (by omega)]

theorem gzread_zero (f : gzFile) : gzread f 0 = (0, [], f) := by
  unfold gzread
  simp


theorem getLast?_append_ne (a b : List Nat) (hb : b ≠ []) : (a ++ b).getLast? = b.getLast? := by
  rw [List.getLast?_append]
  cases h : b.getLast? with
  | none => exact absurd (List.getLast?_eq_none_iff.mp h) hb
  | some x => rfl

theorem gz_read_lines_past (P W : Nat) (pv : List Nat) (pb : Nat) (data : List Nat)
    (hW : W + P < 2 ^ 31) (hlen : pv.length = P) (hpb : pb ≤ P) :
    gz_file_io.read_lines P ⟨pv, pb, ⟨data, true⟩⟩ W =
      if ¬ (pb < W + P) then .error .assert_fail
      else .ok (pv.take pb, pb, ⟨pv, 0, ⟨data, true⟩⟩) := by
  have e1 : (W + P) % 2 ^ 64 = W + P := Nat.mod_eq_of_lt (by omega)
  have hcl : (pv.take pb).length = pb := by rw [List.length_take]; omega
  unfold gz_file_io.read_lines
  simp only [e1, gzeof, hcl]
  rw [if_neg (by omega)]
  simp only [not_true_eq_false, if_false]
  rw [List.take_of_length_le (le_of_eq hcl)]


theorem gz_read_lines_fresh (P W : Nat) (pv : List Nat) (pb : Nat) (data : List Nat)
    (hW : W + P < 2 ^ 31) (hlen : pv.length = P) (hpb : pb ≤ P) (hL : 0 < W + P - pb) :
    gz_file_io.read_lines P ⟨pv, pb, ⟨data, false⟩⟩ W =
      if pb ≤ W ∧ W - pb < min (W + P - pb) data.length then
        if ¬ (W + over_read_loop ((data.take (W + P - pb)).drop (W - pb)) < W + P) then
          .error .assert_fail
        else .ok (pv.take pb ++ (data.take (W + P - pb)).take
              (W - pb + over_read_loop ((data.take (W + P - pb)).drop (W - pb))),
            W + over_read_loop ((data.take (W + P - pb)).drop (W - pb)),
            ⟨(data.take (W + P - pb)).drop
                (W - pb + over_read_loop ((data.take (W + P - pb)).drop (W - pb))) ++
              pv.drop (min (W + P - pb) data.length - (W - pb) -
                over_read_loop ((data.take (W + P - pb)).drop (W - pb))),
             min (W + P - pb) data.length - (W - pb) -
                over_read_loop ((data.take (W + P - pb)).drop (W - pb)),
             ⟨data.drop (W + P - pb), decide (data.length < W + P - pb)⟩⟩)
      else if ¬ (pb + min (W + P - pb) data.length < W + P) then .error .assert_fail
      else .ok (pv.take pb ++ data.take (W + P - pb), pb + min (W + P - pb) data.length,
        ⟨pv, 0, ⟨data.drop (W + P - pb), decide (data.length < W + P - pb)⟩⟩) := by
  have e1 : (W + P) % 2 ^ 64 = W + P := Nat.mod_eq_of_lt (by omega)
  have hcl : (pv.take pb).length = pb := by rw [List.length_take]; omega
  have hdl : (data.take (W + P - pb)).length = min (W + P - pb) data.length := List.length_take _ _
  have hm : min (W + P - pb) data.length ≤ W + P - pb := Nat.min_le_left _ _
  have e2 : ((if pb > 0 then (W + 2 ^ 64 - pb) % 2 ^ 64 else W) + P) % 2 ^ 64 = W + P - pb := by
    split_ifs <;> omega
  have e3 : (((min (W + P - pb) data.length : Nat) : Int) % 2 ^ 64).toNat =
      min (W + P - pb) data.length := by
    have h64 : (2 : Int) ^ 64 = 18446744073709551616 := by norm_num
    rw [h64]
    omega
  unfold gz_file_io.read_lines
  simp only [e1, gzeof, hcl, e2]
  rw [if_neg (by omega), gzread_eq _ _ hL (by omega)]
  simp only [Bool.false_eq_true, not_false_eq_true, if_true, hdl, e3, Int.toNat_ofNat]
  have hw : (pb ≤ W ∧ (if pb > 0 then (W + 2 ^ 64 - pb) % 2 ^ 64 else W) = W - pb) ∨
      (W < pb ∧ 2 ^ 31 ≤ (if pb > 0 then (W + 2 ^ 64 - pb) % 2 ^ 64 else W)) := by
    split_ifs <;> omega
  clear e2
  generalize (if pb > 0 then (W + 2 ^ 64 - pb) % 2 ^ 64 else W) = wanted at hw ⊢
  generalize hd : data.take (W + P - pb) = d at hdl ⊢
  generalize min (W + P - pb) data.length = m at hdl hm e3 ⊢
  have hx : ¬ ((m : Int) ≤ 0 ∧ ((m : Int) < 0 ∨ ¬ decide (data.length < W + P - pb) = true)) := by
    rintro ⟨h1, h2 | h2⟩
    · omega
    · apply h2
      rw [decide_eq_true_eq]
      have hm0 : m = 0 := by omega
      subst hm0
      rw [← hd, List.length_take] at hdl
      omega
  rw [if_neg hx, if_neg (by omega)]
  by_cases hc : pb ≤ W ∧ W - pb < m
  · rw [if_pos hc]
    obtain ⟨hc1, hc2⟩ := hc
    rcases hw with ⟨_, hw⟩ | ⟨hw, _⟩
    swap
    · omega
    subst hw
    have hr : List.take (m - (W - pb)) (List.drop (W - pb) d) = List.drop (W - pb) d := by
      apply List.take_of_length_le
      rw [List.length_drop]
      omega
    have hi := over_read_loop_le (List.drop (W - pb) d)
    rw [List.length_drop] at hi
    rw [if_pos (by omega), hr, if_neg (by omega), if_neg (by omega)]
    have e4 : (pb + (W - pb) + over_read_loop (List.drop (W - pb) d)) % 2 ^ 64 =
        W + over_read_loop (List.drop (W - pb) d) := by omega
    rw [e4]
    have e5 : List.take (W + over_read_loop (List.drop (W - pb) d)) (List.take pb pv ++ d) =
        List.take pb pv ++ List.take (W - pb + over_read_loop (List.drop (W - pb) d)) d := by
      rw [List.take_append_eq_append_take, hcl,
        List.take_of_length_le (l := List.take pb pv) (by omega)]
      congr 2
      omega
    have e6 : List.take (m - (W - pb) - over_read_loop (List.drop (W - pb) d))
        (List.drop (W - pb + over_read_loop (List.drop (W - pb) d)) d) =
        List.drop (W - pb + over_read_loop (List.drop (W - pb) d)) d := by
      apply List.take_of_length_le
      rw [List.length_drop]
      omega
    rw [e5, e6]
  · rw [if_neg hc, if_neg (by omega)]
    have e4 : (pb + m) % 2 ^ 64 = pb + m := by omega
    rw [e4, List.take_of_length_le (l := List.take pb pv ++ d) (by rw [List.length_append]; omega)]


theorem gz_read_lines_len_zero (P W : Nat) (pv : List Nat) (pb : Nat) (data : List Nat)
    (hW : W + P < 2 ^ 31) (hlen : pv.length = P) (hpb : pb ≤ P) (hL : W + P - pb = 0) :
    gz_file_io.read_lines P ⟨pv, pb, ⟨data, false⟩⟩ W = .error .fatal_exit := by
  have e1 : (W + P) % 2 ^ 64 = W + P := Nat.mod_eq_of_lt (by omega)
  have hcl : (pv.take pb).length = pb := by rw [List.length_take]; omega
  have e2 : ((if pb > 0 then (W + 2 ^ 64 - pb) % 2 ^ 64 else W) + P) % 2 ^ 64 = 0 := by
    split_ifs <;> omega
  unfold gz_file_io.read_lines
  simp only [e1, gzeof, hcl, e2]
  rw [if_neg (by omega), gzread_zero]
  simp

theorem gz_read_lines_step (P W : Nat) (S : List Nat) (io io' : gz_file_io) (block : List Nat)
    (n : Nat) (hW : W + P < 2 ^ 31) (hinv : gz_inv P S io) (heof : io.eof = false)
    (h : gz_file_io.read_lines P io W = .ok (block, n, io')) :
    n = block.length ∧ block ++ (io'.carry ++ io'.f.data) = io.carry ++ io.f.data ∧
    gz_inv P S io' ∧
    (block.getLast? = some 10 ∨
      (io'.prev_buf_bytes = 0 ∧ io'.f.data = [] ∧ S.getLast? ≠ some 10)) ∧
    (io'.prev_buf_bytes ≠ 0 → block.getLast? = some 10) := by
  obtain ⟨pv, pb, ⟨data, past⟩⟩ := io
  obtain ⟨hlen, hpb, ⟨del, hS⟩, hpast, hinit⟩ := hinv
  simp only [gz_file_io.carry] at hlen hpb hS hpast hinit ⊢
  have hcl : (pv.take pb).length = pb := by rw [List.length_take]; omega
  cases past with
  | true =>
    have hd : data = [] := hpast rfl
    subst hd
    rw [gz_read_lines_past P W pv pb [] hW hlen hpb] at h
    split_ifs at h with hlt
    simp only [Except.ok.injEq, Prod.mk.injEq] at h
    obtain ⟨rfl, rfl, rfl⟩ := h
    have hpb0 : pb ≠ 0 := by
      intro h0
      subst h0
      simp [gz_file_io.eof, gzeof] at heof
    have hne : pv.take pb ≠ [] := by
      intro h0
      rw [h0] at hcl
      exact hpb0 hcl.symm
    unfold gz_inv gz_file_io.carry
    dsimp only
    rw [List.take_zero, List.append_nil, List.append_nil]
    refine ⟨hcl.symm, rfl, ⟨hlen, Nat.zero_le _, ⟨del ++ pv.take pb, by simpa using hS⟩,
      fun _ => rfl, fun _ _ hp => by simp at hp⟩, ?_, fun h0 => absurd rfl h0⟩
    by_cases hl : (pv.take pb).getLast? = some 10
    · exact Or.inl hl
    · right
      refine ⟨rfl, rfl, ?_⟩
      rw [hS, List.append_nil, getLast?_append_ne _ _ hne]
      exact hl
  | false =>
    by_cases hL : W + P - pb = 0
    · rw [gz_read_lines_len_zero P W pv pb data hW hlen hpb hL] at h
      exact absurd h (by simp)
    rw [gz_read_lines_fresh P W pv pb data hW hlen hpb (by omega)] at h
    have hdl : (data.take (W + P - pb)).length = min (W + P - pb) data.length :=
      List.length_take _ _
    have hdd : data.take (W + P - pb) ++ data.drop (W + P - pb) = data :=
      List.take_append_drop _ _
    have hm : min (W + P - pb) data.length ≤ W + P - pb := Nat.min_le_left _ _
    have hm2 : min (W + P - pb) data.length ≤ data.length := Nat.min_le_right _ _
    have hfull : min (W + P - pb) data.length < W + P - pb →
        data.take (W + P - pb) = data ∧ data.drop (W + P - pb) = [] := by
      intro hlt
      have hle : data.length ≤ W + P - pb := by omega
      exact ⟨List.take_of_length_le hle, List.drop_of_length_le hle⟩
    have hmin : W + P - pb ≤ data.length → min (W + P - pb) data.length = W + P - pb :=
      Nat.min_eq_left
    generalize data.take (W + P - pb) = d at h hdl hdd hfull
    generalize min (W + P - pb) data.length = m at h hdl hm hm2 hfull hmin
    split_ifs at h with hc hlt hlt
    · simp only [Except.ok.injEq, Prod.mk.injEq] at h
      obtain ⟨rfl, rfl, rfl⟩ := h
      have hi := over_read_loop_le (List.drop (W - pb) d)
      rw [List.length_drop] at hi
      have hrne : List.drop (W - pb) d ≠ [] := by
        intro h0
        have := congrArg List.length h0
        rw [List.length_drop] at this
        simp only [List.length_nil] at this
        omega
      have hi1 := over_read_loop_pos _ hrne
      have hsp := over_read_loop_spec (List.drop (W - pb) d)
      generalize over_read_loop (List.drop (W - pb) d) = i at hlt hi hi1 hsp ⊢
      have hkl : (List.drop (W - pb + i) d).length = m - (W - pb) - i := by
        rw [List.length_drop]; omega
      have hcarry : List.take (m - (W - pb) - i)
          (List.drop (W - pb + i) d ++ List.drop (m - (W - pb) - i) pv) =
          List.drop (W - pb + i) d := by
        rw [List.take_append_of_le_length (le_of_eq hkl.symm)]
        exact List.take_of_length_le (le_of_eq hkl)
      have hsplit : List.take (W - pb + i) d =
          List.take (W - pb) d ++ List.take i (List.drop (W - pb) d) := List.take_add _ _ _
      have hlast : (List.take i (List.drop (W - pb) d)).getLast? = some 10 →
          (List.take pb pv ++ List.take (W - pb + i) d).getLast? = some 10 := by
        intro hl
        have hne : List.take i (List.drop (W - pb) d) ≠ [] := by
          intro h0
          rw [h0] at hl
          simp at hl
        rw [hsplit, ← List.append_assoc, getLast?_append_ne _ _ hne]
        exact hl
      unfold gz_inv gz_file_io.carry
      dsimp only
      rw [hcarry]
      refine ⟨?_, ?_, ⟨?_, ?_, ⟨del ++ (List.take pb pv ++ List.take (W - pb + i) d), ?_⟩, ?_, ?_⟩,
        ?_, ?_⟩
      · rw [List.length_append, hcl, List.length_take]
        omega
      · rw [List.append_assoc, ← List.append_assoc (List.take (W - pb + i) d),
          List.take_append_drop, hdd]
      · rw [List.length_append, hkl, List.length_drop]
        omega
      · omega
      · rw [hS, List.append_assoc, List.append_assoc,
          ← List.append_assoc (List.take (W - pb + i) d), List.take_append_drop, hdd]
      · intro hp
        rw [decide_eq_true_eq] at hp
        exact List.drop_of_length_le (by omega)
      · intro h0 _ hp
        rw [decide_eq_false_iff_not] at hp
        have := hmin (by omega)
        omega
      · rcases hsp with hsp | ⟨hsp1, hsp2⟩
        · exact Or.inl (hlast hsp)
        · right
          rw [List.length_drop] at hsp1
          have hmlt : m < W + P - pb := by omega
          obtain ⟨hd1, hd2⟩ := hfull hmlt
          refine ⟨by omega, hd2, ?_⟩
          subst hd1
          rw [hS, ← List.append_assoc, ← List.take_append_drop (W - pb) d,
            ← List.append_assoc, getLast?_append_ne _ _ hrne]
          exact hsp2
      · intro h0
        rcases hsp with hsp | ⟨hsp1, _⟩
        · exact hlast hsp
        · rw [List.length_drop] at hsp1
          omega
    · simp only [Except.ok.injEq, Prod.mk.injEq] at h
      obtain ⟨rfl, rfl, rfl⟩ := h
      have hmlt : m < W + P - pb := by omega
      obtain ⟨hd1, hd2⟩ := hfull hmlt
      subst hd1
      unfold gz_inv gz_file_io.carry
      dsimp only
      rw [List.take_zero, hd2, List.append_nil, List.append_nil]
      refine ⟨?_, rfl, ⟨hlen, Nat.zero_le _, ⟨del ++ (List.take pb pv ++ d), ?_⟩,
        fun _ => rfl, ?_⟩, ?_, fun h0 => absurd rfl h0⟩
      · rw [List.length_append, hcl, hdl]
      · rw [hS, List.append_nil]
      · intro _ _ hp
        rw [decide_eq_false_iff_not] at hp
        have := hmin (by omega)
        omega
      · by_cases hl : (List.take pb pv ++ d).getLast? = some 10
        · exact Or.inl hl
        · right
          refine ⟨rfl, rfl, ?_⟩
          by_cases hne : List.take pb pv ++ d = []
          · have hlen0 := congrArg List.length hne
            rw [List.length_append, hcl, hdl] at hlen0
            simp only [List.length_nil] at hlen0
            have hpb0 : pb = 0 := by omega
            have hd0 : d = [] := List.length_eq_zero.mp (by omega)
            have hp : false = false := rfl
            rw [hinit hpb0 hd0 hp]
            simp
          · rw [hS, getLast?_append_ne _ _ hne]
            exact hl

theorem gz_inv_create (P : Nat) (S : List Nat) : gz_inv P S (gz_file_io.create P S) := by
  unfold gz_inv gz_file_io.create gz_file_io.carry
  dsimp only
  refine ⟨List.length_replicate _ _, Nat.zero_le _, ⟨[], by simp⟩, fun h => by simp at h,
    fun _ h _ => h⟩

theorem gz_read_calls_spec (P : Nat) (S : List Nat) :
    ∀ (ws : List Nat) (io : gz_file_io) (calls : List (List Nat × gz_file_io)),
      (∀ w ∈ ws, w + P < 2 ^ 31) → gz_inv P S io → gz_read_calls P io ws = .ok calls →
      ∀ c ∈ calls, c.1.getLast? = some 10 ∨
        (c.2.prev_buf_bytes = 0 ∧ c.2.f.data = [] ∧ S.getLast? ≠ some 10) := by
  intro ws
  induction ws with
  | nil =>
    intro io calls _ _ h c hc
    simp only [gz_read_calls, Except.ok.injEq] at h
    subst h
    simp at hc
  | cons w ws ih =>
    intro io calls hws hinv h c hc
    unfold gz_read_calls at h
    by_cases he : io.eof = true
    · rw [if_pos he] at h
      simp only [Except.ok.injEq] at h
      subst h
      simp at hc
    · rw [if_neg he] at h
      cases hr : gz_file_io.read_lines P io w with
      | error e => rw [hr] at h; simp at h
      | ok r =>
        obtain ⟨block, n, io'⟩ := r
        rw [hr] at h
        dsimp only at h
        obtain ⟨_, _, hinv', hend, _⟩ := gz_read_lines_step P w S io io' block n
          (hws w (List.mem_cons_self _ _)) hinv (by simpa using he) hr
        cases hrest : gz_read_calls P io' ws with
        | error e => rw [hrest] at h; simp at h
        | ok rest =>
          rw [hrest] at h
          simp only [Except.ok.injEq] at h
          subst h
          rcases List.mem_cons.mp hc with rfl | hc
          · exact hend
          · exact ih io' rest (fun w' hw' => hws w' (List.mem_cons_of_mem _ hw')) hinv' hrest c hc

/-- C11. For every decompressed stream `S` and every sequence of calls of
`gz_file_io::read_lines` on it from its opening, made as the callers make them
(in a loop while `eof()` is false, with a `wanted_bytes` for which
`wanted_bytes + PAGE_SIZE < 2^31`, as for `LINE_BLOCK_SIZE`): the block of every
call that returns ends with `\n`, unless it is the final block (after it the
carry is empty and the stream is exhausted) of a stream that does not end with
`\n`. -/
theorem gz_read_lines_line_boundary (PAGE_SIZE : Nat) (S : List Nat) (ws : List Nat)
    (calls : List (List Nat × gz_file_io)) (hws : ∀ w ∈ ws, w + PAGE_SIZE < 2 ^ 31)
    (h : gz_read_calls PAGE_SIZE (gz_file_io.create PAGE_SIZE S) ws = .ok calls) :
    ∀ c ∈ calls, c.1.getLast? = some 10 ∨
      (c.2.prev_buf_bytes = 0 ∧ c.2.f.data = [] ∧ S.getLast? ≠ some 10) :=
  gz_read_calls_spec PAGE_SIZE S ws (gz_file_io.create PAGE_SIZE S) calls hws
    (gz_inv_create PAGE_SIZE S) h

/-- C11, an instance: page size 4 and the stream "aaa\nb\nccc\ndd\ne" read
with `wanted_bytes = 4`; the blocks are "aaa\nb\n", "ccc\ndd\n" and the final
block "e". -/
theorem gz_read_lines_line_boundary_witness :
    (∀ w ∈ [4, 4, 4], w + 4 < 2 ^ 31) ∧
    gz_read_calls 4 (gz_file_io.create 4 (str "aaa\nb\nccc\ndd\ne")) [4, 4, 4] =
      .ok [(str "aaa\nb\n", ⟨[99, 99, 0, 0], 2, ⟨str "c\ndd\ne", false⟩⟩),
           (str "ccc\ndd\n", ⟨[101, 99, 0, 0], 1, ⟨[], false⟩⟩),
           (str "e", ⟨[101, 99, 0, 0], 0, ⟨[], true⟩⟩)] ∧
    ∀ c ∈ [(str "aaa\nb\n", (⟨[99, 99, 0, 0], 2, ⟨str "c\ndd\ne", false⟩⟩ : gz_file_io)),
           (str "ccc\ndd\n", ⟨[101, 99, 0, 0], 1, ⟨[], false⟩⟩),
           (str "e", ⟨[101, 99, 0, 0], 0, ⟨[], true⟩⟩)],
      c.1.getLast? = some 10 ∨
        (c.2.prev_buf_bytes = 0 ∧ c.2.f.data = [] ∧
          (str "aaa\nb\nccc\ndd\ne").getLast? ≠ some 10) :=
  ⟨by decide, by decide,
    gz_read_lines_line_boundary 4 (str "aaa\nb\nccc\ndd\ne") [4, 4, 4] _ (by decide)
      (by decide)⟩

theorem process_replies_for_ok (READ : Int) :
    ∀ (replies : List io_reply) (size : Int) (s : reply_state),
      (∀ r ∈ replies, r.success = true ∧ 0 ≤ r.size ∧
        (r.access_method = READ → (r.buf_word : Int) = r.offset % 2 ^ 64 / 8)) →
      process_replies_for READ replies size s =
        .ok (size + (replies.map (fun r => r.size)).sum,
          { s with read_bytes := s.read_bytes + (replies.map (fun r => r.size)).sum,
                   freed := s.freed ++ replies.map (fun r => r.buf) }) := by
  intro replies
  induction replies with
  | nil =>
    intro size s _
    simp [process_replies_for]
  | cons r rest ih =>
    intro size s hok
    obtain ⟨h1, h2, h3⟩ := hok r (List.mem_cons_self _ _)
    have hrest := ih (size + r.size)
      { s with read_bytes := s.read_bytes + r.size, freed := s.freed ++ [r.buf] }
      (fun r' hr' => hok r' (List.mem_cons_of_mem _ hr'))
    unfold process_replies_for process_reply
    simp only [h1, if_true]
    rw [if_neg (by rintro ⟨ha, hb⟩; exact hb (h3 ha))]
    simp only [ge_iff_le, h2, if_true]
    rw [hrest]
    simp only [List.map_cons, List.sum_cons, List.append_assoc, List.singleton_append,
      Except.ok.injEq, Prod.mk.injEq, reply_state.mk.injEq, and_true, true_and]
    omega

theorem process_replies_loop_done (READ BUF_SIZE max_nreplies : Int) (fuel : Nat)
    (num_processed size : Int) (s : reply_state) (h : s.reply_queue.is_empty = true) :
    process_replies_loop READ BUF_SIZE max_nreplies fuel num_processed size s =
      some (.ok (num_processed, size, s)) := by
  unfold process_replies_loop
  rw [if_pos (by simp [h])]

/-- C18: what the code does instead. For every reply queue that holds between 1
and `BUF_SIZE` replies, all of them successful (with sizes that are not
negative and passing the assertion of `process_reply`), and every
`max_nreplies > 0`, `process_replies` returns the number of those replies: its
local `size` and the increase of `read_bytes` are the sum of their
`get_size()`, but the returned value is `num_processed`. -/
theorem process_replies_returns_count (READ BUF_SIZE max_nreplies : Int) (fuel : Nat)
    (s : reply_state) (hwf : s.reply_queue.wf) (hpos : 0 < s.reply_queue.num_entries)
    (hcap : s.reply_queue.num_entries ≤ BUF_SIZE) (hmax : 0 < max_nreplies)
    (hok : ∀ r, some r ∈ s.reply_queue.records → r.success = true ∧ 0 ≤ r.size ∧
      (r.access_method = READ → (r.buf_word : Int) = r.offset % 2 ^ 64 / 8)) :
    ∃ (replies : List io_reply) (s' : reply_state), replies.map some = s.reply_queue.records ∧
      process_replies_loop READ BUF_SIZE max_nreplies (fuel + 1) 0 0 s =
        some (.ok (s.reply_queue.num_entries, (replies.map (fun r => r.size)).sum, s')) ∧
      process_replies READ BUF_SIZE (fuel + 1) max_nreplies s =
        some (.ok (s.reply_queue.num_entries, s')) ∧
      s'.read_bytes = s.read_bytes + (replies.map (fun r => r.size)).sum ∧
      s'.reply_queue.num_entries = 0 := by
  obtain ⟨q, rb, fr⟩ := s
  obtain ⟨hbuf, hstart, hlt, hne, hle⟩ := hwf
  obtain ⟨buf, size, start, ne⟩ := q
  simp only at hbuf hstart hlt hne hle hpos hcap hok ⊢
  lift size to ℕ using (by omega)
  lift start to ℕ using hstart
  lift ne to ℕ using hne
  lift BUF_SIZE to ℕ using (by omega)
  obtain ⟨out, h1, h2, _⟩ := bulk_queue_fetch_core buf size start ne BUF_SIZE (by omega)
    (by omega)
  have hmin : min BUF_SIZE ne = ne := by omega
  rw [hmin] at h1 h2
  have hrl : (⟨buf, size, start, ne⟩ : bulk_queue io_reply).records.length = ne := by
    simp [bulk_queue.records]
  rw [List.take_of_length_le (le_of_eq hrl)] at h2
  have hok' : ∀ r ∈ out, r.success = true ∧ 0 ≤ r.size ∧
      (r.access_method = READ → (r.buf_word : Int) = r.offset % 2 ^ 64 / 8) := by
    intro r hr
    apply hok
    rw [← h2]
    exact List.mem_map_of_mem _ hr
  have hloop : process_replies_loop READ BUF_SIZE max_nreplies (fuel + 1) 0 0
      ⟨⟨buf, size, start, ne⟩, rb, fr⟩ =
      some (.ok ((ne : Int), (out.map (fun r => r.size)).sum,
        ⟨⟨buf, size, (((start + ne) % size : Nat) : Int), ((ne - ne : Nat) : Int)⟩,
          rb + (out.map (fun r => r.size)).sum, fr ++ out.map (fun r => r.buf)⟩)) := by
    rw [process_replies_loop]
    have hne0 : ((ne : Int) = 0) = False := by
      apply eq_false
      omega
    simp only [bulk_queue.is_empty, hne0, decide_False, Bool.not_false, hmax, decide_True,
      Bool.and_self, not_true_eq_false, if_false]
    rw [h1]
    simp only
    rw [process_replies_for_ok READ out 0 _ hok']
    simp only
    rw [process_replies_loop_done]
    · simp
    · simp [bulk_queue.is_empty]
  refine ⟨out, _, h2, hloop, ?_, rfl, ?_⟩
  · unfold process_replies
    rw [hloop]
  · simp

/-- C18, an instance (`READ = 0`, `BUF_SIZE = 8`): the reply queue holds one
successful reply with `get_size() = 4096`. `process_replies(4)` adds 4096 to
`read_bytes` and returns 1; and `access` with `num = 1`, in a call in which
`distribute_reqs` and `process_requests` leave these members as they are and
`buf` is not full, returns 1 as well. -/
theorem process_replies_returns_count_witness :
    process_replies 0 8 1 4 one_reply_state =
      some (.ok (1, ⟨⟨[⟨true, 4096, 0, 8, 5, 1, 0⟩, ⟨false, 0, 0, 0, 0, 0, 0⟩], 2, 1, 0⟩,
        4096, [5]⟩)) ∧
    access (fun s => .ok s) (fun _ s => .ok s) (process_replies 0 8 1) (fun _ => false) 1 1
        one_reply_state =
      some (.ok (1, ⟨⟨[⟨true, 4096, 0, 8, 5, 1, 0⟩, ⟨false, 0, 0, 0, 0, 0, 0⟩], 2, 1, 0⟩,
        4096, [5]⟩)) ∧
    ∃ (replies : List io_reply) (s' : reply_state),
      replies.map some = one_reply_state.reply_queue.records ∧
      process_replies_loop 0 8 4 (0 + 1) 0 0 one_reply_state =
        some (.ok (one_reply_state.reply_queue.num_entries,
          (replies.map (fun r => r.size)).sum, s')) ∧
      process_replies 0 8 (0 + 1) 4 one_reply_state =
        some (.ok (one_reply_state.reply_queue.num_entries, s')) ∧
      s'.read_bytes = one_reply_state.read_bytes + (replies.map (fun r => r.size)).sum ∧
      s'.reply_queue.num_entries = 0 :=
  ⟨by decide, by decide,
    process_replies_returns_count 0 8 4 0 one_reply_state
      ⟨by decide, by decide, by decide, by decide, by decide⟩ (by decide) (by decide)
      (by decide) (by
        have hr : one_reply_state.reply_queue.records = [some ⟨true, 4096, 0, 8, 5, 1, 0⟩] := by
          decide
        intro r h
        rw [hr] at h
        simp only [List.mem_singleton, Option.some.injEq] at h
        subst h
        decide)⟩

theorem mem_take_mono {α : Type} (l : List α) {m n : Nat} (h : m ≤ n) {x : α}
    (hx : x ∈ l.take m) : x ∈ l.take n := by
  have e : l.take m = (l.take n).take m := by
    rw [List.take_take, Nat.min_eq_left h]
  rw [e] at hx
  exact List.mem_of_mem_take hx

theorem mem_take_drop {α : Type} (l : List α) (a c : Nat) {x : α}
    (hx : x ∈ (l.drop a).take c) : x ∈ l.take (a + c) := by
  rw [List.take_add]
  exact List.mem_append_right _ hx

theorem store_reply_spec {β : Type} (W B n : Nat) (bytes reply : List β)
    (hlen : bytes.length = B * W) (hn : n < B) (hr : reply.length = W) :
    store_reply W bytes (n : Int) reply =
        .ok (bytes.take (n * W) ++ reply ++ bytes.drop ((n + 1) * W)) ∧
      (bytes.take (n * W) ++ reply ++ bytes.drop ((n + 1) * W)).length = B * W ∧
      (bytes.take (n * W) ++ reply ++ bytes.drop ((n + 1) * W)).take ((n + 1) * W) =
        bytes.take (n * W) ++ reply := by
  have h1 : (n + 1) * W ≤ B * W := Nat.mul_le_mul_right W hn
  have h2 : (n + 1) * W = n * W + W := by ring
  have h3 : (bytes.take (n * W) ++ reply).length = (n + 1) * W := by
    rw [List.length_append, List.length_take, hr]
    omega
  refine ⟨?_, ?_, ?_⟩
  · unfold store_reply
    simp only [Int.toNat_ofNat]
    rw [if_neg (by omega), List.take_of_length_le (le_of_eq hr)]
  · rw [List.length_append, h3, List.length_drop]
    omega
  · rw [List.take_append_of_le_length (le_of_eq h3.symm)]
    exact List.take_of_length_le (le_of_eq h3)

theorem memmove_replies_spec {β : Type} (W B ret k : Nat) (bytes : List β) (hW : 0 < W)
    (hlen : bytes.length = B * W) (hret : ret < k) (hk : k ≤ B) :
    ∃ bytes2, memmove_replies W bytes (ret : Int) ((k : Int) - (ret : Int)) = .ok bytes2 ∧
      bytes2.length = B * W ∧
      ∀ x ∈ bytes2.take ((k - ret) * W), x ∈ bytes.take (k * W) := by
  have hc : ((k : Int) - (ret : Int)) = ((k - ret : Nat) : Int) := by omega
  have h1 : k * W ≤ B * W := Nat.mul_le_mul_right W hk
  have h2 : (k - ret) * W = k * W - ret * W := Nat.sub_mul _ _ _
  have h3 : ret * W ≤ k * W := Nat.mul_le_mul_right W (le_of_lt hret)
  have h4 : k - ret ≤ (k - ret) * W := Nat.le_mul_of_pos_right _ hW
  have h5 : ((bytes.drop (ret * W)).take (k - ret)).length = k - ret := by
    rw [List.length_take, List.length_drop]
    omega
  refine ⟨(bytes.drop (ret * W)).take (k - ret) ++ bytes.drop (k - ret), ?_, ?_, ?_⟩
  · unfold memmove_replies
    rw [hc]
    simp only [Int.toNat_ofNat]
    rw [if_neg (by omega)]
  · rw [List.length_append, h5, List.length_drop]
    omega
  · intro x hx
    rw [List.take_append_eq_append_take, h5] at hx
    rcases List.mem_append.mp hx with hx | hx
    · exact mem_take_mono _ (by omega) (mem_take_drop _ _ _ (List.mem_of_mem_take hx))
    · exact mem_take_mono _ (by omega) (mem_take_drop _ _ _ hx)

theorem io_replies_length {β : Type} (W : Nat) (bytes : List β) :
    (io_replies W bytes).length = bytes.length / W := by
  simp [io_replies]

theorem io_replies_mem {β : Type} (W m : Nat) (bytes r : List β)
    (hr : r ∈ (io_replies W bytes).take m) : ∀ b ∈ r, b ∈ bytes.take (m * W) := by
  unfold io_replies at hr
  rw [← List.map_take, List.take_range] at hr
  obtain ⟨j, hj, rfl⟩ := List.mem_map.mp hr
  rw [List.mem_range] at hj
  intro b hb
  have h1 : j * W + W ≤ m * W := by
    have : (j + 1) * W ≤ m * W := Nat.mul_le_mul_right W (by omega)
    have e : (j + 1) * W = j * W + W := by ring
    omega
  exact mem_take_mono _ h1 (mem_take_drop _ _ _ hb)

theorem bulk_queue_add_wf {T : Type} (q : bulk_queue T) (entries : List T) (k : Int)
    (hwf : q.wf) (hk : 0 ≤ k) (hent : k ≤ entries.length) :
    ∃ (m : Nat) (q' : bulk_queue T), q.add entries k = .ok ((m : Int), q') ∧ (m : Int) ≤ k ∧
      q'.wf ∧ q'.records = q.records ++ (entries.take m).map some := by
  obtain ⟨hbuf, hstart, hlt, hne, hle⟩ := hwf
  obtain ⟨buf, size, start, ne⟩ := q
  simp only at hbuf hstart hlt hne hle ⊢
  lift size to ℕ using (by omega)
  lift start to ℕ using hstart
  lift ne to ℕ using hne
  lift k to ℕ using hk
  obtain ⟨buf', h1, h2, _, h4⟩ := bulk_queue_add_core buf entries size start ne k (by omega)
    (by omega) (by omega) (by omega)
  refine ⟨min k (size - ne), _, h1, by omega, ?_, h4⟩
  unfold bulk_queue.wf
  simp only
  exact ⟨by exact_mod_cast h2, by omega, hlt, by omega, by omega⟩

theorem reply_queue_add_ok {β : Type} (W B k : Nat) (t : Int) (ok : Int → β → Prop)
    (q : bulk_queue (List β)) (bytes : List β) (hW : 0 < W) (hlen : bytes.length = B * W)
    (hk : k ≤ B) (hwf : q.wf) (hq : ∀ r, some r ∈ q.records → ∀ b ∈ r, ok t b)
    (hb : ∀ b ∈ bytes.take (k * W), ok t b) :
    ∃ (m : Nat) (q' : bulk_queue (List β)),
      q.add (io_replies W bytes) (k : Int) = .ok ((m : Int), q') ∧ m ≤ k ∧ q'.wf ∧
      ∀ r, some r ∈ q'.records → ∀ b ∈ r, ok t b := by
  have hel : (io_replies W bytes).length = B := by
    rw [io_replies_length, hlen, Nat.mul_div_cancel _ hW]
  obtain ⟨m, q', h1, h2, h3, h4⟩ := bulk_queue_add_wf q (io_replies W bytes) (k : Int) hwf
    (by omega) (by rw [hel]; exact_mod_cast hk)
  have hmk : m ≤ k := by exact_mod_cast h2
  refine ⟨m, q', h1, hmk, h3, ?_⟩
  intro r hr b hbr
  rw [h4] at hr
  rcases List.mem_append.mp hr with hr | hr
  · exact hq r hr b hbr
  · obtain ⟨r', hr', he⟩ := List.mem_map.mp hr
    simp only [Option.some.injEq] at he
    subst he
    exact hb b (mem_take_mono _ (Nat.mul_le_mul_right W hmk) (io_replies_mem W m bytes r' hr' b hbr))

theorem getElem?_set_some {α : Type} (l : List α) (i t : Nat) (a x : α)
    (h : (l.set i a)[t]? = some x) : (t = i ∧ x = a) ∨ (t ≠ i ∧ l[t]? = some x) := by
  rw [List.getElem?_set] at h
  by_cases hti : i = t
  · rw [if_pos hti] at h
    split_ifs at h
    simp only [Option.some.injEq] at h
    exact Or.inl ⟨hti.symm, h.symm⟩
  · rw [if_neg hti] at h
    exact Or.inr ⟨fun e => hti e.symm, h⟩

theorem reply_inv_update {β : Type} (W : Nat) (BUF_SIZE : Int) (idx : Nat → Int)
    (id2thread : Int → Nat) (ok : Int → β → Prop) (s : reply_bufs β) (i : Nat) (n : Int)
    (bytes : List β) (thread : Nat) (q : bulk_queue (List β))
    (hinv : reply_inv W BUF_SIZE idx id2thread ok s)
    (hlen : (bytes.length : Int) = BUF_SIZE * W) (hn0 : 0 ≤ n) (hn1 : n ≤ BUF_SIZE)
    (hid : 0 < n → idx (id2thread i) = i)
    (hb : ∀ b ∈ bytes.take (n.toNat * W), ok i b) (hq : q.wf)
    (hr : ∀ r, some r ∈ q.records → ∀ b ∈ r, ok (idx thread) b) :
    reply_inv W BUF_SIZE idx id2thread ok (s.update i n bytes thread q) := by
  obtain ⟨hW, h1, h2, h3, h4⟩ := hinv
  unfold reply_inv reply_bufs.update
  dsimp only
  refine ⟨hW, ?_, ?_, ?_, ?_⟩
  · intro t bytes' ht
    rcases getElem?_set_some _ _ _ _ _ ht with ⟨_, rfl⟩ | ⟨_, ht⟩
    · exact hlen
    · exact h1 t bytes' ht
  · intro t n' ht
    rcases getElem?_set_some _ _ _ _ _ ht with ⟨rfl, rfl⟩ | ⟨_, ht⟩
    · exact ⟨hn0, hn1, hid⟩
    · exact h2 t n' ht
  · intro t n' bytes' ht hbt
    rcases getElem?_set_some _ _ _ _ _ ht with ⟨rfl, rfl⟩ | ⟨hne, ht⟩
    · rcases getElem?_set_some _ _ _ _ _ hbt with ⟨_, rfl⟩ | ⟨hne, _⟩
      · exact hb
      · exact absurd rfl hne
    · rcases getElem?_set_some _ _ _ _ _ hbt with ⟨rfl, _⟩ | ⟨_, hbt⟩
      · exact absurd rfl hne
      · exact h3 t n' bytes' ht hbt
  · intro p
    by_cases hp : p = thread
    · subst hp
      rw [if_pos rfl]
      exact ⟨hq, hr⟩
    · rw [if_neg hp]
      exact h4 p

theorem int_index_some {α : Type} (a : List α) (i : Int) (x : α) (h : int_index a i = some x) :
    0 ≤ i ∧ a[i.toNat]? = some x := by
  unfold int_index at h
  split_ifs at h with h0
  exact ⟨by omega, h⟩

theorem reply_add_inv {β : Type} (W B k : Nat) (idx : Nat → Int) (id2thread : Int → Nat)
    (ok : Int → β → Prop) (s s' : reply_bufs β) (i : Nat) (bytes : List β) (thread : Nat)
    (hinv : reply_inv W (B : Int) idx id2thread ok s) (hlen : bytes.length = B * W)
    (hk : k ≤ B) (hid : idx (id2thread i) = i) (hthread : idx thread = i)
    (hb : ∀ b ∈ bytes.take (k * W), ok i b)
    (h : reply_add W s i (k : Int) bytes thread = .ok s') :
    reply_inv W (B : Int) idx id2thread ok s' := by
  have hW : 0 < W := hinv.1
  obtain ⟨hqwf, hqok⟩ := hinv.2.2.2.2 thread
  rw [hthread] at hqok
  obtain ⟨m, q', h1, h2, h3, h4⟩ := reply_queue_add_ok W B k (i : Int) ok (s.reply_queue thread)
    bytes hW hlen hk hqwf hqok hb
  unfold reply_add at h
  rw [h1] at h
  dsimp only at h
  have hcast : ((k : Int) - (m : Int)) = ((k - m : Nat) : Int) := by omega
  have hlen' : ((bytes.length : Nat) : Int) = (B : Int) * (W : Int) := by
    rw [hlen]; push_cast; rfl
  by_cases hc : (m : Int) ≠ 0 ∧ (m : Int) ≠ (k : Int)
  · rw [if_pos hc] at h
    obtain ⟨bytes2, e1, e2, e3⟩ := memmove_replies_spec W B m k bytes hW hlen (by omega) hk
    rw [e1] at h
    simp only [Except.ok.injEq] at h
    subst h
    apply reply_inv_update W (B : Int) idx id2thread ok s i _ bytes2 thread q' hinv
    · rw [e2]; push_cast; rfl
    · omega
    · omega
    · exact fun _ => hid
    · rw [hcast, Int.toNat_ofNat]
      exact fun b hb' => hb b (e3 b hb')
    · exact h3
    · rw [hthread]; exact h4
  · rw [if_neg hc] at h
    simp only [Except.ok.injEq] at h
    subst h
    apply reply_inv_update W (B : Int) idx id2thread ok s i _ bytes thread q' hinv hlen'
    · omega
    · omega
    · exact fun _ => hid
    · rw [hcast, Int.toNat_ofNat]
      exact fun b hb' => hb b (mem_take_mono _ (Nat.mul_le_mul_right W (Nat.sub_le k m)) hb')
    · exact h3
    · rw [hthread]; exact h4

theorem reply_one_inv {R β : Type} (W B : Nat) (get_thread : R → Nat) (idx : Nat → Int)
    (id2thread : Int → Nat) (ok : Int → β → Prop) (s s' : reply_bufs β) (request : R)
    (reply : List β) (hinv : reply_inv W (B : Int) idx id2thread ok s)
    (hrl : reply.length = W) (hrok : ∀ b ∈ reply, ok (idx (get_thread request)) b)
    (h : reply_one W (B : Int) get_thread idx id2thread s request reply = .ok s') :
    reply_inv W (B : Int) idx id2thread ok s' := by
  unfold reply_one at h
  dsimp only at h
  by_cases h0 : get_thread request = 0
  · rw [if_pos h0] at h
    cases h
  rw [if_neg h0] at h
  cases hn : int_index s.nreplies (idx (get_thread request)) with
  | none => rw [hn] at h; cases h
  | some n =>
    rw [hn] at h
    dsimp only at h
    obtain ⟨hi0, hnt⟩ := int_index_some _ _ _ hn
    by_cases hfull : n = (B : Int)
    · rw [if_pos hfull] at h
      simp only [Except.ok.injEq] at h
      subst h
      exact hinv
    rw [if_neg hfull] at h
    cases hbs : int_index s.thread_replies (idx (get_thread request)) with
    | none => rw [hbs] at h; cases h
    | some bytes =>
      rw [hbs] at h
      dsimp only at h
      obtain ⟨_, hbt⟩ := int_index_some _ _ _ hbs
      have ht : (((idx (get_thread request)).toNat : Nat) : Int) = idx (get_thread request) :=
        Int.toNat_of_nonneg hi0
      obtain ⟨hW, h1, h2, h3, h4⟩ := hinv
      have hlen : bytes.length = B * W := by exact_mod_cast h1 _ bytes hbt
      obtain ⟨hn0, hn1, _⟩ := h2 _ n hnt
      have hpre := h3 _ n bytes hnt hbt
      lift n to ℕ using hn0
      rw [Int.toNat_ofNat] at hpre
      obtain ⟨e1, e2, e3⟩ := store_reply_spec W B n bytes reply hlen (by omega) hrl
      rw [e1] at h
      dsimp only at h
      have hnew : ∀ b ∈ (bytes.take (n * W) ++ reply ++ bytes.drop ((n + 1) * W)).take
          ((n + 1) * W), ok ((idx (get_thread request)).toNat : Int) b := by
        intro b hb
        rw [e3] at hb
        rcases List.mem_append.mp hb with hb | hb
        · exact hpre b hb
        · rw [ht]; exact hrok b hb
      by_cases ha : get_thread request = id2thread (idx (get_thread request))
      swap
      · rw [if_pos ha] at h
        cases h
      rw [if_neg (not_not.mpr ha)] at h
      have hid : idx (id2thread ((idx (get_thread request)).toNat : Int)) =
          ((idx (get_thread request)).toNat : Int) := by
        rw [ht, ← ha]
      by_cases hB : (n : Int) + 1 = (B : Int)
      · rw [if_pos hB] at h
        have hnB : n + 1 = B := by omega
        have hnew' : ∀ b ∈ (bytes.take (n * W) ++ reply ++ bytes.drop ((n + 1) * W)).take
            (B * W), ok ((idx (get_thread request)).toNat : Int) b := by
          rw [← hnB]; exact hnew
        exact reply_add_inv W B B idx id2thread ok s s' _ _ _ ⟨hW, h1, h2, h3, h4⟩ e2
          (le_refl _) hid ht.symm hnew' h
      · rw [if_neg hB] at h
        simp only [Except.ok.injEq] at h
        subst h
        apply reply_inv_update W (B : Int) idx id2thread ok s _ _ _ _ _ ⟨hW, h1, h2, h3, h4⟩
        · rw [e2]; push_cast; rfl
        · omega
        · omega
        · exact fun _ => hid
        · have e : ((n : Int) + 1).toNat = n + 1 := by omega
          rw [e]
          exact hnew
        · exact (h4 _).1
        · exact (h4 _).2

theorem reply_flush_one_inv {β : Type} (W B : Nat) (idx : Nat → Int) (id2thread : Int → Nat)
    (ok : Int → β → Prop) (s s' : reply_bufs β) (i : Nat)
    (hinv : reply_inv W (B : Int) idx id2thread ok s)
    (h : reply_flush_one W id2thread s i = .ok s') :
    reply_inv W (B : Int) idx id2thread ok s' := by
  unfold reply_flush_one at h
  cases hn : s.nreplies[i]? with
  | none => rw [hn] at h; cases h
  | some n =>
    rw [hn] at h
    dsimp only at h
    by_cases hpos : n > 0
    swap
    · rw [if_neg hpos] at h
      simp only [Except.ok.injEq] at h
      subst h
      exact hinv
    rw [if_pos hpos] at h
    by_cases h0 : id2thread (i : Int) = 0
    · rw [if_pos h0] at h
      cases h
    rw [if_neg h0] at h
    cases hbs : s.thread_replies[i]? with
    | none => rw [hbs] at h; cases h
    | some bytes =>
      rw [hbs] at h
      dsimp only at h
      have hlen : bytes.length = B * W := by exact_mod_cast hinv.2.1 _ bytes hbs
      obtain ⟨hn0, hn1, hid⟩ := hinv.2.2.1 _ n hn
      have hpre := hinv.2.2.2.1 _ n bytes hn hbs
      lift n to ℕ using hn0
      rw [Int.toNat_ofNat] at hpre
      exact reply_add_inv W B n idx id2thread ok s s' i bytes _ hinv hlen (by omega)
        (hid hpos) (hid hpos) hpre h

theorem reply_loop_inv {R β : Type} (W B : Nat) (get_thread : R → Nat) (idx : Nat → Int)
    (id2thread : Int → Nat) (ok : Int → β → Prop) (requests : List R) (replies : List (List β))
    (hrep : ∀ (i : Nat) (request : R) (reply : List β), requests[i]? = some request →
      replies[i]? = some reply → reply.length = W ∧ ∀ b ∈ reply, ok (idx (get_thread request)) b) :
    ∀ (cnt i : Nat) (s s' : reply_bufs β), reply_inv W (B : Int) idx id2thread ok s →
      reply_loop W (B : Int) get_thread idx id2thread requests replies i cnt s = .ok s' →
      reply_inv W (B : Int) idx id2thread ok s' := by
  intro cnt
  induction cnt with
  | zero =>
    intro i s s' hinv h
    simp only [reply_loop, Except.ok.injEq] at h
    subst h
    exact hinv
  | succ cnt ih =>
    intro i s s' hinv h
    unfold reply_loop at h
    cases hrq : requests[i]? with
    | none => rw [hrq] at h; cases h
    | some request =>
      cases hrp : replies[i]? with
      | none => rw [hrq, hrp] at h; cases h
      | some reply =>
        rw [hrq, hrp] at h
        dsimp only at h
        obtain ⟨hl, hok⟩ := hrep i request reply hrq hrp
        cases h1 : reply_one W (B : Int) get_thread idx id2thread s request reply with
        | error e => rw [h1] at h; cases h
        | ok s1 =>
          rw [h1] at h
          exact ih (i + 1) s1 s'
            (reply_one_inv W B get_thread idx id2thread ok s s1 request reply hinv hl hok h1) h

theorem reply_flush_loop_inv {β : Type} (W B : Nat) (idx : Nat → Int) (id2thread : Int → Nat)
    (ok : Int → β → Prop) :
    ∀ (cnt i : Nat) (s s' : reply_bufs β), reply_inv W (B : Int) idx id2thread ok s →
      reply_flush_loop W id2thread i cnt s = .ok s' →
      reply_inv W (B : Int) idx id2thread ok s' := by
  intro cnt
  induction cnt with
  | zero =>
    intro i s s' hinv h
    simp only [reply_flush_loop, Except.ok.injEq] at h
    subst h
    exact hinv
  | succ cnt ih =>
    intro i s s' hinv h
    unfold reply_flush_loop at h
    cases h1 : reply_flush_one W id2thread s i with
    | error e => rw [h1] at h; cases h
    | ok s1 =>
      rw [h1] at h
      exact ih (i + 1) s1 s' (reply_flush_one_inv W B idx id2thread ok s s1 i hinv h1) h

theorem reply_inv_init {β : Type} (W B : Nat) (idx : Nat → Int) (id2thread : Int → Nat)
    (ok : Int → β → Prop) (s : reply_bufs β) (hW : 0 < W) (hn : ∀ n ∈ s.nreplies, n = 0)
    (hb : ∀ bytes ∈ s.thread_replies, bytes.length = B * W)
    (hq : ∀ thread : Nat, (s.reply_queue thread).wf ∧ (s.reply_queue thread).num_entries = 0) :
    reply_inv W (B : Int) idx id2thread ok s := by
  refine ⟨hW, ?_, ?_, ?_, ?_⟩
  · intro t bytes ht
    rw [hb bytes (List.getElem?_mem ht)]
    push_cast
    rfl
  · intro t n ht
    rw [hn n (List.getElem?_mem ht)]
    exact ⟨le_refl _, by omega, fun h => absurd h (lt_irrefl _)⟩
  · intro t n bytes ht _ b hb'
    rw [hn n (List.getElem?_mem ht)] at hb'
    simp at hb'
  · intro thread
    refine ⟨(hq thread).1, ?_⟩
    intro r hr
    unfold bulk_queue.records at hr
    rw [(hq thread).2] at hr
    simp at hr

/-- Routing of bytes. For every call `reply(requests, replies, num)` that
returns, in a state in which the staging buffers and the reply queues hold only replies of
their own worker (for the buffer `t` the worker with `idx == t`): when every
byte of `replies[i]` is marked as belonging to the worker with the `idx` of
`requests[i].get_thread()`, then afterwards every byte of a reply staged in
the buffer `t` is marked for `t`, and every byte of every record in the reply
queue of a worker is marked for the `idx` of that worker. The marking is any
property `ok t b` of bytes. -/
theorem reply_routing {R β : Type} (W : Nat) (BUF_SIZE nthreads : Int) (get_thread : R → Nat)
    (idx : Nat → Int) (id2thread : Int → Nat) (ok : Int → β → Prop) (s s' : reply_bufs β)
    (requests : List R) (replies : List (List β)) (num ret : Int) (hB : 0 ≤ BUF_SIZE)
    (hinv : reply_inv W BUF_SIZE idx id2thread ok s)
    (hrep : ∀ p ∈ requests.zip replies,
      p.2.length = W ∧ ∀ b ∈ p.2, ok (idx (get_thread p.1)) b)
    (h : reply W BUF_SIZE nthreads get_thread idx id2thread s requests replies num =
      .ok (ret, s')) :
    reply_inv W BUF_SIZE idx id2thread ok s' ∧
    (∀ (t : Nat) (n : Int) (bytes : List β), s'.nreplies[t]? = some n →
      s'.thread_replies[t]? = some bytes → ∀ b ∈ bytes.take (n.toNat * W), ok t b) ∧
    (∀ (thread : Nat) (r : List β), some r ∈ (s'.reply_queue thread).records →
      ∀ b ∈ r, ok (idx thread) b) := by
  lift BUF_SIZE to ℕ using hB
  have hrep' : ∀ (i : Nat) (request : R) (reply : List β), requests[i]? = some request →
      replies[i]? = some reply →
      reply.length = W ∧ ∀ b ∈ reply, ok (idx (get_thread request)) b := by
    intro i request reply h1 h2
    have hz : (requests.zip replies)[i]? = some (request, reply) := by
      rw [List.getElem?_zip_eq_some]
      exact ⟨h1, h2⟩
    exact hrep (request, reply) (List.getElem?_mem hz)
  unfold reply at h
  cases h1 : reply_loop W (BUF_SIZE : Int) get_thread idx id2thread requests replies 0
      num.toNat s with
  | error e => rw [h1] at h; cases h
  | ok s1 =>
    rw [h1] at h
    dsimp only at h
    cases h2 : reply_flush_loop W id2thread 0 nthreads.toNat s1 with
    | error e => rw [h2] at h; cases h
    | ok s2 =>
      rw [h2] at h
      simp only [Except.ok.injEq, Prod.mk.injEq] at h
      obtain ⟨_, rfl⟩ := h
      have hinv' := reply_flush_loop_inv W BUF_SIZE idx id2thread ok _ 0 s1 s2
        (reply_loop_inv W BUF_SIZE get_thread idx id2thread ok requests replies hrep' _ 0 s s1
          hinv h1) h2
      exact ⟨hinv', hinv'.2.2.2.1, fun thread r hr => (hinv'.2.2.2.2 thread).2 r hr⟩

/-- Routing of bytes, an instance: `BUF_SIZE = 2`, replies of 2 bytes, two
workers with reply queues of capacity 1, and three replies, for the workers 0, 1 and 0. The
call returns; the queue of the worker 0 holds its first reply and the queue of
the worker 1 holds its reply; the buffer 0 keeps one record, put together by
`memmove` from bytes of the two replies for the worker 0. -/
theorem reply_routing_witness :
    (reply 2 2 2 (fun (r : Nat) => r) two_idx two_id2thread two_bufs [100, 200, 100]
        [[(0, 1), (0, 2)], [(1, 3), (1, 4)], [(0, 5), (0, 6)]] 3).map
      (fun r => (r.1, r.2.nreplies, r.2.thread_replies, r.2.reply_queue 100,
        r.2.reply_queue 200)) =
      .ok (0, [1, 0], [[(0, 5), (0, 2), (0, 5), (0, 6)], [(1, 3), (1, 4), (9, 0), (9, 0)]],
        ⟨[[(0, 1), (0, 2)]], 1, 0, 1⟩, ⟨[[(1, 3), (1, 4)]], 1, 0, 1⟩) ∧
    ∀ (ret : Int) (s' : reply_bufs (Int × Nat)),
      reply 2 2 2 (fun (r : Nat) => r) two_idx two_id2thread two_bufs [100, 200, 100]
        [[(0, 1), (0, 2)], [(1, 3), (1, 4)], [(0, 5), (0, 6)]] 3 = .ok (ret, s') →
      reply_inv 2 2 two_idx two_id2thread (fun t b => b.1 = t) s' ∧
      (∀ (t : Nat) (n : Int) (bytes : List (Int × Nat)), s'.nreplies[t]? = some n →
        s'.thread_replies[t]? = some bytes → ∀ b ∈ bytes.take (n.toNat * 2), b.1 = (t : Int)) ∧
      (∀ (thread : Nat) (r : List (Int × Nat)), some r ∈ (s'.reply_queue thread).records →
        ∀ b ∈ r, b.1 = two_idx thread) :=
  ⟨rfl, fun ret s' h =>
    reply_routing 2 2 2 (fun (r : Nat) => r) two_idx two_id2thread (fun t b => b.1 = t)
      two_bufs s' [100, 200, 100] [[(0, 1), (0, 2)], [(1, 3), (1, 4)], [(0, 5), (0, 6)]] 3 ret
      (by decide)
      (reply_inv_init 2 2 two_idx two_id2thread (fun t b => b.1 = t) two_bufs (by decide)
        (by decide) (by decide)
        (fun _ => (show (⟨[[]], 1, 0, 0⟩ : bulk_queue (List (Int × Nat))).wf ∧
            (⟨[[]], 1, 0, 0⟩ : bulk_queue (List (Int × Nat))).num_entries = 0 from
          ⟨⟨by decide, by decide, by decide, by decide, by decide⟩, rfl⟩)))
      (by decide) h⟩

theorem over_read_loop_full (r : List Nat) (h : 10 ∉ r.take (r.length - 1)) :
    over_read_loop r = r.length := by
  induction r with
  | nil => rfl
  | cons c r ih =>
    cases r with
    | nil =>
      unfold over_read_loop
      split_ifs <;> rfl
    | cons x r =>
      have e : (c :: x :: r).length - 1 = (x :: r).length - 1 + 1 := by
        simp only [List.length_cons]
        omega
      rw [e, List.take_succ_cons] at h
      unfold over_read_loop
      rw [if_neg (fun hc => h (by rw [hc]; exact List.mem_cons_self _ _)),
        ih (fun hm => h (List.mem_cons_of_mem _ hm))]
      rfl

/-- C27: what the code does instead. For every page size and every
`wanted_bytes` (with `wanted_bytes + PAGE_SIZE < 2^31`), on a fresh stream that
delivers all the `wanted_bytes + PAGE_SIZE` bytes asked for and has no `\n`
among the first `PAGE_SIZE - 1` bytes behind position `wanted_bytes` (the
first `\n` of the over-read page is its last byte, or it has none),
`read_bytes` reaches `buf_size` and the call stops in
`assert(read_bytes < buf_size)`. -/
theorem gz_read_lines_assert_fails (PAGE_SIZE wanted_bytes : Nat) (data : List Nat)
    (hP : 0 < PAGE_SIZE) (hW : wanted_bytes + PAGE_SIZE < 2 ^ 31)
    (hlen : wanted_bytes + PAGE_SIZE ≤ data.length)
    (hnl : 10 ∉ (data.drop wanted_bytes).take (PAGE_SIZE - 1)) :
    gz_file_io.read_lines PAGE_SIZE (gz_file_io.create PAGE_SIZE data) wanted_bytes =
      .error .assert_fail := by
  unfold gz_file_io.create
  rw [gz_read_lines_fresh PAGE_SIZE wanted_bytes _ 0 data hW (List.length_replicate _ _)
    (Nat.zero_le _) (by omega)]
  simp only [Nat.sub_zero]
  have hmin : min (wanted_bytes + PAGE_SIZE) data.length = wanted_bytes + PAGE_SIZE :=
    Nat.min_eq_left hlen
  have hreg : (data.take (wanted_bytes + PAGE_SIZE)).drop wanted_bytes =
      (data.drop wanted_bytes).take PAGE_SIZE := by
    rw [List.drop_take]
    congr 1
    omega
  have hrl : ((data.drop wanted_bytes).take PAGE_SIZE).length = PAGE_SIZE := by
    rw [List.length_take, List.length_drop]
    omega
  have hi : over_read_loop ((data.drop wanted_bytes).take PAGE_SIZE) = PAGE_SIZE := by
    have := over_read_loop_full ((data.drop wanted_bytes).take PAGE_SIZE) (by
      rw [hrl, List.take_take, Nat.min_eq_left (Nat.sub_le _ _)]
      exact hnl)
    rw [this, hrl]
  rw [hmin, hreg, hi, if_pos ⟨Nat.zero_le _, by omega⟩, if_pos (by omega)]

/-- C27, an instance: page size 4, `wanted_bytes = 4` and the stream
"aaa\nbbb\n", whose 8 bytes are all delivered; the `\n` of the over-read page
is its last byte. -/
theorem gz_read_lines_assert_fails_witness :
    (0 < 4 ∧ 4 + 4 < 2 ^ 31 ∧ 4 + 4 ≤ (str "aaa\nbbb\n").length ∧ 4 ≤ 4) ∧
    gz_file_io.read_lines 4 (gz_file_io.create 4 (str "aaa\nbbb\n")) 4 =
      .error .assert_fail :=
  ⟨by decide, gz_read_lines_assert_fails 4 4 (str "aaa\nbbb\n") (by decide) (by decide)
    (by decide) (by decide)⟩

theorem gzread_ret (f : gzFile) (len : Nat) :
    ((gzread f len).1 = -1 ∧ (gzread f len).2.1 = [] ∧ (gzread f len).2.2 = f) ∨
    ((gzread f len).1 = ((gzread f len).2.1.length : Int) ∧
      (gzread f len).2.1.length < 2 ^ 31 ∧
      f.data = (gzread f len).2.1 ++ (gzread f len).2.2.data) := by
  unfold gzread
  dsimp only
  split_ifs with h1 h2
  · left; exact ⟨rfl, rfl, rfl⟩
  · right; exact ⟨rfl, by simp, by simp⟩
  · right
    dsimp only
    refine ⟨by rw [List.length_take], ?_, (List.take_append_drop _ _).symm⟩
    rw [List.length_take]
    omega

/-- The shape of every call of `read_lines` that returns (with the carry not
longer than `wanted_bytes`): the block is the carry and a prefix `p` of the
delivered bytes `d`, the new carry is the rest of `d`. -/
theorem gz_read_lines_shape (P W : Nat) (io io' : gz_file_io) (block : List Nat) (n : Nat)
    (hW : W < 2 ^ 64) (hc : io.prev_buf_bytes ≤ W)
    (h : gz_file_io.read_lines P io W = .ok (block, n, io')) :
    ∃ d p : List Nat, io.f.data = d ++ io'.f.data ∧ block = io.carry ++ p ∧
      d = p ++ io'.carry ∧ n = block.length ∧ io.carry.length = io.prev_buf_bytes ∧
      io'.carry.length = io'.prev_buf_bytes ∧ io'.prev_buf_bytes ≤ P ∧
      (d.length ≤ W - io.prev_buf_bytes → p = d) ∧
      (W - io.prev_buf_bytes < d.length →
        p = d.take (W - io.prev_buf_bytes +
          over_read_loop (d.drop (W - io.prev_buf_bytes)))) := by
  obtain ⟨pv, pb, f⟩ := io
  simp only [gz_file_io.carry] at hc ⊢
  unfold gz_file_io.read_lines at h
  dsimp only at h
  by_cases hoob : (pv.take pb).length < pb ∨ (W + P) % 2 ^ 64 < pb
  · rw [if_pos hoob] at h; cases h
  rw [if_neg hoob] at h
  have hcl : (pv.take pb).length = pb := by
    have := List.length_take_le pb pv
    omega
  have hwanted : (if pb > 0 then (W + 2 ^ 64 - pb) % 2 ^ 64 else W) = W - pb := by
    split_ifs <;> omega
  rw [hwanted] at h
  by_cases hpast : gzeof f = true
  · rw [if_neg (not_not.mpr hpast)] at h
    split_ifs at h with hlt
    simp only [Except.ok.injEq, Prod.mk.injEq] at h
    obtain ⟨rfl, rfl, rfl⟩ := h
    refine ⟨[], [], by simp, ?_, by simp, ?_, hcl, by simp, Nat.zero_le _, fun _ => rfl, ?_⟩
    · rw [List.append_nil, List.take_of_length_le (le_of_eq hcl)]
    · rw [List.take_of_length_le (le_of_eq hcl)]
      exact hcl.symm
    · intro hlt'
      simp at hlt'
  rw [if_pos hpast] at h
  rcases gzread_ret f ((W - pb + P) % 2 ^ 64) with ⟨r1, _, _⟩ | ⟨r1, r2, r3⟩
  · generalize gzread f ((W - pb + P) % 2 ^ 64) = g at h r1
    obtain ⟨ret, d, f'⟩ := g
    dsimp only at h r1
    subst r1
    rw [if_pos ⟨by omega, Or.inl (by omega)⟩] at h
    cases h
  generalize gzread f ((W - pb + P) % 2 ^ 64) = g at h r1 r2 r3
  obtain ⟨ret, d, f'⟩ := g
  dsimp only at h r1 r2 r3
  subst r1
  split_ifs at h with hx hob hover hpb' hpv hlt hlt
  · -- the over-read branch
    simp only [Except.ok.injEq, Prod.mk.injEq] at h
    obtain ⟨rfl, rfl, rfl⟩ := h
    have h64 : (2 : Int) ^ 64 = 18446744073709551616 := by norm_num
    have hov : W - pb < d.length := by
      rw [h64] at hover
      omega
    have hto : ((d.length : Int)).toNat = d.length := Int.toNat_ofNat _
    dsimp only
    rw [hto] at hpb' hpv hlt ⊢
    have hreg : List.take (d.length - (W - pb)) (List.drop (W - pb) d) = List.drop (W - pb) d := by
      apply List.take_of_length_le
      rw [List.length_drop]
    rw [hreg] at hpb' hpv hlt ⊢
    have hi := over_read_loop_le (List.drop (W - pb) d)
    rw [List.length_drop] at hi
    generalize hidef : over_read_loop (List.drop (W - pb) d) = i at hi hpb' hpv hlt ⊢
    have hnw : (pb + (W - pb) + i) % 2 ^ 64 = pb + (W - pb + i) := by
      have : pb + (W - pb) + i ≤ pb + d.length := by omega
      omega
    have hkl : (List.drop (W - pb + i) d).length = d.length - (W - pb) - i := by
      rw [List.length_drop]; omega
    have hcarry : List.take (d.length - (W - pb) - i)
        (List.take (d.length - (W - pb) - i) (List.drop (W - pb + i) d) ++
          List.drop (d.length - (W - pb) - i) pv) = List.drop (W - pb + i) d := by
      rw [List.take_of_length_le (l := List.drop (W - pb + i) d) (le_of_eq hkl)]
      rw [List.take_append_of_le_length (le_of_eq hkl.symm)]
      exact List.take_of_length_le (le_of_eq hkl)
    have hblock : List.take ((pb + (W - pb) + i) % 2 ^ 64) (List.take pb pv ++ d) =
        List.take pb pv ++ List.take (W - pb + i) d := by
      rw [hnw, List.take_append_eq_append_take, hcl,
        List.take_of_length_le (l := List.take pb pv) (by omega)]
      congr 2
      omega
    refine ⟨d, d.take (W - pb + i), r3, hblock, ?_, ?_, hcl, ?_, by omega, ?_,
      fun _ => by rw [hidef]⟩
    · rw [hcarry, List.take_append_drop]
    · rw [hblock, hnw, List.length_append, hcl, List.length_take]
      omega
    · rw [hcarry, hkl]
    · intro hle
      omega
  · -- the whole delivery belongs to the block
    simp only [Except.ok.injEq, Prod.mk.injEq] at h
    obtain ⟨rfl, rfl, rfl⟩ := h
    have h64 : (2 : Int) ^ 64 = 18446744073709551616 := by norm_num
    have hle : d.length ≤ W - pb := by
      rw [h64] at hover
      omega
    have hto : ((d.length : Int)).toNat = d.length := Int.toNat_ofNat _
    dsimp only
    rw [hto] at hlt ⊢
    have hnw : (pb + d.length) % 2 ^ 64 = pb + d.length := by omega
    have hblock : List.take ((pb + d.length) % 2 ^ 64) (List.take pb pv ++ d) =
        List.take pb pv ++ d := by
      rw [hnw]
      apply List.take_of_length_le
      rw [List.length_append, hcl]
    refine ⟨d, d, r3, hblock, by simp, ?_, hcl, by simp, Nat.zero_le _, fun _ => rfl, ?_⟩
    · rw [hblock, hnw, List.length_append, hcl]
    · intro hlt'
      omega

theorem over_read_loop_first (r : List Nat) :
    (∃ a b, r = a ++ 10 :: b ∧ 10 ∉ a ∧ over_read_loop r = a.length + 1) ∨
      (10 ∉ r ∧ over_read_loop r = r.length) := by
  induction r with
  | nil => right; exact ⟨List.not_mem_nil _, rfl⟩
  | cons c r ih =>
    unfold over_read_loop
    by_cases hc : c = 10
    · left
      rw [if_pos hc]
      exact ⟨[], r, by rw [hc]; rfl, List.not_mem_nil _, rfl⟩
    · rw [if_neg hc]
      rcases ih with ⟨a, b, h1, h2, h3⟩ | ⟨h1, h2⟩
      · left
        refine ⟨c :: a, b, by rw [h1]; rfl, ?_, by rw [h3]; rfl⟩
        intro hm
        rcases List.mem_cons.mp hm with hm | hm
        · exact hc hm.symm
        · exact h2 hm
      · right
        refine ⟨?_, by rw [h2]; rfl⟩
        intro hm
        rcases List.mem_cons.mp hm with hm | hm
        · exact hc hm.symm
        · exact h1 hm

/-- C26. The carry never exceeds one page. For every state of a `gz_file_io`
with `prev_buf_bytes <= PAGE_SIZE` (as after the constructor, where it is 0)
and every call of `read_lines` with `wanted_bytes >= PAGE_SIZE` that returns:
after the call `prev_buf_bytes <= PAGE_SIZE` holds again, so it holds after
every call of every sequence of such calls; the carry has `prev_buf_bytes`
bytes; and when the carry left by the call is not empty, the block of the
call ends with `\n`. -/
theorem gz_carry_bound (PAGE_SIZE wanted_bytes : Nat) (io io' : gz_file_io)
    (block : List Nat) (n : Nat) (hpb : io.prev_buf_bytes ≤ PAGE_SIZE)
    (hPW : PAGE_SIZE ≤ wanted_bytes) (hW : wanted_bytes < 2 ^ 64)
    (h : gz_file_io.read_lines PAGE_SIZE io wanted_bytes = .ok (block, n, io')) :
    io'.prev_buf_bytes ≤ PAGE_SIZE ∧ io'.carry.length = io'.prev_buf_bytes ∧
      (io'.prev_buf_bytes ≠ 0 → block.getLast? = some 10) := by
  obtain ⟨d, p, _, h2, h3, _, _, h6, h7, h8, h9⟩ :=
    gz_read_lines_shape PAGE_SIZE wanted_bytes io io' block n hW (by omega) h
  refine ⟨h7, h6, ?_⟩
  intro hne
  have hlen := congrArg List.length h3
  rw [List.length_append, h6] at hlen
  have hlt : wanted_bytes - io.prev_buf_bytes < d.length := by
    by_contra hle
    have := h8 (by omega)
    rw [this] at hlen
    omega
  have hp := h9 hlt
  have hpl : p.length < d.length := by omega
  rw [hp, List.length_take] at hpl
  have hi : over_read_loop (d.drop (wanted_bytes - io.prev_buf_bytes)) <
      (d.drop (wanted_bytes - io.prev_buf_bytes)).length := by
    rw [List.length_drop]
    omega
  rcases over_read_loop_spec (d.drop (wanted_bytes - io.prev_buf_bytes)) with hs | ⟨hs, _⟩
  swap
  · omega
  have hne' : (d.drop (wanted_bytes - io.prev_buf_bytes)).take
      (over_read_loop (d.drop (wanted_bytes - io.prev_buf_bytes))) ≠ [] := by
    intro h0
    rw [h0] at hs
    simp at hs
  rw [h2, hp, List.take_add, ← List.append_assoc, getLast?_append_ne _ _ hne']
  exact hs

/-- C26, an instance: page size 4, the stream "aaa\nb\nccc\ndd\ne" read with
`wanted_bytes = 4`; the first call leaves the carry "cc" and returns the
block "aaa\nb\n". -/
theorem gz_carry_bound_witness :
    gz_file_io.read_lines 4 (gz_file_io.create 4 (str "aaa\nb\nccc\ndd\ne")) 4 =
      .ok (str "aaa\nb\n", 6, ⟨[99, 99, 0, 0], 2, ⟨str "c\ndd\ne", false⟩⟩) ∧
    ((⟨[99, 99, 0, 0], 2, ⟨str "c\ndd\ne", false⟩⟩ : gz_file_io).prev_buf_bytes ≤ 4 ∧
      (⟨[99, 99, 0, 0], 2, ⟨str "c\ndd\ne", false⟩⟩ : gz_file_io).carry.length =
        (⟨[99, 99, 0, 0], 2, ⟨str "c\ndd\ne", false⟩⟩ : gz_file_io).prev_buf_bytes ∧
      ((⟨[99, 99, 0, 0], 2, ⟨str "c\ndd\ne", false⟩⟩ : gz_file_io).prev_buf_bytes ≠ 0 →
        (str "aaa\nb\n").getLast? = some 10)) :=
  ⟨by decide, gz_carry_bound 4 4 (gz_file_io.create 4 (str "aaa\nb\nccc\ndd\ne")) _ _ 6
    (by decide) (by decide) (by decide) (by decide)⟩

theorem gz_read_calls_concat (P : Nat) :
    ∀ (ws : List Nat) (io : gz_file_io) (calls : List (List Nat × gz_file_io)),
      io.prev_buf_bytes ≤ P → (∀ w ∈ ws, P ≤ w ∧ w < 2 ^ 64) →
      gz_read_calls P io ws = .ok calls →
      (calls.map (fun c => c.1)).flatten ++
          (((calls.getLast?.map (fun c => c.2)).getD io).carry ++
            ((calls.getLast?.map (fun c => c.2)).getD io).f.data) =
        io.carry ++ io.f.data := by
  intro ws
  induction ws with
  | nil =>
    intro io calls _ _ h
    simp only [gz_read_calls, Except.ok.injEq] at h
    subst h
    simp
  | cons w ws ih =>
    intro io calls hpb hws h
    unfold gz_read_calls at h
    by_cases he : io.eof = true
    · rw [if_pos he] at h
      simp only [Except.ok.injEq] at h
      subst h
      simp
    · rw [if_neg he] at h
      cases hr : gz_file_io.read_lines P io w with
      | error e => rw [hr] at h; simp at h
      | ok r =>
        obtain ⟨block, n, io1⟩ := r
        rw [hr] at h
        dsimp only at h
        obtain ⟨hw1, hw2⟩ := hws w (List.mem_cons_self _ _)
        obtain ⟨d, p, h1, h2, h3, _, _, _, h7, _, _⟩ :=
          gz_read_lines_shape P w io io1 block n hw2 (by omega) hr
        cases hrest : gz_read_calls P io1 ws with
        | error e => rw [hrest] at h; simp at h
        | ok rest =>
          rw [hrest] at h
          simp only [Except.ok.injEq] at h
          subst h
          have hih := ih io1 rest h7 (fun w' hw' => hws w' (List.mem_cons_of_mem _ hw')) hrest
          have hlast : ((((block, io1) :: rest).getLast?.map (fun c => c.2)).getD io) =
              ((rest.getLast?.map (fun c => c.2)).getD io1) := by
            cases rest with
            | nil => rfl
            | cons x xs => rw [List.getLast?_cons_cons]; rfl
          rw [hlast, List.map_cons, List.flatten_cons, List.append_assoc, hih, h1, h2, h3]
          simp only [List.append_assoc]

/-- C25. For every call of `gz_file_io::read_lines` that returns, with a carry
`c` of `|c| <= PAGE_SIZE <= wanted_bytes` bytes, in which the decompressor
delivers the bytes `d`: the block is `c` followed by a prefix `p` of `d`, and
the new carry is the rest of `d`; `p` is all of `d` when
`|d| <= wanted_bytes - |c|`, and otherwise `p` ends with the first `\n` at
or after position `wanted_bytes - |c|` of `d`, and is all of `d` when there
is none. Hence, for every sequence of such calls on a stream `S`, the blocks
in call order followed by the current carry and the bytes not yet delivered
are `S`. -/
theorem gz_read_lines_block_carry (PAGE_SIZE : Nat) :
    (∀ (wanted_bytes : Nat) (io io' : gz_file_io) (block : List Nat) (n : Nat),
      io.prev_buf_bytes ≤ PAGE_SIZE → PAGE_SIZE ≤ wanted_bytes → wanted_bytes < 2 ^ 64 →
      gz_file_io.read_lines PAGE_SIZE io wanted_bytes = .ok (block, n, io') →
      ∃ d p : List Nat, io.f.data = d ++ io'.f.data ∧ io.carry.length = io.prev_buf_bytes ∧
        block = io.carry ++ p ∧ d = p ++ io'.carry ∧
        (d.length ≤ wanted_bytes - io.prev_buf_bytes → p = d) ∧
        (wanted_bytes - io.prev_buf_bytes < d.length →
          (∃ a b, d.drop (wanted_bytes - io.prev_buf_bytes) = a ++ 10 :: b ∧ 10 ∉ a ∧
              p = d.take (wanted_bytes - io.prev_buf_bytes) ++ a ++ [10]) ∨
            (10 ∉ d.drop (wanted_bytes - io.prev_buf_bytes) ∧ p = d))) ∧
    (∀ (S : List Nat) (ws : List Nat) (calls : List (List Nat × gz_file_io)),
      (∀ w ∈ ws, PAGE_SIZE ≤ w ∧ w < 2 ^ 64) →
      gz_read_calls PAGE_SIZE (gz_file_io.create PAGE_SIZE S) ws = .ok calls →
      (calls.map (fun c => c.1)).flatten ++
          (((calls.getLast?.map (fun c => c.2)).getD (gz_file_io.create PAGE_SIZE S)).carry ++
            ((calls.getLast?.map (fun c => c.2)).getD
              (gz_file_io.create PAGE_SIZE S)).f.data) = S) := by
  constructor
  · intro W io io' block n hpb hPW hW h
    obtain ⟨d, p, h1, h2, h3, _, h5, _, _, h8, h9⟩ :=
      gz_read_lines_shape PAGE_SIZE W io io' block n hW (by omega) h
    refine ⟨d, p, h1, h5, h2, h3, h8, ?_⟩
    intro hlt
    have hp := h9 hlt
    rcases over_read_loop_first (d.drop (W - io.prev_buf_bytes)) with
      ⟨a, b, e1, e2, e3⟩ | ⟨e1, e2⟩
    · left
      refine ⟨a, b, e1, e2, ?_⟩
      rw [hp, e3, List.take_add, e1, List.append_assoc]
      congr 1
      rw [List.take_append_eq_append_take, List.take_of_length_le (l := a) (by omega)]
      simp
    · right
      refine ⟨e1, ?_⟩
      rw [hp, e2, List.length_drop]
      apply List.take_of_length_le
      omega
  · intro S ws calls hws h
    have := gz_read_calls_concat PAGE_SIZE ws (gz_file_io.create PAGE_SIZE S) calls
      (Nat.zero_le _) hws h
    rw [this]
    simp [gz_file_io.create, gz_file_io.carry]

/-- C25, an instance: page size 4, the stream "aaa\nb\nccc\ndd\ne" and
`wanted_bytes = 4`. The second call has the carry "cc" and is delivered
"c\ndd\ne"; its block is "ccc\ndd\n" and its carry "e". The three blocks and
the empty carry at the end are the stream. -/
theorem gz_read_lines_block_carry_witness :
    gz_file_io.read_lines 4 ⟨[99, 99, 0, 0], 2, ⟨str "c\ndd\ne", false⟩⟩ 4 =
      .ok (str "ccc\ndd\n", 7, ⟨[101, 99, 0, 0], 1, ⟨[], false⟩⟩) ∧
    (∃ d p : List Nat, str "c\ndd\ne" = d ++ [] ∧
      (⟨[99, 99, 0, 0], 2, ⟨str "c\ndd\ne", false⟩⟩ : gz_file_io).carry.length = 2 ∧
      str "ccc\ndd\n" = (⟨[99, 99, 0, 0], 2, ⟨str "c\ndd\ne", false⟩⟩ : gz_file_io).carry ++ p ∧
      d = p ++ (⟨[101, 99, 0, 0], 1, ⟨[], false⟩⟩ : gz_file_io).carry ∧
      (d.length ≤ 4 - 2 → p = d) ∧
      (4 - 2 < d.length →
        (∃ a b, d.drop (4 - 2) = a ++ 10 :: b ∧ 10 ∉ a ∧ p = d.take (4 - 2) ++ a ++ [10]) ∨
          (10 ∉ d.drop (4 - 2) ∧ p = d))) ∧
    (gz_read_calls 4 (gz_file_io.create 4 (str "aaa\nb\nccc\ndd\ne")) [4, 4, 4]).map
        (fun calls => calls.map (fun c => c.1)) =
      .ok [str "aaa\nb\n", str "ccc\ndd\n", str "e"] ∧
    ∀ calls, gz_read_calls 4 (gz_file_io.create 4 (str "aaa\nb\nccc\ndd\ne")) [4, 4, 4] =
        .ok calls →
      (calls.map (fun c => c.1)).flatten ++
          (((calls.getLast?.map (fun c => c.2)).getD
              (gz_file_io.create 4 (str "aaa\nb\nccc\ndd\ne"))).carry ++
            ((calls.getLast?.map (fun c => c.2)).getD
              (gz_file_io.create 4 (str "aaa\nb\nccc\ndd\ne"))).f.data) =
        str "aaa\nb\nccc\ndd\ne" :=
  ⟨by decide,
    (gz_read_lines_block_carry 4).1 4 ⟨[99, 99, 0, 0], 2, ⟨str "c\ndd\ne", false⟩⟩
      ⟨[101, 99, 0, 0], 1, ⟨[], false⟩⟩ (str "ccc\ndd\n") 7 (by decide) (by decide) (by decide)
      (by decide),
    by decide,
    fun calls h => (gz_read_lines_block_carry 4).2 (str "aaa\nb\nccc\ndd\ne") [4, 4, 4] calls
      (by decide) h⟩

/-- C28: what the code does instead. On the block "\n" (`size = 1`, followed
by the zero sentinel) that lies in memory behind a byte `\r`, the loop of
`parse_lines` (with any fuel of at least one round) ends with the line "" and
has written a zero to the byte before the buffer: the test
`*(line_end - 1) == '\r'` reads that byte when `line_end` is the start of the
buffer, and the assignment that follows writes it. The buffer starts at index
`before.length + 1` of the memory. -/
theorem parse_lines_writes_before_buffer (before rest : List Nat) (fuel : Nat) :
    parse_lines_loop (before.length + 1) 1 (fuel + 1) (before ++ 13 :: 10 :: 0 :: rest)
        (before.length + 1) [] =
      .ok (before ++ 0 :: 0 :: 0 :: rest, before.length + 2, [[]]) := by
  have hmem : before ++ 13 :: 10 :: 0 :: rest = (before ++ [13]) ++ 10 :: 0 :: rest := by simp
  have hlen : (before ++ [13]).length = before.length + 1 := by simp
  have h1 : strchr (before ++ 13 :: 10 :: 0 :: rest) (before.length + 1) 10 =
      some (before.length + 1) := by
    unfold strchr
    rw [hmem, ← hlen, List.drop_left]
    simp [strchr_off]
  have h2 : (before ++ 13 :: 10 :: 0 :: rest).set (before.length + 1) 0 =
      before ++ 13 :: 0 :: 0 :: rest := by
    rw [hmem, ← hlen, set_at_length]
    simp
  have h3 : (before ++ 13 :: 0 :: 0 :: rest)[before.length]? = some 13 := get_at_length _ _ _
  have h4 : (before ++ 13 :: 0 :: 0 :: rest).set before.length 0 = before ++ 0 :: 0 :: 0 :: rest :=
    set_at_length _ _ _ _
  have h5 : string_at (before ++ 0 :: 0 :: 0 :: rest) (before.length + 1) = [] := by
    have e : before ++ 0 :: 0 :: 0 :: rest = (before ++ [0]) ++ 0 :: 0 :: rest := by simp
    have el : (before ++ [0]).length = before.length + 1 := by simp
    rw [e, ← el, string_at_append, c_str_zero]
  have h6 : strchr (before ++ 0 :: 0 :: 0 :: rest) (before.length + 1 + 1) 10 = none := by
    have e : before ++ 0 :: 0 :: 0 :: rest = (before ++ [0, 0]) ++ 0 :: rest := by simp
    have el : (before ++ [0, 0]).length = before.length + 1 + 1 := by simp
    unfold strchr
    rw [e, ← el, List.drop_left]
    simp [strchr_off]
  unfold parse_lines_loop
  rw [h1]
  dsimp only
  rw [if_neg (by omega), h2]
  simp only [Nat.add_sub_cancel, h3, Option.getD_some, if_true, h4, h5, List.nil_append]
  cases fuel with
  | zero => simp [parse_lines_loop]
  | succ fuel =>
    unfold parse_lines_loop
    rw [h6]

/-- C22: what the code does instead. When the reply queue of the origin (a
ring with `ret` free places) accepts only `ret` of the `k` replies staged in
`bytes`, `0 < ret < k`, the queue gets the first `ret` replies, the count of
the buffer becomes `k - ret`, and `memmove` moves `k - ret` bytes, not
`k - ret` replies, to the front: the buffer then begins with the first
`k - ret` bytes of the reply number `ret`, followed by the bytes that were at
the positions from `k - ret` on before. -/
theorem reply_partial_add {β : Type} (W B k ret : Nat) (s : reply_bufs β) (i : Nat)
    (bytes : List β) (thread : Nat) (hW : 0 < W) (hlen : bytes.length = B * W) (hk : k ≤ B)
    (hwf : (s.reply_queue thread).wf)
    (hfree : (s.reply_queue thread).size - (s.reply_queue thread).num_entries = (ret : Int))
    (h0 : 0 < ret) (h1 : ret < k) :
    ∃ q', reply_add W s i (k : Int) bytes thread =
        .ok (s.update i ((k : Int) - (ret : Int))
          ((bytes.drop (ret * W)).take (k - ret) ++ bytes.drop (k - ret)) thread q') ∧
      q'.records = (s.reply_queue thread).records ++
        ((io_replies W bytes).take ret).map some := by
  obtain ⟨hbuf, hstart, hlt, hne, hle⟩ := hwf
  generalize hq : s.reply_queue thread = q at hbuf hstart hlt hne hle hfree
  obtain ⟨buf, size, start, ne⟩ := q
  simp only at hbuf hstart hlt hne hle hfree
  lift size to ℕ using (by omega)
  lift start to ℕ using hstart
  lift ne to ℕ using hne
  have hel : (io_replies W bytes).length = B := by
    rw [io_replies_length, hlen, Nat.mul_div_cancel _ hW]
  obtain ⟨buf', e1, _, _, e4⟩ := bulk_queue_add_core buf (io_replies W bytes) size start ne k
    (by omega) (by omega) (by omega) (by omega)
  have hmin : min k (size - ne) = ret := by omega
  rw [hmin] at e1 e4
  refine ⟨_, ?_, e4⟩
  unfold reply_add
  rw [hq, e1]
  dsimp only
  rw [if_pos ⟨by omega, by omega⟩]
  have hc : ((k : Int) - (ret : Int)) = ((k - ret : Nat) : Int) := by omega
  have h2 : ret * W + (k - ret) ≤ B * W := by
    have a1 : k * W ≤ B * W := Nat.mul_le_mul_right W hk
    have a2 : (k - ret) * W = k * W - ret * W := Nat.sub_mul _ _ _
    have a3 : ret * W ≤ k * W := Nat.mul_le_mul_right W (le_of_lt h1)
    have a4 : k - ret ≤ (k - ret) * W := Nat.le_mul_of_pos_right _ hW
    omega
  unfold memmove_replies
  rw [hc]
  simp only [Int.toNat_ofNat]
  rw [if_neg (by omega)]

/-- C22, an instance: `BUF_SIZE = 2`, replies of 2 bytes, the buffer 0 holds
the replies `[(0,1),(0,2)]` and `[(0,5),(0,6)]`, and the reply queue has one
free place. The first reply is accepted; afterwards position 0 of the buffer
holds `[(0,5),(0,2)]`, which is not the reply `[(0,5),(0,6)]` that was not
accepted. The same happens inside a call of `reply`. -/
theorem reply_partial_add_witness :
    (∃ q', reply_add 2 two_bufs 0 2 [(0, 1), (0, 2), (0, 5), (0, 6)] 100 =
        .ok (two_bufs.update 0 ((2 : Int) - (1 : Int))
          ((([(0, 1), (0, 2), (0, 5), (0, 6)] : List (Int × Nat)).drop (1 * 2)).take (2 - 1) ++
            ([(0, 1), (0, 2), (0, 5), (0, 6)] : List (Int × Nat)).drop (2 - 1)) 100 q') ∧
      q'.records = (two_bufs.reply_queue 100).records ++
        ((io_replies 2 [(0, 1), (0, 2), (0, 5), (0, 6)]).take 1).map some) ∧
    (([(0, 1), (0, 2), (0, 5), (0, 6)] : List (Int × Nat)).drop (1 * 2)).take (2 - 1) ++
        ([(0, 1), (0, 2), (0, 5), (0, 6)] : List (Int × Nat)).drop (2 - 1) =
      [(0, 5), (0, 2), (0, 5), (0, 6)] ∧
    (io_replies 2 ([(0, 5), (0, 2), (0, 5), (0, 6)] : List (Int × Nat))).take 1 ≠
      ((io_replies 2 ([(0, 1), (0, 2), (0, 5), (0, 6)] : List (Int × Nat))).drop 1).take 1 ∧
    (reply 2 2 2 (fun (r : Nat) => r) two_idx two_id2thread two_bufs [100, 100]
        [[(0, 1), (0, 2)], [(0, 5), (0, 6)]] 2).map
      (fun r => (r.2.nreplies, r.2.thread_replies.map (io_replies 2))) =
      .ok ([1, 0], [[[(0, 5), (0, 2)], [(0, 5), (0, 6)]], [[(9, 0), (9, 0)], [(9, 0), (9, 0)]]]) :=
  ⟨reply_partial_add 2 2 2 1 two_bufs 0 [(0, 1), (0, 2), (0, 5), (0, 6)] 100 (by decide)
      (by decide) (by decide) ⟨by decide, by decide, by decide, by decide, by decide⟩
      (by decide) (by decide) (by decide),
    by decide, by decide, rfl⟩

theorem reply_flush_loop_oob {β : Type} (W : Nat) (id2thread : Int → Nat) (G : Nat)
    (s : reply_bufs β) (hs : s.nreplies = List.replicate G 0) :
    ∀ (cnt i : Nat), i ≤ G → G < i + cnt →
      reply_flush_loop W id2thread i cnt s = .error .out_of_bounds := by
  intro cnt
  induction cnt with
  | zero => intro i h1 h2; omega
  | succ cnt ih =>
    intro i h1 h2
    unfold reply_flush_loop
    by_cases hi : i < G
    · have h3 : reply_flush_one W id2thread s i = .ok s := by
        unfold reply_flush_one
        rw [hs, List.getElem?_replicate, if_pos hi]
        simp
      rw [h3]
      exact ih (i + 1) (by omega) (by omega)
    · have h3 : reply_flush_one W id2thread s i = .error .out_of_bounds := by
        unfold reply_flush_one
        rw [hs, List.getElem?_replicate, if_neg hi]
      rw [h3]

/-- C29: what the code does instead. `thread_init()` allocates `num_groups`
entries for `nreplies`, and the final loop of `reply` reads `nreplies[i]` for
every `i < nthreads`: for every configuration with
`nthreads > num_groups >= 1`, already the first call of `reply` after
`thread_init()`, with no replies at all, reads `nreplies[num_groups]`, which
is behind the end of the array. -/
theorem reply_nreplies_out_of_bounds {R β : Type} (W : Nat)
    (BUF_SIZE REPLY_QUEUE_SIZE nthreads num_groups : Int) (junk : β) (get_thread : R → Nat)
    (idx : Nat → Int) (id2thread : Int → Nat) (hg : 1 ≤ num_groups)
    (hn : num_groups < nthreads) :
    reply W BUF_SIZE nthreads get_thread idx id2thread
        (thread_init W BUF_SIZE REPLY_QUEUE_SIZE nthreads num_groups junk) [] [] 0 =
      .error .out_of_bounds := by
  unfold reply
  simp only [Int.toNat_zero, reply_loop]
  rw [reply_flush_loop_oob W id2thread num_groups.toNat _ rfl nthreads.toNat 0 (Nat.zero_le _)
    (by omega)]

/-- C29, an instance: 2 workers in 1 group. The call of `reply` without replies
stops at `nreplies[1]`, and so does a call with one reply for the worker with
`idx == 1`, in the first loop. -/
theorem reply_nreplies_out_of_bounds_witness :
    ((1 : Int) ≤ 1 ∧ (1 : Int) < 2) ∧
    (thread_init 2 2 1 2 1 ((9 : Int), 0)).nreplies.length = 1 ∧
    (thread_init 2 2 1 2 1 ((9 : Int), 0)).thread_replies.length = 2 ∧
    (reply 2 2 2 (fun (r : Nat) => r) two_idx two_id2thread
        (thread_init 2 2 1 2 1 ((9 : Int), 0)) [200] [[(1, 3), (1, 4)]] 1).map
      (fun r => r.1) = .error .out_of_bounds ∧
    reply 2 2 2 (fun (r : Nat) => r) two_idx two_id2thread
        (thread_init 2 2 1 2 1 ((9 : Int), 0)) [] [] 0 = .error .out_of_bounds :=
  ⟨by decide, by decide, by decide, rfl,
    reply_nreplies_out_of_bounds 2 2 1 2 1 ((9 : Int), 0) (fun (r : Nat) => r) two_idx
      two_id2thread (by decide) (by decide)⟩

theorem mod_add_inj (n base i j : Nat) (hi : i < j) (hj : j < n) :
    (base + i) % n ≠ (base + j) % n := by
  intro h
  have h1 : (base + j - (base + i)) % n = 0 :=
    Nat.sub_mod_eq_zero_of_mod_eq h.symm
  have h2 : base + j - (base + i) = j - i := by omega
  rw [h2] at h1
  have h3 := Nat.eq_zero_of_dvd_of_lt (Nat.dvd_of_mod_eq_zero h1) (by omega)
  omega
theorem send_added_refl {R : Type} (reqs : List R) (threads : List (Option (bulk_queue R)))
    (p a : Nat) (hwf : ∀ q ∈ threads, ∀ q', q = some q' → q'.wf) :
    send_added reqs threads threads p a a := by
  refine ⟨fun h => ⟨h, rfl⟩, fun q hq => ⟨q, hq, hwf _ (List.getElem?_mem hq) q rfl, ?_⟩⟩
  simp

theorem send_loop_spec {R : Type} (n base : Nat) (reqs : List R) :
    ∀ (cnt i : Nat) (threads : List (Option (bulk_queue R))) (off num : Nat),
      i + cnt = n → threads.length = n → off + num ≤ reqs.length →
      (∀ q ∈ threads, ∀ q', q = some q' → q'.wf) →
      ∃ (threads' : List (Option (bulk_queue R))) (s : Nat) (offs : Nat → Nat),
        send_loop (n : Int) (base : Int) reqs cnt (i : Int) threads (off : Int) (num : Int) =
          .ok (threads', (s : Int)) ∧
        threads'.length = n ∧ (∀ q ∈ threads', ∀ q', q = some q' → q'.wf) ∧
        offs i = off ∧ (∀ j, offs j ≤ offs (j + 1)) ∧ offs n = s ∧ s ≤ off + num ∧
        (∀ p, (∀ j, i ≤ j → j < n → (base + j) % n ≠ p) → threads'[p]? = threads[p]?) ∧
        ∀ j, i ≤ j → j < n →
          send_added reqs threads threads' ((base + j) % n) (offs j) (offs (j + 1)) := by
  intro cnt
  induction cnt with
  | zero =>
    intro i threads off num hi hlen hoff hwf
    refine ⟨threads, off, fun _ => off, rfl, hlen, hwf, rfl, fun _ => le_refl _, rfl,
      Nat.le_add_right _ _, fun _ _ => rfl, ?_⟩
    intro j h1 h2
    omega
  | succ cnt ih =>
    intro i threads off num hi hlen hoff hwf
    have hin : i < n := by omega
    have hnpos : 0 < n := by omega
    -- what a round that adds nothing gives
    have skip : send_loop (n : Int) (base : Int) reqs cnt ((i : Int) + 1) threads (off : Int)
          (num : Int) =
        send_loop (n : Int) (base : Int) reqs cnt ((i + 1 : Nat) : Int) threads (off : Int)
          (num : Int) := by
      push_cast; rfl
    have hskip : (threads[(base + i) % n]? = some none ∨
          ∃ q, threads[(base + i) % n]? = some (some q)) →
        ∃ (threads' : List (Option (bulk_queue R))) (s : Nat) (offs : Nat → Nat),
          send_loop (n : Int) (base : Int) reqs cnt ((i : Int) + 1) threads (off : Int)
              (num : Int) = .ok (threads', (s : Int)) ∧
          threads'.length = n ∧ (∀ q ∈ threads', ∀ q', q = some q' → q'.wf) ∧
          offs i = off ∧ (∀ j, offs j ≤ offs (j + 1)) ∧ offs n = s ∧ s ≤ off + num ∧
          (∀ p, (∀ j, i ≤ j → j < n → (base + j) % n ≠ p) → threads'[p]? = threads[p]?) ∧
          ∀ j, i ≤ j → j < n →
            send_added reqs threads threads' ((base + j) % n) (offs j) (offs (j + 1)) := by
      intro _
      obtain ⟨threads', s, offs, e1, e2, e3, e4, e5, e6, e7, e8, e9⟩ :=
        ih (i + 1) threads off num (by omega) hlen hoff hwf
      refine ⟨threads', s, fun j => if j ≤ i then off else offs j, by rw [skip]; exact e1, e2,
        e3, by simp, ?_, ?_, e7, ?_, ?_⟩
      · intro j
        dsimp only
        by_cases h1 : j + 1 ≤ i
        · rw [if_pos (by omega), if_pos h1]
        · by_cases h2 : j ≤ i
          · rw [if_pos h2, if_neg h1]
            have : j + 1 = i + 1 := by omega
            rw [this, e4]
          · rw [if_neg h2, if_neg h1]
            exact e5 j
      · dsimp only
        rw [if_neg (by omega)]
        exact e6
      · intro p hp
        exact e8 p (fun j h1 h2 => hp j (by omega) h2)
      · intro j h1 h2
        dsimp only
        by_cases hji : j = i
        · subst hji
          rw [if_pos (le_refl _), if_neg (by omega), e4]
          have hsame : threads'[(base + j) % n]? = threads[(base + j) % n]? :=
            e8 _ (fun j' h1' h2' => (mod_add_inj n base j j' (by omega) h2').symm)
          refine ⟨fun h => ⟨by rw [hsame]; exact h, rfl⟩, fun q hq => ⟨q, by rw [hsame]; exact hq,
            hwf _ (List.getElem?_mem hq) q rfl, by simp⟩⟩
        · rw [if_neg (by omega), if_neg (by omega)]
          exact e9 j (by omega) h2
    unfold send_loop
    by_cases hnum : num = 0
    · subst hnum
      rw [if_pos (by simp)]
      refine ⟨threads, off, fun _ => off, rfl, hlen, hwf, rfl, fun _ => le_refl _, rfl,
        Nat.le_add_right _ _, fun _ _ => rfl, ?_⟩
      intro j _ _
      exact send_added_refl reqs threads _ off hwf
    rw [if_neg (by
      rw [not_not]
      exact ⟨by omega, by exact_mod_cast hin⟩)]
    have hslot : ((base : Int) + (i : Int)).tmod (n : Int) = (((base + i) % n : Nat) : Int) := by
      rw [← tmod_natCast]; norm_cast
    rw [hslot]
    have hlt : (base + i) % n < threads.length := by
      rw [hlen]; exact Nat.mod_lt _ hnpos
    have hidx : int_index threads (((base + i) % n : Nat) : Int) = threads[(base + i) % n]? := by
      unfold int_index
      rw [if_neg (by omega), Int.toNat_ofNat]
    rw [hidx]
    cases hx : threads[(base + i) % n]? with
    | none =>
      rw [List.getElem?_eq_none_iff] at hx
      omega
    | some x =>
      cases x with
      | none =>
        dsimp only
        exact hskip (Or.inl hx)
      | some q =>
        dsimp only
        by_cases hfull : q.is_full = true
        · rw [if_neg (not_not.mpr hfull)]
          exact hskip (Or.inr ⟨q, hx⟩)
        rw [if_pos hfull]
        have hqwf : q.wf := hwf _ (List.getElem?_mem hx) q rfl
        have hat : reqs_at reqs (off : Int) = reqs.drop off := by
          unfold reqs_at
          rw [if_neg (by omega), Int.toNat_ofNat]
        obtain ⟨m, q1, a1, a2, a3, a4⟩ := bulk_queue_add_wf q (reqs_at reqs (off : Int))
          (num : Int) hqwf (by omega) (by
            rw [hat, List.length_drop]
            exact_mod_cast (show num ≤ reqs.length - off by omega))
        have hm : m ≤ num := by exact_mod_cast a2
        rw [a1]
        dsimp only
        rw [Int.toNat_ofNat]
        have hcast : send_loop (n : Int) (base : Int) reqs cnt ((i : Int) + 1)
              (threads.set ((base + i) % n) (some q1)) ((off : Int) + (m : Int))
              ((num : Int) - (m : Int)) =
            send_loop (n : Int) (base : Int) reqs cnt ((i + 1 : Nat) : Int)
              (threads.set ((base + i) % n) (some q1)) ((off + m : Nat) : Int)
              ((num - m : Nat) : Int) := by
          have c1 : ((num : Int) - (m : Int)) = ((num - m : Nat) : Int) := by omega
          rw [c1]
          push_cast
          rfl
        rw [hcast]
        have hwf1 : ∀ x ∈ threads.set ((base + i) % n) (some q1), ∀ q', x = some q' → q'.wf := by
          intro x hx1 q' hq'
          rcases List.mem_or_eq_of_mem_set hx1 with h | h
          · exact hwf x h q' hq'
          · rw [hq'] at h
            simp only [Option.some.injEq] at h
            rw [h]; exact a3
        obtain ⟨threads', s, offs, e1, e2, e3, e4, e5, e6, e7, e8, e9⟩ :=
          ih (i + 1) (threads.set ((base + i) % n) (some q1)) (off + m) (num - m) (by omega)
            (by rw [List.length_set]; exact hlen) (by omega) hwf1
        have hother : ∀ p, p ≠ (base + i) % n →
            (threads.set ((base + i) % n) (some q1))[p]? = threads[p]? := by
          intro p hp
          rw [List.getElem?_set, if_neg (fun h => hp h.symm)]
        refine ⟨threads', s, fun j => if j ≤ i then off else offs j, e1, e2, e3, by simp, ?_, ?_,
          by omega, ?_, ?_⟩
        · intro j
          dsimp only
          by_cases h1 : j + 1 ≤ i
          · rw [if_pos (by omega), if_pos h1]
          · by_cases h2 : j ≤ i
            · rw [if_pos h2, if_neg h1]
              have : j + 1 = i + 1 := by omega
              rw [this, e4]
              omega
            · rw [if_neg h2, if_neg h1]
              exact e5 j
        · dsimp only
          rw [if_neg (by omega)]
          exact e6
        · intro p hp
          rw [e8 p (fun j h1 h2 => hp j (by omega) h2)]
          exact hother p (fun h => hp i (le_refl _) hin h.symm)
        · intro j h1 h2
          dsimp only
          by_cases hji : j = i
          · subst hji
            rw [if_pos (le_refl _), if_neg (by omega), e4]
            have hsame : threads'[(base + j) % n]? = some (some q1) := by
              rw [e8 _ (fun j' h1' h2' => (mod_add_inj n base j j' (by omega) h2').symm),
                List.getElem?_set, if_pos rfl, if_pos hlt]
            refine ⟨fun h => ?_, fun q0 hq0 => ⟨q1, hsame, a3, ?_⟩⟩
            · rw [hx] at h
              simp at h
            · rw [hx] at hq0
              simp only [Option.some.injEq] at hq0
              subst hq0
              rw [a4, hat]
              have : off + m - off = m := by omega
              rw [this]
          · rw [if_neg (by omega), if_neg (by omega)]
            have hne : (base + j) % n ≠ (base + i) % n :=
              (mod_add_inj n base i j (by omega) h2).symm
            have := e9 j (by omega) h2
            unfold send_added at this ⊢
            rw [hother _ hne] at this
            exact this
/-- C24. For every call `send(node_id, reqs, num)` with `0 <= num` requests at
`reqs`, on a group of `nthreads >= 1` entries whose workers have request
queues with `0 <= num_entries <= size` (and `thread_idx >= 0`,
`random() >= 0`): the call returns `reqs + s` with `0 <= s <= num`. The loop
visits the entries `(base + i) % nthreads`, `i = 0, 1, ...`; there are offsets
`0 = offs 0 <= offs 1 <= ... <= offs nthreads = s` such that the worker
visited in round `i` got exactly `reqs[offs i .. offs (i+1))` added to its
request queue, in order, and a null entry got nothing. So every request of
`reqs[0..s)` is added to exactly one queue, and `reqs[s..num)` to none. -/
theorem send_spec {R : Type} (group : thread_group R) (own : Bool) (thread_idx random : Int)
    (reqs : List R) (num : Int) (hn : (group.threads.length : Int) = group.nthreads)
    (hpos : 0 < group.nthreads) (hidx : 0 ≤ thread_idx) (hrand : 0 ≤ random)
    (hnum0 : 0 ≤ num) (hnum : num ≤ reqs.length)
    (hwf : ∀ q ∈ group.threads, ∀ q', q = some q' → q'.wf) :
    ∃ (s base : Nat) (group' : thread_group R) (offs : Nat → Nat),
      send group own thread_idx random reqs num = .ok ((s : Int), group') ∧
      (s : Int) ≤ num ∧ group'.nthreads = group.nthreads ∧
      group'.threads.length = group.threads.length ∧
      offs 0 = 0 ∧ (∀ j, offs j ≤ offs (j + 1)) ∧ offs group.threads.length = s ∧
      ∀ j, j < group.threads.length →
        send_added reqs group.threads group'.threads ((base + j) % group.threads.length)
          (offs j) (offs (j + 1)) := by
  obtain ⟨nthreads, threads⟩ := group
  simp only at hn hpos hwf ⊢
  subst hn
  lift num to ℕ using hnum0
  have hb : ∃ base : Nat, (if own = true then (Except.ok thread_idx : Except fault Int)
      else if (threads.length : Int) = 0 then .error .div_by_zero
      else .ok (random.tmod (threads.length : Int))) = .ok (base : Int) := by
    by_cases ho : own = true
    · lift thread_idx to ℕ using hidx
      exact ⟨thread_idx, by rw [if_pos ho]⟩
    · lift random to ℕ using hrand
      refine ⟨random % threads.length, ?_⟩
      rw [if_neg ho, if_neg (by omega), tmod_natCast]
  obtain ⟨base, hbase⟩ := hb
  obtain ⟨threads', s, offs, e1, e2, _, e4, e5, e6, e7, _, e9⟩ :=
    send_loop_spec threads.length base reqs threads.length 0 threads 0 num (by omega) rfl
      (by
        have : num ≤ reqs.length := by exact_mod_cast hnum
        omega) hwf
  refine ⟨s, base, ⟨(threads.length : Int), threads'⟩, offs, ?_, by
    have : s ≤ 0 + num := e7
    omega, rfl, e2, e4, e5, e6, fun j hj => e9 j (Nat.zero_le _) hj⟩
  unfold send
  dsimp only
  rw [hbase]
  dsimp only
  rw [Int.toNat_ofNat]
  have e1' : send_loop (threads.length : Int) (base : Int) reqs threads.length 0 threads 0
      (num : Int) = .ok (threads', (s : Int)) := by
    have := e1
    simpa using this
  rw [e1']

/-- C24, an instance: the worker with `thread_idx == 2` sends 4 of the
requests 11, 12, 13, 14 to its own group. The third worker takes 11 and 12,
the first worker takes 13, the null entry is passed over, and the result is
`reqs + 3`. -/
theorem send_spec_witness :
    send three_group true 2 0 [11, 12, 13, 14, 15] 4 =
      .ok (3, ⟨3, [some ⟨[7, 13], 2, 0, 2⟩, none, some ⟨[11, 12], 2, 0, 2⟩]⟩) ∧
    ∃ (s base : Nat) (group' : thread_group Nat) (offs : Nat → Nat),
      send three_group true 2 0 [11, 12, 13, 14, 15] 4 = .ok ((s : Int), group') ∧
      (s : Int) ≤ 4 ∧ group'.nthreads = three_group.nthreads ∧
      group'.threads.length = three_group.threads.length ∧
      offs 0 = 0 ∧ (∀ j, offs j ≤ offs (j + 1)) ∧ offs three_group.threads.length = s ∧
      ∀ j, j < three_group.threads.length →
        send_added [11, 12, 13, 14, 15] three_group.threads group'.threads
          ((base + j) % three_group.threads.length) (offs j) (offs (j + 1)) :=
  ⟨by decide,
    send_spec three_group true 2 0 [11, 12, 13, 14, 15] 4 (by decide) (by decide) (by decide)
      (by decide) (by decide) (by decide) (by
        intro q hq q' hq'
        have h : q = some ⟨[7, 0], 2, 0, 1⟩ ∨ q = none ∨ q = some ⟨[0, 0], 2, 0, 0⟩ := by
          simpa [three_group] using hq
        rcases h with h | h | h
        · rw [h] at hq'
          simp only [Option.some.injEq] at hq'
          subst hq'
          exact ⟨by decide, by decide, by decide, by decide, by decide⟩
        · rw [h] at hq'
          cases hq'
        · rw [h] at hq'
          simp only [Option.some.injEq] at hq'
          subst hq'
          exact ⟨by decide, by decide, by decide, by decide, by decide⟩)⟩

theorem holds_pending_set {R : Type} (B G : Nat) (s : req_bufs R) (p : List (List R)) (g n : Nat)
    (buf : List R) (h : holds_pending B G s p) (hn : n ≤ B) (hbuf : buf.length = B) :
    holds_pending B G ⟨s.nreqs.set g (n : Int), s.thread_reqs.set g buf⟩
      (p.set g (buf.take n)) := by
  obtain ⟨h1, h2, h3, h4⟩ := h
  refine ⟨by simp [h1], by simp [h2], by simp [h3], ?_⟩
  intro g' hg'
  by_cases hgg : g = g'
  · subst hgg
    refine ⟨n, buf, ?_, ?_, hn, hbuf, ?_⟩
    · simp only [List.getElem?_set, if_true, h1, hg']
    · simp only [List.getElem?_set, if_true, h2, hg']
    · simp only [List.getElem?_set, if_true, h3, hg']
  · obtain ⟨n', buf', a1, a2, a3, a4, a5⟩ := h4 g' hg'
    refine ⟨n', buf', ?_, ?_, a3, a4, ?_⟩
    · simp only [List.getElem?_set, if_neg hgg]; exact a1
    · simp only [List.getElem?_set, if_neg hgg]; exact a2
    · simp only [List.getElem?_set, if_neg hgg]; exact a5

theorem distribute_send_spec {R σ : Type} (send : σ → Int → List R → Int → Int × σ)
    (hs : ∀ w g l k, 0 ≤ k → 0 ≤ (send w g l k).1 ∧ (send w g l k).1 ≤ k) (B G : Nat)
    (s : req_bufs R) (p : List (List R)) (w : σ) (g k : Nat) (buf : List R) (hg : g < G)
    (hk : k ≤ B) (hbuf : buf.length = B) (h : holds_pending B G s p) :
    ∃ s', distribute_send send w s g (k : Int) buf =
        .ok (s', (pending_send send w (p.set g (buf.take k)) g).2) ∧
      holds_pending B G s' (pending_send send w (p.set g (buf.take k)) g).1 := by
  have hpl : g < p.length := by rw [h.2.2.1]; exact hg
  have hl : (p.set g (buf.take k))[g]?.getD [] = buf.take k := by
    simp only [List.getElem?_set, if_true, hpl, Option.getD_some]
  have hll : (buf.take k).length = k := by
    rw [List.length_take]; omega
  unfold pending_send distribute_send
  simp only [hl, hll, Int.toNat_ofNat]
  obtain ⟨r0, r1⟩ := hs w (g : Int) (buf.take k) (k : Int) (by omega)
  generalize send w (g : Int) (buf.take k) (k : Int) = res at r0 r1
  obtain ⟨rem, w'⟩ := res
  simp only at r0 r1 ⊢
  lift rem to ℕ using r0
  have hrk : rem ≤ k := by exact_mod_cast r1
  have hc : ((k : Int) - (rem : Int)) = ((k - rem : Nat) : Int) := by omega
  rw [List.set_set, hc, Int.toNat_ofNat]
  by_cases hcond : (rem : Int) ≠ 0 ∧ (rem : Int) ≠ (k : Int)
  · rw [if_pos hcond]
    unfold memmove_reqs
    simp only [Int.toNat_ofNat]
    rw [if_neg (by omega)]
    refine ⟨_, rfl, ?_⟩
    have hlen2 : ((buf.drop rem).take (k - rem) ++ buf.drop (k - rem)).length = B := by
      rw [List.length_append, List.length_take, List.length_drop, List.length_drop]
      omega
    have htake : ((buf.drop rem).take (k - rem) ++ buf.drop (k - rem)).take (k - rem) =
        (buf.take k).drop rem := by
      have e1 : ((buf.drop rem).take (k - rem)).length = k - rem := by
        rw [List.length_take, List.length_drop]; omega
      rw [List.take_append_of_le_length (le_of_eq e1.symm),
        List.take_of_length_le (le_of_eq e1), List.drop_take]
    rw [← htake]
    exact holds_pending_set B G s p g (k - rem) _ h (by omega) hlen2
  · rw [if_neg hcond]
    refine ⟨_, rfl, ?_⟩
    have htake : buf.take (k - rem) = (buf.take k).drop rem := by
      by_cases h0 : rem = 0
      · subst h0; simp
      · have hk' : rem = k := by
          by_contra hne
          exact hcond ⟨by omega, by omega⟩
        subst hk'
        simp
    rw [← htake]
    exact holds_pending_set B G s p g (k - rem) buf h (by omega) hbuf
theorem set_same_getElem? {α : Type} (l : List α) (i : Nat) (x : α) (h : l[i]? = some x) :
    l.set i x = l := by
  apply List.ext_getElem?
  intro j
  rw [List.getElem?_set]
  by_cases hij : i = j
  · subst hij
    rw [if_pos rfl]
    have hlt : i < l.length := by
      by_contra hge
      rw [List.getElem?_eq_none_iff.mpr (by omega)] at h
      cases h
    rw [if_pos hlt, h]
  · rw [if_neg hij]

theorem distribute_one_spec {R σ : Type} (send : σ → Int → List R → Int → Int × σ)
    (hs : ∀ w g l k, 0 ≤ k → 0 ≤ (send w g l k).1 ∧ (send w g l k).1 ≤ k) (B G : Nat)
    (hash_req : R → Int) (s : req_bufs R) (p : List (List R)) (w : σ) (request : R)
    (h0 : 0 ≤ hash_req request) (h1 : hash_req request < (G : Int))
    (h : holds_pending B G s p) :
    ∃ s', distribute_one (B : Int) (G : Int) hash_req send s w request =
        .ok (s', (pending_one B hash_req send (p, w) request).2) ∧
      holds_pending B G s' (pending_one B hash_req send (p, w) request).1 := by
  unfold distribute_one pending_one
  dsimp only
  generalize hg : hash_req request = gi at h0 h1
  lift gi to ℕ using h0
  have hgG : gi < G := by exact_mod_cast h1
  obtain ⟨n, buf, a1, a2, a3, a4, a5⟩ := h.2.2.2 gi hgG
  have hi1 : int_index s.nreqs (gi : Int) = some (n : Int) := by
    unfold int_index
    rw [if_neg (by omega), Int.toNat_ofNat]
    exact a1
  have hi2 : int_index s.thread_reqs (gi : Int) = some buf := by
    unfold int_index
    rw [if_neg (by omega), Int.toNat_ofNat]
    exact a2
  have hl : p[gi]?.getD [] = buf.take n := by rw [a5]; rfl
  have hll : (buf.take n).length = n := by rw [List.length_take]; omega
  rw [if_neg (by omega), hi1]
  simp only [Int.toNat_ofNat, hl, hll]
  by_cases hfull : n = B
  · rw [if_pos (by exact_mod_cast hfull), if_pos hfull]
    exact ⟨s, rfl, h⟩
  rw [if_neg (by exact_mod_cast hfull), if_neg hfull, hi2]
  dsimp only
  rw [if_neg (by omega)]
  have hts : (buf.set n request).take (n + 1) = buf.take n ++ [request] :=
    take_set_succ buf n request (by omega)
  have hlen1 : (buf.set n request).length = B := by rw [List.length_set]; exact a4
  by_cases hB : n + 1 = B
  · rw [if_pos (by exact_mod_cast hB), if_pos hB]
    have := distribute_send_spec send hs B G s p w gi B (buf.set n request) hgG (le_refl _)
      hlen1 h
    rw [← hB] at this
    rw [hts] at this
    have hcast : (((n + 1 : Nat) : Int)) = (B : Int) := by exact_mod_cast hB
    rw [← hB]
    exact this
  · rw [if_neg (by
      intro hc
      apply hB
      exact_mod_cast hc), if_neg hB]
    refine ⟨_, rfl, ?_⟩
    rw [← hts]
    have := holds_pending_set B G s p gi (n + 1) (buf.set n request) h (by omega) hlen1
    exact_mod_cast this
theorem getD_set {α : Type} (l : List (List α)) (g g' : Nat) (x : List α) :
    (l.set g x)[g']?.getD [] = if g = g' ∧ g < l.length then x else l[g']?.getD [] := by
  rw [List.getElem?_set]
  by_cases h : g = g'
  · subst h
    by_cases h2 : g < l.length
    · rw [if_pos rfl, if_pos h2, if_pos ⟨rfl, h2⟩]; rfl
    · rw [if_pos rfl, if_neg h2, if_neg (fun hc => h2 hc.2),
        List.getElem?_eq_none_iff.mpr (by omega)]
  · rw [if_neg h, if_neg (fun hc => h hc.1)]

theorem pending_send_sublist {R σ : Type} (send : σ → Int → List R → Int → Int × σ) (w : σ)
    (cur : List (List R)) (g g' : Nat) :
    ((pending_send send w cur g).1[g']?.getD []).Sublist (cur[g']?.getD []) := by
  unfold pending_send
  dsimp only
  rw [getD_set]
  split_ifs with h
  · rw [← h.1]
    exact List.drop_sublist _ _
  · exact List.Sublist.refl _

theorem pending_one_sublist {R σ : Type} (B : Nat) (hash_req : R → Int)
    (send : σ → Int → List R → Int → Int × σ) (st : List (List R) × σ) (request : R)
    (g' : Nat) :
    ((pending_one B hash_req send st request).1[g']?.getD []).Sublist
      (st.1[g']?.getD [] ++
        (if (hash_req request).toNat = g' then [request] else [])) := by
  have hstep : ((st.1.set (hash_req request).toNat
        (st.1[(hash_req request).toNat]?.getD [] ++ [request]))[g']?.getD []).Sublist
      (st.1[g']?.getD [] ++ (if (hash_req request).toNat = g' then [request] else [])) := by
    rw [getD_set]
    split_ifs with h1 h2 h2
    · rw [← h1.1]
    · exact absurd h1.1 h2
    · exact List.sublist_append_left _ _
    · rw [List.append_nil]
  have hleft : (st.1[g']?.getD []).Sublist
      (st.1[g']?.getD [] ++ (if (hash_req request).toNat = g' then [request] else [])) :=
    List.sublist_append_left _ _
  generalize (st.1[g']?.getD [] ++
    (if (hash_req request).toNat = g' then [request] else [])) = rhs at hstep hleft ⊢
  unfold pending_one
  dsimp only
  split_ifs with h1 h2
  · exact hleft
  · exact (pending_send_sublist send st.2 _ _ g').trans hstep
  · exact hstep

theorem pending_foldl_sublist {R σ : Type} (B : Nat) (hash_req : R → Int)
    (send : σ → Int → List R → Int → Int × σ) (g' : Nat) :
    ∀ (xs : List R) (st : List (List R) × σ),
      ((xs.foldl (pending_one B hash_req send) st).1[g']?.getD []).Sublist
        (st.1[g']?.getD [] ++ xs.filter (fun r => decide ((hash_req r).toNat = g'))) := by
  intro xs
  induction xs with
  | nil => intro st; simp
  | cons x xs ih =>
    intro st
    rw [List.foldl_cons]
    refine (ih _).trans ?_
    have h1 := pending_one_sublist B hash_req send st x g'
    rw [List.filter_cons]
    by_cases hx : (hash_req x).toNat = g'
    · rw [if_pos hx] at h1
      rw [if_pos (by simpa using hx)]
      have := h1.append (List.Sublist.refl
        (xs.filter (fun r => decide ((hash_req r).toNat = g'))))
      simpa using this
    · rw [if_neg hx, List.append_nil] at h1
      rw [if_neg (by simpa using hx)]
      exact h1.append (List.Sublist.refl _)

theorem pending_flush_sublist {R σ : Type} (send : σ → Int → List R → Int → Int × σ)
    (g' : Nat) :
    ∀ (cnt g : Nat) (st : List (List R) × σ),
      ((pending_flush send g cnt st).1[g']?.getD []).Sublist (st.1[g']?.getD []) := by
  intro cnt
  induction cnt with
  | zero => intro g st; exact List.Sublist.refl _
  | succ cnt ih =>
    intro g st
    unfold pending_flush
    refine (ih (g + 1) _).trans ?_
    split_ifs
    · exact pending_send_sublist send st.2 st.1 g g'
    · exact List.Sublist.refl _

theorem pending_after_sublist {R σ : Type} (BUF_SIZE num_groups : Nat) (hash_req : R → Int)
    (send : σ → Int → List R → Int → Int × σ) (pending : List (List R)) (w : σ)
    (requests : List R) (num g : Nat) :
    ((pending_after BUF_SIZE num_groups hash_req send pending w requests num).1[g]?.getD
        []).Sublist
      (pending[g]?.getD [] ++
        (requests.take num).filter (fun r => decide ((hash_req r).toNat = g))) := by
  unfold pending_after
  exact (pending_flush_sublist send g num_groups 0 _).trans
    (pending_foldl_sublist BUF_SIZE hash_req send g (requests.take num) (pending, w))
theorem distribute_loop_spec {R σ : Type} (send : σ → Int → List R → Int → Int × σ)
    (hs : ∀ w g l k, 0 ≤ k → 0 ≤ (send w g l k).1 ∧ (send w g l k).1 ≤ k) (B G : Nat)
    (hash_req : R → Int) (requests : List R)
    (hh : ∀ r ∈ requests, 0 ≤ hash_req r ∧ hash_req r < (G : Int)) :
    ∀ (cnt i : Nat) (s : req_bufs R) (p : List (List R)) (w : σ),
      i + cnt ≤ requests.length → holds_pending B G s p →
      ∃ s', distribute_loop (B : Int) (G : Int) hash_req send requests i cnt s w =
          .ok (s', (((requests.drop i).take cnt).foldl (pending_one B hash_req send) (p, w)).2) ∧
        holds_pending B G s'
          (((requests.drop i).take cnt).foldl (pending_one B hash_req send) (p, w)).1 := by
  intro cnt
  induction cnt with
  | zero =>
    intro i s p w _ h
    exact ⟨s, rfl, by simpa using h⟩
  | succ cnt ih =>
    intro i s p w hi h
    have hlt : i < requests.length := by omega
    have hd : requests.drop i = requests[i] :: requests.drop (i + 1) :=
      List.drop_eq_getElem_cons hlt
    obtain ⟨hr0, hr1⟩ := hh requests[i] (List.getElem_mem _)
    obtain ⟨s1, e1, e2⟩ := distribute_one_spec send hs B G hash_req s p w requests[i] hr0 hr1 h
    obtain ⟨s2, e3, e4⟩ := ih (i + 1) s1 (pending_one B hash_req send (p, w) requests[i]).1
      (pending_one B hash_req send (p, w) requests[i]).2 (by omega) e2
    refine ⟨s2, ?_, ?_⟩
    · unfold distribute_loop
      rw [List.getElem?_eq_getElem hlt]
      dsimp only
      rw [e1]
      dsimp only
      rw [e3, hd, List.take_succ_cons, List.foldl_cons]
    · rw [hd, List.take_succ_cons, List.foldl_cons]
      exact e4

theorem distribute_flush_loop_spec {R σ : Type} (send : σ → Int → List R → Int → Int × σ)
    (hs : ∀ w g l k, 0 ≤ k → 0 ≤ (send w g l k).1 ∧ (send w g l k).1 ≤ k) (B G : Nat) :
    ∀ (cnt i : Nat) (s : req_bufs R) (p : List (List R)) (w : σ),
      i + cnt ≤ G → holds_pending B G s p →
      ∃ s', distribute_flush_loop send i cnt s w =
          .ok (s', (pending_flush send i cnt (p, w)).2) ∧
        holds_pending B G s' (pending_flush send i cnt (p, w)).1 := by
  intro cnt
  induction cnt with
  | zero =>
    intro i s p w _ h
    exact ⟨s, rfl, h⟩
  | succ cnt ih =>
    intro i s p w hi h
    obtain ⟨n, buf, a1, a2, a3, a4, a5⟩ := h.2.2.2 i (by omega)
    have hl : p[i]?.getD [] = buf.take n := by rw [a5]; rfl
    have hll : (buf.take n).length = n := by rw [List.length_take]; omega
    unfold distribute_flush_loop pending_flush
    rw [a1]
    simp only [hl, hll]
    by_cases hn : 0 < n
    · rw [if_pos (by exact_mod_cast hn), if_pos hn, a2]
      dsimp only
      obtain ⟨s1, e1, e2⟩ := distribute_send_spec send hs B G s p w i n buf (by omega) a3 a4 h
      rw [set_same_getElem? p i _ a5] at e1 e2
      rw [e1]
      dsimp only
      exact ih (i + 1) s1 _ _ (by omega) e2
    · rw [if_neg (by
        intro hc
        apply hn
        exact_mod_cast hc), if_neg hn]
      exact ih (i + 1) s p w (by omega) h

/-- C23. For every input of `distribute_reqs(requests, num)` (every request
hashed to a group in `[0, num_groups)`, buffers of `BUF_SIZE` places that hold
the lists `pending` of the requests still waiting from before) and every
outcome of the `send` calls (an offset in `[0, k]` for a send of `k`
requests): the call returns, and afterwards the buffers hold the lists that
the claim describes, `pending_after`: every request is put behind the requests
waiting for its group, unless `BUF_SIZE` requests wait there already, in which
case it is dropped; the requests that a send accepts leave the list; so for
every group `g` the positions `[0, nreqs[g])` hold the requests that were
neither accepted nor dropped, in their order, and `0 <= nreqs[g] <= BUF_SIZE`.
The `send` calls are the same, with the same requests, as in the claim's
view; and the list of a group is a part, in the same order, of the requests
that waited for it before followed by the requests of this call that are
hashed to it. -/
theorem distribute_reqs_spec {R σ : Type} (send : σ → Int → List R → Int → Int × σ)
    (BUF_SIZE num_groups : Nat) (hash_req : R → Int) (s : req_bufs R)
    (pending : List (List R)) (w : σ) (requests : List R) (num : Nat)
    (hs : ∀ w g l k, 0 ≤ k → 0 ≤ (send w g l k).1 ∧ (send w g l k).1 ≤ k)
    (hh : ∀ r ∈ requests, 0 ≤ hash_req r ∧ hash_req r < (num_groups : Int))
    (hnum : num ≤ requests.length) (h : holds_pending BUF_SIZE num_groups s pending) :
    ∃ s', distribute_reqs (BUF_SIZE : Int) (num_groups : Int) hash_req send s w requests
          (num : Int) =
        .ok (s', (pending_after BUF_SIZE num_groups hash_req send pending w requests num).2) ∧
      holds_pending BUF_SIZE num_groups s'
        (pending_after BUF_SIZE num_groups hash_req send pending w requests num).1 ∧
      ∀ g, ((pending_after BUF_SIZE num_groups hash_req send pending w requests
          num).1[g]?.getD []).Sublist
        (pending[g]?.getD [] ++
          (requests.take num).filter (fun r => decide ((hash_req r).toNat = g))) := by
  obtain ⟨s1, e1, e2⟩ := distribute_loop_spec send hs BUF_SIZE num_groups hash_req requests hh
    num 0 s pending w (by omega) h
  rw [List.drop_zero] at e1 e2
  obtain ⟨s2, e3, e4⟩ := distribute_flush_loop_spec send hs BUF_SIZE num_groups num_groups 0 s1
    _ _ (by omega) e2
  refine ⟨s2, ?_, e4, fun g => pending_after_sublist BUF_SIZE num_groups hash_req send pending
    w requests num g⟩
  unfold distribute_reqs
  rw [Int.toNat_ofNat, Int.toNat_ofNat, e1]
  dsimp only
  rw [e3]
  rfl
/-- C23, an instance: `BUF_SIZE = 2`, two groups, requests hashed by their
parity, and a `send` that accepts one request in every other call. Of the
requests 10, 11, 12, 14, 16, 13, 18 the requests 16 and 18 are dropped (two
requests wait for the group 0 when they come), 10, 11 and 13 are accepted, and
12 and 14 wait for the group 0 at the end. -/
theorem distribute_reqs_spec_witness :
    distribute_reqs 2 2 (fun (r : Nat) => (r : Int) % 2) every_other_send
        ⟨[0, 0], [[0, 0], [0, 0]]⟩ 0 [10, 11, 12, 14, 16, 13, 18] 7 =
      .ok (⟨[2, 0], [[12, 14], [13, 13]]⟩, 5) ∧
    pending_after 2 2 (fun (r : Nat) => (r : Int) % 2) every_other_send [[], []] 0
        [10, 11, 12, 14, 16, 13, 18] 7 = ([[12, 14], []], 5) ∧
    ∃ s', distribute_reqs ((2 : Nat) : Int) ((2 : Nat) : Int) (fun (r : Nat) => (r : Int) % 2)
          every_other_send ⟨[0, 0], [[0, 0], [0, 0]]⟩ 0 [10, 11, 12, 14, 16, 13, 18]
          ((7 : Nat) : Int) =
        .ok (s', (pending_after 2 2 (fun (r : Nat) => (r : Int) % 2) every_other_send [[], []] 0
          [10, 11, 12, 14, 16, 13, 18] 7).2) ∧
      holds_pending 2 2 s'
        (pending_after 2 2 (fun (r : Nat) => (r : Int) % 2) every_other_send [[], []] 0
          [10, 11, 12, 14, 16, 13, 18] 7).1 ∧
      ∀ g, ((pending_after 2 2 (fun (r : Nat) => (r : Int) % 2) every_other_send [[], []] 0
          [10, 11, 12, 14, 16, 13, 18] 7).1[g]?.getD []).Sublist
        (([[], []] : List (List Nat))[g]?.getD [] ++
          (([10, 11, 12, 14, 16, 13, 18] : List Nat).take 7).filter
            (fun (r : Nat) => decide (((r : Int) % 2).toNat = g))) :=
  ⟨by decide, by decide,
    distribute_reqs_spec every_other_send 2 2 (fun (r : Nat) => (r : Int) % 2)
      ⟨[0, 0], [[0, 0], [0, 0]]⟩ [[], []] 0 [10, 11, 12, 14, 16, 13, 18] 7
      (by
        intro w g l k hk
        unfold every_other_send
        dsimp only
        split_ifs <;> omega)
      (by decide) (by decide)
      ⟨rfl, rfl, rfl, by
        intro g hg
        have h : g = 0 ∨ g = 1 := by omega
        rcases h with rfl | rfl
        · exact ⟨0, [0, 0], rfl, rfl, by decide, rfl, rfl⟩
        · exact ⟨0, [0, 0], rfl, rfl, by decide, rfl, rfl⟩⟩⟩

theorem driver_run_append {σ F : Type} (ops : file_io σ)
    (task_frame : List Nat → Nat → Except fault F) (append : F → List F → F) (MAX_PENDING : Nat) :
    ∀ (a b : List driver_event) (s s1 : driver_state σ F),
      driver_run ops task_frame append MAX_PENDING s a = some s1 →
      driver_run ops task_frame append MAX_PENDING s (a ++ b) =
        driver_run ops task_frame append MAX_PENDING s1 b := by
  intro a
  induction a with
  | nil =>
    intro b s s1 h
    simp only [driver_run, Option.some.injEq] at h
    subst h
    rfl
  | cons ev evs ih =>
    intro b s s1 h
    rw [List.cons_append]
    simp only [driver_run] at h ⊢
    cases hs : driver_step ops task_frame append MAX_PENDING s ev with
    | none => rw [hs] at h; cases h
    | some s2 =>
      rw [hs] at h
      simp only at h ⊢
      exact ih b s2 s1 h

/-- C21: what the code does instead. The three operands of the condition of
the loop of `cleanup()` are read one after the other. In the run
`late_request_run` of two threads, both of which call `cleanup()`, thread 0
finds its request queue empty, thread 1 then puts a request into that queue
and calls `cleanup()`, and thread 0 then reads `finished_threads = 2`: after
twelve events thread 0 has left its loop with the request 7 in its request
queue, and at the end of the run both threads have left their loops and the
request is still there. The body of the loop is not run in it. -/
theorem cleanup_exits_with_request (body : Nat → List (worker Nat Nat) → List (worker Nat Nat)) :
    (∃ s, cleanup_run 2 body two_workers (late_request_run.take 12) = some s ∧
      s.pc = [.done, .test_request] ∧
      s.workers.map (fun x => x.finished_threads) = [2, 2] ∧
      s.workers.map (fun x => x.request_queue.is_empty) = [false, true] ∧
      s.workers.map (fun x => x.request_queue.records) = [[some 7], []]) ∧
    ∃ s, cleanup_run 2 body two_workers late_request_run = some s ∧
      s.pc = [.done, .done] ∧
      s.workers.map (fun x => x.finished_threads) = [2, 2] ∧
      s.workers.map (fun x => x.request_queue.is_empty) = [false, true] ∧
      s.workers.map (fun x => x.reply_queue.is_empty) = [true, true] ∧
      s.workers.map (fun x => x.request_queue.records) = [[some 7], []] := by
  refine ⟨⟨⟨[⟨⟨[7, 0], 2, 0, 1⟩, ⟨[0, 0], 2, 0, 0⟩, 2⟩, ⟨⟨[0, 0], 2, 0, 0⟩, ⟨[0, 0], 2, 0, 0⟩, 2⟩],
      [.done, .test_request]⟩, rfl, by decide, by decide, by decide, by decide⟩,
    ⟨⟨[⟨⟨[7, 0], 2, 0, 1⟩, ⟨[0, 0], 2, 0, 0⟩, 2⟩, ⟨⟨[0, 0], 2, 0, 0⟩, ⟨[0, 0], 2, 0, 0⟩, 2⟩],
      [.done, .done]⟩, rfl, by decide, by decide, by decide, by decide, by decide⟩⟩

/-- C9: what the code does instead. On the file `1 2`, `3 4` (one block, two
rows) with the edge parser, in the run `early_task_run`, in which the parse
task finishes before the driver thread tests `dfs.get_num_dfs() > 0`: the
frame of the block is fetched and appended inside the loop, so the result
frame `df` holds the two rows; then the driver thread is in the call of
`fetch_data_frames` behind the loop with no task left and an empty queue,
where neither it nor a worker can take a step, and no continuation of the run
ends with the call returned. The call returns no frame. -/
theorem read_lines_final_fetch_waits :
    ∃ s, driver_run (text_file_io.ops 4096) (edge_task_frame vertex_decl32) data_frame_append 3
        (driver_init ⟨str "1 2\n3 4\n", 0⟩ edge_frame 3) early_task_run = some s ∧
      s.pc = .final_fetch ∧ s.pending = [] ∧ s.dfs.dfs = [] ∧
      (text_file_io.ops 4096).eof s.io = true ∧
      s.blocks_read = [(str "1 2\n3 4\n", 8)] ∧
      s.df = [⟨"source", .vertex_id_t, [.vid 1, .vid 3]⟩, ⟨"dest", .vertex_id_t, [.vid 2, .vid 4]⟩] ∧
      (∀ ev, driver_step (text_file_io.ops 4096) (edge_task_frame vertex_decl32)
        data_frame_append 3 s ev = none) ∧
      ∀ events, ¬ ∃ s', driver_run (text_file_io.ops 4096) (edge_task_frame vertex_decl32)
        data_frame_append 3 (driver_init ⟨str "1 2\n3 4\n", 0⟩ edge_frame 3)
        (early_task_run ++ events) = some s' ∧ s'.pc = .done := by
  have hrun : driver_run (text_file_io.ops 4096) (edge_task_frame vertex_decl32)
      data_frame_append 3 (driver_init ⟨str "1 2\n3 4\n", 0⟩ edge_frame 3) early_task_run =
      some ⟨.final_fetch, ⟨str "1 2\n3 4\n", 8⟩,
        [⟨"source", .vertex_id_t, [.vid 1, .vid 3]⟩, ⟨"dest", .vertex_id_t, [.vid 2, .vid 4]⟩], 3, 1, [],
        ⟨[], 0, 3⟩, [(str "1 2\n3 4\n", 8)]⟩ := by rfl
  refine ⟨_, hrun, rfl, rfl, rfl, by decide, rfl, rfl, ?_, ?_⟩
  · intro ev
    cases ev with
    | main => rfl
    | worker k => rfl
  · rintro events ⟨s', hs', hpc⟩
    rw [driver_run_append _ _ _ _ _ _ _ _ hrun] at hs'
    obtain ⟨_, _, _, h⟩ := driver_run_idle _ _ _ _ events _ s'
      ⟨rfl, rfl, by decide, Or.inr (Or.inr rfl)⟩ hs'
    rw [hpc] at h
    rcases h with h | h | h <;> cases h

/-- C19: what the code does instead. `BUF_SIZE = 2`, replies of 2 bytes, and
the worker 0 (at the address 100) with a reply queue of one place. A call of
`reply` with the replies `[(0,1),(0,2)]` and `[(0,5),(0,6)]` to two requests of
the worker 0 puts the first reply into the queue and keeps one record staged;
the worker 0 fetches the first reply from its queue; the next call of `reply`,
with no replies, flushes the staged record into the queue. The record that the
worker 0 then finds in its reply queue is `[(0,5),(0,2)]`, which is the reply
to neither of its requests, and the reply `[(0,5),(0,6)]` is nowhere. -/
theorem reply_queue_gets_mixed_record :
    ∃ (s1 s2 : reply_bufs (Int × Nat)) (q : bulk_queue (List (Int × Nat))),
      reply 2 2 2 (fun (r : Nat) => r) two_idx two_id2thread two_bufs [100, 100]
          [[(0, 1), (0, 2)], [(0, 5), (0, 6)]] 2 = .ok (0, s1) ∧
      s1.nreplies = [1, 0] ∧
      (s1.reply_queue 100).records = [some [(0, 1), (0, 2)]] ∧
      (s1.reply_queue 100).fetch 2 = .ok (1, [[(0, 1), (0, 2)]], q) ∧
      reply 2 2 2 (fun (r : Nat) => r) two_idx two_id2thread
          ⟨s1.nreplies, s1.thread_replies, fun p => if p = 100 then q else s1.reply_queue p⟩
          [] [] 0 = .ok (0, s2) ∧
      s2.nreplies = [0, 0] ∧
      (s2.reply_queue 100).records = [some [(0, 5), (0, 2)]] ∧
      (s2.reply_queue 200).records = [] ∧
      [(0, 5), (0, 2)] ∉ ([[(0, 1), (0, 2)], [(0, 5), (0, 6)]] : List (List (Int × Nat))) := by
  refine ⟨_, _, _, rfl, rfl, rfl, rfl, rfl, rfl, rfl, rfl, by decide⟩

end fm
